import Mathlib

/-!
Verification of the B+Tree key-value store core (tree driver, node model,
pager) against its specification.

The embedding mirrors `src/tree.rs`, `src/node/mod.rs`, `src/node/leaf.rs`,
`src/node/internal.rs` and `src/pager.rs`.  The Rust code uses
`Key = String` (lexicographic byte order) and `Value = Vec<u8>`; the engine
only ever uses the total order on keys and treats values as opaque, so the
embedding is parametric over a linear order `K` and an arbitrary type `V`.
File I/O is modelled by a pure page store (an association list from offsets
to nodes); the pager's cursor discipline (`write` allocates at the cursor and
advances it by `PAGE_SIZE`, `write_at` overwrites at a given offset) is kept
exactly.  Rust panics (out-of-bounds indexing, `unwrap` on `None`) and
unreachable-page reads are modelled by returning `none`, so every operation
is `Option`-valued.  Recursion through the page store is fuel-indexed
(the Rust recursion is bounded by the tree height; a call with enough fuel
agrees with it, and all claims are stated accordingly).
-/

namespace BPTreeModel

set_option maxRecDepth 8000

/-- Page size of the backing file (`pager.rs`). -/
def PAGE_SIZE : Nat := 4096

/-- Default startup offset (`pager.rs`: `HEADER_SIZE + 20`). -/
def STARTUP_OFFSET : Nat := PAGE_SIZE + 20

/-- Embeds `LeafNode` (src/node/leaf.rs). -/
structure LeafNode (K V : Type) where
  keys : List K
  values : List V
  offset : Option Nat
deriving DecidableEq, Repr

/-- Embeds `InternalNode` (src/node/internal.rs). -/
structure InternalNode (K : Type) where
  keys : List K
  children : List Nat
  offset : Option Nat
deriving DecidableEq, Repr

/-- Embeds the tagged union `Node` (src/node/mod.rs). -/
inductive Node (K V : Type) where
  | Leaf (payload : LeafNode K V)
  | Internal (payload : InternalNode K)
deriving DecidableEq, Repr

/-- Lookup in the page store: the most recent write at an offset wins. -/
def storeLookup {K V : Type} : List (Nat × Node K V) → Nat → Option (Node K V)
  | [], _ => none
  | e :: rest, off => if e.1 = off then some e.2 else storeLookup rest off

/-- Embeds `Pager` (src/pager.rs): the backing file as a map from byte
offsets to decoded nodes, plus the allocation cursor. -/
structure Pager (K V : Type) where
  cursor : Nat
  store : List (Nat × Node K V)
deriving DecidableEq, Repr

/-- Embeds `Pager::next_offset`: returns the cursor without advancing. -/
def Pager.next_offset {K V : Type} (self : Pager K V) : Nat := self.cursor

/-- Embeds `Pager::read`: decode the node stored at `offset`. Reading an
offset that was never written is an I/O/codec failure, modelled as `none`. -/
def Pager.read {K V : Type} (self : Pager K V) (offset : Nat) : Option (Node K V) :=
  storeLookup self.store offset

/-- Embeds `Pager::write`: serialize the node at the cursor, advance the
cursor by `PAGE_SIZE`, return the offset written. -/
def Pager.write {K V : Type} (self : Pager K V) (node : Node K V) : Nat × Pager K V :=
  (self.cursor, { cursor := self.cursor + PAGE_SIZE, store := (self.cursor, node) :: self.store })

/-- Embeds `Pager::write_at`: serialize the node at the given offset. -/
def Pager.write_at {K V : Type} (self : Pager K V) (node : Node K V) (offset : Nat) :
    Pager K V :=
  { self with store := (offset, node) :: self.store }

/-- Loop body of Rust `slice::binary_search` (`left`/`right` bisection;
`.inl p` is `Ok(p)` — exact hit at `p` — and `.inr p` is `Err(p)` — the
insertion point).  The loop always terminates because the interval shrinks;
the fuel argument only makes the recursion structural, and
`keys.length` fuel is always enough (see `bsAux_out`). -/
def bsAux {K : Type} [LinearOrder K] (keys : List K) (key : K) :
    Nat → Nat → Nat → Sum Nat Nat
  | 0, left, _ => .inr left
  | fuel+1, left, right =>
    if left < right then
      match keys.get? (left + (right - left) / 2) with
      | none => .inr left
      | some a =>
        if a < key then bsAux keys key fuel (left + (right - left) / 2 + 1) right
        else if key < a then bsAux keys key fuel left (left + (right - left) / 2)
        else .inl (left + (right - left) / 2)
    else .inr left

/-- Embeds Rust `slice::binary_search(&key)` on the whole slice. -/
def binary_search {K : Type} [LinearOrder K] (keys : List K) (key : K) : Sum Nat Nat :=
  bsAux keys key keys.length 0 keys.length

/-- Embeds `.unwrap_or_else(|pos| pos)` applied to a `binary_search` result. -/
def unwrapPos : Sum Nat Nat → Nat
  | .inl p => p
  | .inr p => p

/-- Embeds `LeafNode::split` (src/node/leaf.rs).  Returns the shrunk left
leaf, the separator key `keys[split_index - 1]`, and the new right leaf.
`split_index = 0` would make `keys[split_index - 1]` panic in Rust
(underflow), hence `none`; it never happens on the call path. -/
def LeafNode.split {K V : Type} (self : LeafNode K V) (pager : Pager K V) :
    Option (LeafNode K V × K × LeafNode K V) :=
  let split_index := self.keys.length / 2
  if split_index = 0 then none
  else
    match self.keys.get? (split_index - 1) with
    | none => none
    | some mid_key =>
      let new_leaf_node : LeafNode K V :=
        { keys := self.keys.drop split_index
          values := self.values.drop split_index
          offset := some pager.next_offset }
      let left : LeafNode K V := { self with
        keys := self.keys.take split_index
        values := self.values.take split_index }
      some (left, mid_key, new_leaf_node)

/-- Embeds `LeafNode::insert` (src/node/leaf.rs): unconditionally insert at
the binary-search position (`unwrap_or_else(|pos| pos)`), then split when
`len(keys) > degree - 1`. -/
def LeafNode.insert {K V : Type} [LinearOrder K] (self : LeafNode K V) (pager : Pager K V)
    (key : K) (value : V) (degree : Nat) :
    Option (LeafNode K V × Option (K × LeafNode K V)) :=
  let position := unwrapPos (binary_search self.keys key)
  let self1 : LeafNode K V := { self with
    keys := self.keys.insertIdx position key
    values := self.values.insertIdx position value }
  if self1.keys.length > degree - 1 then
    match self1.split pager with
    | none => none
    | some (left, mid_key, right) => some (left, some (mid_key, right))
  else
    some (self1, none)

/-- Embeds `LeafNode::remove` (src/node/leaf.rs): `none` result component on
a miss, otherwise remove the hit and report `len(keys) < degree / 2`. -/
def LeafNode.remove {K V : Type} [LinearOrder K] (self : LeafNode K V) (key : K)
    (degree : Nat) : LeafNode K V × Option Bool :=
  match binary_search self.keys key with
  | .inr _ => (self, none)
  | .inl position =>
    let self1 : LeafNode K V := { self with
      keys := self.keys.eraseIdx position
      values := self.values.eraseIdx position }
    (self1, some (decide (self1.keys.length < degree / 2)))

/-- Embeds `LeafNode::search` (src/node/leaf.rs). -/
def LeafNode.search {K V : Type} [LinearOrder K] (self : LeafNode K V) (key : K) :
    Option V :=
  match binary_search self.keys key with
  | .inr _ => none
  | .inl position => self.values.get? position

/-- Embeds `Node::is_empty` (src/node/mod.rs). -/
def Node.is_empty {K V : Type} (self : Node K V) : Bool :=
  match self with
  | .Internal payload => payload.keys.isEmpty && payload.children.isEmpty
  | .Leaf payload => payload.keys.isEmpty && payload.values.isEmpty

/-- Embeds `Node::can_borrow` (src/node/mod.rs): `keys.len() >= degree / 2`
(integer division, i.e. the floor). -/
def Node.can_borrow {K V : Type} (self : Node K V) (degree : Nat) : Bool :=
  match self with
  | .Leaf leaf_node => decide (degree / 2 ≤ leaf_node.keys.length)
  | .Internal internal_node => decide (degree / 2 ≤ internal_node.keys.length)

/-- Embeds `InternalNode::split` (src/node/internal.rs): split the keys at
`split_index = len / 2`, promote the median `keys[split_index]` (removed from
both halves), hand `children[split_index+1..]` to the new right node.
`Vec::remove(0)` on an empty vector would panic, hence `none`. -/
def InternalNode.split {K V : Type} (self : InternalNode K) (pager : Pager K V) :
    Option (InternalNode K × K × Node K V) :=
  let split_index := self.keys.length / 2
  match self.keys.drop split_index with
  | [] => none
  | median_key :: sibling_keys =>
    let new_internal_node : InternalNode K :=
      { keys := sibling_keys
        children := self.children.drop (split_index + 1)
        offset := some pager.next_offset }
    let left : InternalNode K := { self with
      keys := self.keys.take split_index
      children := self.children.take (split_index + 1) }
    some (left, median_key, .Internal new_internal_node)

/-- Embeds `Node::insert` together with `InternalNode::insert`
(src/node/mod.rs, src/node/internal.rs).  The internal case copies the child
to a freshly allocated offset, repoints `children[position]` at the copy,
recurses, writes the mutated child back at the copy offset, and on a child
split allocates the sibling, inserts the promoted key and sibling offset, and
splits itself when over-full.  The fuel bounds the recursion depth. -/
def Node.insert {K V : Type} [LinearOrder K] :
    Nat → Pager K V → Node K V → K → V → Nat →
    Option (Pager K V × Node K V × Option (K × Node K V))
  | _, pager, .Leaf leaf_node, key, value, degree =>
    match leaf_node.insert pager key value degree with
    | none => none
    | some (self1, none) => some (pager, .Leaf self1, none)
    | some (self1, some (mid_key, sibling)) =>
      some (pager, .Leaf self1, some (mid_key, .Leaf sibling))
  | 0, _, .Internal _, _, _, _ => none
  | fuel+1, pager, .Internal self, key, value, degree =>
    let position := unwrapPos (binary_search self.keys key)
    match self.children.get? position with
    | none => none
    | some child_offset =>
      match pager.read child_offset with
      | none => none
      | some child_node =>
        let (child_node_copy_offset, pager) := pager.write child_node
        let self : InternalNode K :=
          { self with children := self.children.set position child_node_copy_offset }
        match Node.insert fuel pager child_node key value degree with
        | none => none
        | some (pager, child_node, is_splitted) =>
          let pager := pager.write_at child_node child_node_copy_offset
          match is_splitted with
          | none => some (pager, .Internal self, none)
          | some (mid_key, sibling) =>
            let (sibling_offset, pager) := pager.write sibling
            let self : InternalNode K := { self with
              keys := self.keys.insertIdx position mid_key
              children := self.children.insertIdx (position + 1) sibling_offset }
            if self.keys.length > degree - 1 then
              match self.split pager with
              | none => none
              | some (left, mid_key2, sibling2) =>
                some (pager, .Internal left, some (mid_key2, sibling2))
            else
              some (pager, .Internal self, none)

/-- Embeds `InternalNode::borrow_left` (src/node/internal.rs).  The internal
case pops the left sibling's last key and child, pushes the parent separator
onto the child, and promotes the popped key; the leaf case moves the left
sibling's last key/value pair to the front of the child and sets the parent
separator to the sibling's new first key — `sibling.keys[0]` after the pop,
which panics (modelled as `none`) when the donor held a single key.  Mixed
leaf/internal pairs fall into the source's `_ => {}` arm: a silent no-op. -/
def InternalNode.borrow_left {K V : Type} (self : InternalNode K) (pager : Pager K V)
    (index : Nat) (left_sibling : Node K V) (left_sibling_offset : Nat)
    (child_node : Node K V) (child_offset : Nat) : Option (Pager K V × InternalNode K) :=
  if index = 0 then none
  else
    match left_sibling, child_node with
    | .Internal sibling, .Internal current =>
      match sibling.keys.getLast?, sibling.children.getLast?, self.keys.get? (index - 1) with
      | some borrowed_key, some borrowed_child, some parent_key =>
        let sibling1 : InternalNode K := { sibling with
          keys := sibling.keys.dropLast
          children := sibling.children.dropLast }
        let current1 : InternalNode K := { current with
          keys := parent_key :: current.keys
          children := borrowed_child :: current.children }
        let self1 : InternalNode K := { self with keys := self.keys.set (index - 1) borrowed_key }
        let pager := pager.write_at (.Internal sibling1) left_sibling_offset
        let pager := pager.write_at (.Internal current1) child_offset
        some (pager, self1)
      | _, _, _ => none
    | .Leaf sibling, .Leaf current =>
      match sibling.keys.getLast?, sibling.values.getLast?, self.keys.get? (index - 1) with
      | some borrowed_key, some borrowed_value, some _ =>
        let sibling1 : LeafNode K V := { sibling with
          keys := sibling.keys.dropLast
          values := sibling.values.dropLast }
        let current1 : LeafNode K V := { current with
          keys := borrowed_key :: current.keys
          values := borrowed_value :: current.values }
        match sibling1.keys.get? 0 with
        | none => none
        | some new_sep =>
          let self1 : InternalNode K := { self with keys := self.keys.set (index - 1) new_sep }
          let pager := pager.write_at (.Leaf sibling1) left_sibling_offset
          let pager := pager.write_at (.Leaf current1) child_offset
          some (pager, self1)
      | _, _, _ => none
    | _, _ => some (pager, self)

/-- Embeds `InternalNode::borrow_right` (src/node/internal.rs).  The internal
case removes the right sibling's first key and child, appends the parent
separator to the child, and promotes the removed key; the leaf case moves the
sibling's first key/value pair to the end of the child and sets the parent
separator to that moved key.  Mixed variants: silent no-op. -/
def InternalNode.borrow_right {K V : Type} (self : InternalNode K) (pager : Pager K V)
    (index : Nat) (right_sibling : Node K V) (right_sibling_offset : Nat)
    (child_node : Node K V) (child_offset : Nat) : Option (Pager K V × InternalNode K) :=
  match right_sibling, child_node with
  | .Internal sibling, .Internal current =>
    match sibling.keys, sibling.children, self.keys.get? index with
    | borrowed_key :: sibling_keys, borrowed_child :: sibling_children, some parent_key =>
      let sibling1 : InternalNode K := { sibling with
        keys := sibling_keys
        children := sibling_children }
      let current1 : InternalNode K := { current with
        keys := current.keys ++ [parent_key]
        children := current.children ++ [borrowed_child] }
      let self1 : InternalNode K := { self with keys := self.keys.set index borrowed_key }
      let pager := pager.write_at (.Internal sibling1) right_sibling_offset
      let pager := pager.write_at (.Internal current1) child_offset
      some (pager, self1)
    | _, _, _ => none
  | .Leaf sibling, .Leaf current =>
    match sibling.keys, sibling.values, self.keys.get? index with
    | borrowed_key :: sibling_keys, borrowed_value :: sibling_values, some _ =>
      let sibling1 : LeafNode K V := { sibling with
        keys := sibling_keys
        values := sibling_values }
      let self1 : InternalNode K := { self with keys := self.keys.set index borrowed_key }
      let current1 : LeafNode K V := { current with
        keys := current.keys ++ [borrowed_key]
        values := current.values ++ [borrowed_value] }
      let pager := pager.write_at (.Leaf sibling1) right_sibling_offset
      let pager := pager.write_at (.Leaf current1) child_offset
      some (pager, self1)
    | _, _, _ => none
  | _, _ => some (pager, self)

/-- Embeds `InternalNode::merge_left` (src/node/internal.rs).  The left
sibling absorbs the parent separator (internal case only) and the child's
keys/values/children; Rust `Vec::append` empties the child, and the emptied
child is written back at its (copy) offset before being unlinked from the
parent.  Mixed variants: silent no-op. -/
def InternalNode.merge_left {K V : Type} (self : InternalNode K) (pager : Pager K V)
    (index : Nat) (left_sibling : Node K V) (left_sibling_offset : Nat)
    (child_node : Node K V) (child_offset : Nat) : Option (Pager K V × InternalNode K) :=
  if index = 0 then none
  else
    match left_sibling, child_node with
    | .Internal sibling, .Internal current =>
      match self.keys.get? (index - 1), self.children.get? index with
      | some sep, some _ =>
        let sibling1 : InternalNode K := { sibling with
          keys := (sibling.keys ++ [sep]) ++ current.keys
          children := sibling.children ++ current.children }
        let current1 : InternalNode K := { current with keys := [], children := [] }
        let self1 : InternalNode K := { self with
          keys := self.keys.eraseIdx (index - 1)
          children := self.children.eraseIdx index }
        let pager := pager.write_at (.Internal sibling1) left_sibling_offset
        let pager := pager.write_at (.Internal current1) child_offset
        some (pager, self1)
      | _, _ => none
    | .Leaf sibling, .Leaf current =>
      match self.keys.get? (index - 1), self.children.get? index with
      | some _, some _ =>
        let sibling1 : LeafNode K V := { sibling with
          keys := sibling.keys ++ current.keys
          values := sibling.values ++ current.values }
        let current1 : LeafNode K V := { current with keys := [], values := [] }
        let self1 : InternalNode K := { self with
          keys := self.keys.eraseIdx (index - 1)
          children := self.children.eraseIdx index }
        let pager := pager.write_at (.Leaf sibling1) left_sibling_offset
        let pager := pager.write_at (.Leaf current1) child_offset
        some (pager, self1)
      | _, _ => none
    | _, _ => some (pager, self)

/-- Embeds `InternalNode::merge_right` (src/node/internal.rs).  The child
absorbs the parent separator (internal case only) and the right sibling's
contents; the emptied sibling is written back before being unlinked.
Mixed variants: silent no-op. -/
def InternalNode.merge_right {K V : Type} (self : InternalNode K) (pager : Pager K V)
    (index : Nat) (right_sibling : Node K V) (right_sibling_offset : Nat)
    (child_node : Node K V) (child_offset : Nat) : Option (Pager K V × InternalNode K) :=
  match child_node, right_sibling with
  | .Internal current, .Internal sibling =>
    match self.keys.get? index, self.children.get? (index + 1) with
    | some sep, some _ =>
      let current1 : InternalNode K := { current with
        keys := (current.keys ++ [sep]) ++ sibling.keys
        children := current.children ++ sibling.children }
      let sibling1 : InternalNode K := { sibling with keys := [], children := [] }
      let self1 : InternalNode K := { self with
        keys := self.keys.eraseIdx index
        children := self.children.eraseIdx (index + 1) }
      let pager := pager.write_at (.Internal sibling1) right_sibling_offset
      let pager := pager.write_at (.Internal current1) child_offset
      some (pager, self1)
    | _, _ => none
  | .Leaf current, .Leaf sibling =>
    match self.keys.get? index, self.children.get? (index + 1) with
    | some _, some _ =>
      let current1 : LeafNode K V := { current with
        keys := current.keys ++ sibling.keys
        values := current.values ++ sibling.values }
      let sibling1 : LeafNode K V := { sibling with keys := [], values := [] }
      let self1 : InternalNode K := { self with
        keys := self.keys.eraseIdx index
        children := self.children.eraseIdx (index + 1) }
      let pager := pager.write_at (.Leaf sibling1) right_sibling_offset
      let pager := pager.write_at (.Leaf current1) child_offset
      some (pager, self1)
    | _, _ => none
  | _, _ => some (pager, self)

/-- Final block of `InternalNode::rebalance` (src/node/internal.rs, lines
128-158): merge with the left sibling if one exists, else with the right;
then return `keys.len() < degree / 2`.  Reading `children[pos + 1]` when the
child is the only child would panic in Rust (`none` here). -/
def InternalNode.rebalance_merge {K V : Type} (self : InternalNode K) (pager : Pager K V)
    (child_offset_position : Nat) (child_node : Node K V) (child_offset : Nat)
    (degree : Nat) : Option (Pager K V × InternalNode K × Bool) :=
  if 0 < child_offset_position then
    match self.children.get? (child_offset_position - 1) with
    | none => none
    | some left_sibling_offset =>
      match pager.read left_sibling_offset with
      | none => none
      | some left_sibling =>
        let (left_sibling_copy_offset, pager) := pager.write left_sibling
        let self : InternalNode K :=
          { self with children := self.children.set (child_offset_position - 1) left_sibling_copy_offset }
        match self.merge_left pager child_offset_position left_sibling
            left_sibling_copy_offset child_node child_offset with
        | none => none
        | some (pager, self) => some (pager, self, decide (self.keys.length < degree / 2))
  else
    match self.children.get? (child_offset_position + 1) with
    | none => none
    | some right_sibling_offset =>
      match pager.read right_sibling_offset with
      | none => none
      | some right_sibling =>
        let (right_sibling_copy_offset, pager) := pager.write right_sibling
        let self : InternalNode K :=
          { self with children := self.children.set (child_offset_position + 1) right_sibling_copy_offset }
        match self.merge_right pager child_offset_position right_sibling
            right_sibling_copy_offset child_node child_offset with
        | none => none
        | some (pager, self) => some (pager, self, decide (self.keys.length < degree / 2))

/-- Second block of `InternalNode::rebalance` (lines 109-126): if a right
sibling exists, copy it, repoint the parent at the copy, and borrow from it
when it clears the `can_borrow` threshold (returning `false`); otherwise fall
through to the merge block. -/
def InternalNode.rebalance_try_right {K V : Type} (self : InternalNode K) (pager : Pager K V)
    (child_offset_position : Nat) (child_node : Node K V) (child_offset : Nat)
    (degree : Nat) : Option (Pager K V × InternalNode K × Bool) :=
  if child_offset_position < self.children.length - 1 then
    match self.children.get? (child_offset_position + 1) with
    | none => none
    | some right_sibling_offset =>
      match pager.read right_sibling_offset with
      | none => none
      | some right_sibling =>
        let (right_sibling_copy_offset, pager) := pager.write right_sibling
        let self : InternalNode K :=
          { self with children := self.children.set (child_offset_position + 1) right_sibling_copy_offset }
        if right_sibling.can_borrow degree then
          match self.borrow_right pager child_offset_position right_sibling
              right_sibling_copy_offset child_node child_offset with
          | none => none
          | some (pager, self) => some (pager, self, false)
        else
          self.rebalance_merge pager child_offset_position child_node child_offset degree
  else
    self.rebalance_merge pager child_offset_position child_node child_offset degree

/-- Embeds `InternalNode::rebalance` (src/node/internal.rs): try to borrow
from the left sibling, then from the right, else merge; borrows return
`false`, merges return `keys.len() < degree / 2`.  Every sibling examined is
first copied to a fresh offset and the parent repointed at the copy, exactly
as in the source. -/
def InternalNode.rebalance {K V : Type} (self : InternalNode K) (pager : Pager K V)
    (child_offset_position : Nat) (child_node : Node K V) (degree : Nat) :
    Option (Pager K V × InternalNode K × Bool) :=
  match self.children.get? child_offset_position with
  | none => none
  | some child_offset =>
    if 0 < child_offset_position then
      match self.children.get? (child_offset_position - 1) with
      | none => none
      | some left_sibling_offset =>
        match pager.read left_sibling_offset with
        | none => none
        | some left_sibling =>
          let (left_sibling_copy_offset, pager) := pager.write left_sibling
          let self : InternalNode K :=
            { self with children := self.children.set (child_offset_position - 1) left_sibling_copy_offset }
          if left_sibling.can_borrow degree then
            match self.borrow_left pager child_offset_position left_sibling
                left_sibling_copy_offset child_node child_offset with
            | none => none
            | some (pager, self) => some (pager, self, false)
          else
            self.rebalance_try_right pager child_offset_position child_node child_offset degree
    else
      self.rebalance_try_right pager child_offset_position child_node child_offset degree

/-- Embeds `Node::remove` together with `InternalNode::remove`
(src/node/mod.rs, src/node/internal.rs): descend at the lower-bound
position, copy the child to a fresh offset and repoint the parent, recurse;
on a hit write the child back at its copy offset and rebalance when the
child reported underflow. -/
def Node.remove {K V : Type} [LinearOrder K] :
    Nat → Pager K V → Node K V → K → Nat → Option (Pager K V × Node K V × Option Bool)
  | _, pager, .Leaf leaf_node, key, degree =>
    let (self1, result) := leaf_node.remove key degree
    some (pager, .Leaf self1, result)
  | 0, _, .Internal _, _, _ => none
  | fuel+1, pager, .Internal self, key, degree =>
    let position := unwrapPos (binary_search self.keys key)
    match self.children.get? position with
    | none => none
    | some child_offset =>
      match pager.read child_offset with
      | none => none
      | some child_node =>
        let (child_node_copy_offset, pager) := pager.write child_node
        let self : InternalNode K :=
          { self with children := self.children.set position child_node_copy_offset }
        match Node.remove fuel pager child_node key degree with
        | none => none
        | some (pager, child_node, result) =>
          match result with
          | none => some (pager, .Internal self, none)
          | some need_rebalance =>
            let pager := pager.write_at child_node child_node_copy_offset
            if need_rebalance then
              match self.rebalance pager position child_node degree with
              | none => none
              | some (pager, self, b) => some (pager, .Internal self, some b)
            else
              some (pager, .Internal self, some false)

/-- Embeds `Node::search` together with `InternalNode::search`
(src/node/mod.rs, src/node/internal.rs): lower-bound descent; an exact hit
in the routing keys descends into `children[position]` (not
`children[position + 1]`). -/
def Node.search {K V : Type} [LinearOrder K] :
    Nat → Pager K V → Node K V → K → Option (Option V)
  | _, _, .Leaf leaf_node, key => some (leaf_node.search key)
  | 0, _, .Internal _, _ => none
  | fuel+1, pager, .Internal self, key =>
    let position := unwrapPos (binary_search self.keys key)
    match self.children.get? position with
    | none => none
    | some child_offset =>
      match pager.read child_offset with
      | none => none
      | some child_node => Node.search fuel pager child_node key

/-- Embeds `BPTree` (src/tree.rs). -/
structure BPTree (K V : Type) where
  degree : Nat
  pager : Pager K V
  root_node : Option Nat
deriving DecidableEq, Repr

/-- Embeds `BPTree::new`. -/
def BPTree.new (K V : Type) (degree : Nat) (startup_offset : Nat) : BPTree K V :=
  { degree := degree
    pager := { cursor := startup_offset, store := [] }
    root_node := none }

/-- Embeds `BPTree::is_empty`. -/
def BPTree.is_empty {K V : Type} (self : BPTree K V) : Option Bool :=
  match self.root_node with
  | none => some true
  | some root_offset => (self.pager.read root_offset).map Node.is_empty

/-- Embeds `BPTree::insert` (src/tree.rs): seed a one-key leaf root, or copy
the root to a fresh offset, insert recursively, write the root back at the
copy offset, and on a root split build a new internal root over the copy and
the sibling. -/
def BPTree.insert {K V : Type} [LinearOrder K] (fuel : Nat) (self : BPTree K V)
    (key : K) (value : V) : Option (BPTree K V) :=
  match self.root_node with
  | none =>
    let root_node : Node K V :=
      .Leaf { keys := [key], values := [value], offset := some self.pager.next_offset }
    let (root_offset, pager) := self.pager.write root_node
    some { self with pager := pager, root_node := some root_offset }
  | some root_offset =>
    match self.pager.read root_offset with
    | none => none
    | some root_node =>
      let (root_copy_offset, pager) := self.pager.write root_node
      match Node.insert fuel pager root_node key value self.degree with
      | none => none
      | some (pager, root_node, is_splitted) =>
        match is_splitted with
        | none =>
          let pager := pager.write_at root_node root_copy_offset
          some { self with pager := pager, root_node := some root_copy_offset }
        | some (mid_key, sibling) =>
          let (sibling_offset, pager) := pager.write sibling
          let pager := pager.write_at root_node root_copy_offset
          let new_root : Node K V :=
            .Internal { keys := [mid_key], children := [root_copy_offset, sibling_offset],
                        offset := some pager.next_offset }
          let (new_root_offset, pager) := pager.write new_root
          some { self with pager := pager, root_node := some new_root_offset }

/-- Embeds `BPTree::delete` (src/tree.rs): no-op on an empty tree; otherwise
copy the root, remove recursively, write the root back at the copy offset,
and collapse the root to `children[0]` when the removal reported underflow
and the root is an internal node with no keys left. -/
def BPTree.delete {K V : Type} [LinearOrder K] (fuel : Nat) (self : BPTree K V)
    (key : K) : Option (BPTree K V) :=
  match self.root_node with
  | none => some self
  | some root_offset =>
    match self.pager.read root_offset with
    | none => none
    | some root_node =>
      let (root_copy_offset, pager) := self.pager.write root_node
      match Node.remove fuel pager root_node key self.degree with
      | none => none
      | some (pager, root_node, need_rebalance) =>
        let pager := pager.write_at root_node root_copy_offset
        match need_rebalance with
        | none => some { self with pager := pager, root_node := some root_copy_offset }
        | some b =>
          if b then
            match root_node with
            | .Leaf _ => some { self with pager := pager, root_node := some root_copy_offset }
            | .Internal payload =>
              if payload.keys.isEmpty then
                match payload.children.get? 0 with
                | none => none
                | some c0 => some { self with pager := pager, root_node := some c0 }
              else
                some { self with pager := pager, root_node := some root_copy_offset }
          else
            some { self with pager := pager, root_node := some root_copy_offset }

/-- Embeds `BPTree::search` (src/tree.rs). -/
def BPTree.search {K V : Type} [LinearOrder K] (fuel : Nat) (self : BPTree K V)
    (key : K) : Option (Option V) :=
  match self.root_node with
  | none => some none
  | some root_offset =>
    match self.pager.read root_offset with
    | none => none
    | some root_node => Node.search fuel self.pager root_node key

/-- A public mutating call of the tree driver. -/
inductive Op (K V : Type) where
  | insert (key : K) (value : V)
  | delete (key : K)
deriving DecidableEq, Repr

/-- Apply one public call. -/
def applyOp {K V : Type} [LinearOrder K] (fuel : Nat) (t : BPTree K V) :
    Op K V → Option (BPTree K V)
  | .insert k v => t.insert fuel k v
  | .delete k => t.delete fuel k

/-- Run a sequence of public calls against a fresh tree of the given degree
(`BPTree::new(degree, STARTUP_OFFSET, file)` followed by the calls).
`none` when some call fails (a Rust panic or I/O/decode error). -/
def runOps {K V : Type} [LinearOrder K] (degree fuel : Nat) (ops : List (Op K V)) :
    Option (BPTree K V) :=
  ops.foldlM (fun t op => applyOp fuel t op) (BPTree.new K V degree STARTUP_OFFSET)

/-! ## Reference model

The reference ordered map of the model-equivalence property (spec §8,
property 1): `insert` overwrites the value of an existing key, `delete`
removes the key, lookup returns the most recently inserted value. -/

/-- Reference-map interpretation of one public call (insert overwrites,
delete removes). -/
def refApplyOp {K V : Type} [DecidableEq K] (m : List (K × V)) : Op K V → List (K × V)
  | .insert k v => (k, v) :: m.filter (fun e => e.1 ≠ k)
  | .delete k => m.filter (fun e => e.1 ≠ k)

/-- Reference-map interpretation of a sequence of public calls. -/
def refRun {K V : Type} [DecidableEq K] (ops : List (Op K V)) : List (K × V) :=
  ops.foldl refApplyOp []

/-- Reference-map lookup. -/
def refLookup {K V : Type} [DecidableEq K] (m : List (K × V)) (k : K) : Option V :=
  (m.find? (fun e => decide (e.1 = k))).map (fun e => e.2)

/-! ## Serialized size model (bincode, standard configuration)

`pager.rs` serializes nodes with `bincode::config::standard()`: varint
integer encoding (one byte below 251, otherwise a marker byte plus 2, 4 or
8 bytes), enum discriminants as varint `u32`, sequences as a varint length
prefix followed by the elements, `String` as varint byte-length plus UTF-8
bytes, `Vec<u8>` as varint length plus raw bytes, `usize` as varint `u64`,
and `Option` as a one-byte tag plus the payload.  This section computes the
encoded size of a node with the Rust field types (`Key = String`,
`Value = Vec<u8>`, `Offset = usize`). -/

/-- Size in bytes of a bincode standard varint encoding of `n`. -/
def varintSize (n : Nat) : Nat :=
  if n < 251 then 1 else if n < 2 ^ 16 then 3 else if n < 2 ^ 32 then 5 else 9

/-- Encoded size of a `Key` (Rust `String`). -/
def stringEncodedSize (s : String) : Nat := varintSize s.utf8ByteSize + s.utf8ByteSize

/-- Encoded size of a `Value` (Rust `Vec<u8>`). -/
def valueEncodedSize (v : List UInt8) : Nat := varintSize v.length + v.length

/-- Encoded size of the `offset: Option<Offset>` field. -/
def optOffsetEncodedSize : Option Nat → Nat
  | none => 1
  | some o => 1 + varintSize o

/-- Encoded size of a `Node` under bincode's standard configuration, with
the Rust key/value types. -/
def nodeEncodedSize : Node String (List UInt8) → Nat
  | .Leaf l => 1 + varintSize l.keys.length + (l.keys.map stringEncodedSize).sum
      + varintSize l.values.length + (l.values.map valueEncodedSize).sum
      + optOffsetEncodedSize l.offset
  | .Internal n => 1 + varintSize n.keys.length + (n.keys.map stringEncodedSize).sum
      + varintSize n.children.length + (n.children.map varintSize).sum
      + optOffsetEncodedSize n.offset

/-- A leaf node holding one key with a 5000-byte value: its encoding takes
5009 bytes, past one 4096-byte page. -/
def oversizedNode : Node String (List UInt8) :=
  .Leaf { keys := ["a"], values := [List.replicate 5000 0], offset := none }

/-- Both nodes are leaves, or both are internal: the sibling/child pairings
for which borrow and merge do real work (the source treats a mixed pair as
unreachable and its `_ => {}` arm silently does nothing). -/
def sameVariant {K V : Type} (a b : Node K V) : Bool :=
  match a, b with
  | .Leaf _, .Leaf _ => true
  | .Internal _, .Internal _ => true
  | _, _ => false

/-! ## Abstraction layer

Pure trees and the relation tying a page store to the pure tree it encodes.
These are semantic devices for stating the claims; the operational
definitions above are the embedding of the source. -/

/-- The pure shape of an on-disk tree: offsets dereferenced away. -/
inductive PTree (K V : Type) where
  | leaf (keys : List K) (values : List V)
  | node (keys : List K) (children : List (PTree K V))

/-- `KeyIn x t`: `x` occurs as a key somewhere in `t` (stored in a leaf or
routing an internal node). -/
inductive KeyIn {K V : Type} (x : K) : PTree K V → Prop where
  | leaf {keys : List K} {values : List V} : x ∈ keys → KeyIn x (.leaf keys values)
  | nodeKey {keys : List K} {cs : List (PTree K V)} : x ∈ keys → KeyIn x (.node keys cs)
  | nodeChild {keys : List K} {cs : List (PTree K V)} {c : PTree K V} :
      c ∈ cs → KeyIn x c → KeyIn x (.node keys cs)

/-- `LeafKeyIn x t`: `x` is stored in some leaf of `t` (an observable entry,
as opposed to a routing key). -/
inductive LeafKeyIn {K V : Type} (x : K) : PTree K V → Prop where
  | leaf {keys : List K} {values : List V} : x ∈ keys → LeafKeyIn x (.leaf keys values)
  | child {keys : List K} {cs : List (PTree K V)} {c : PTree K V} :
      c ∈ cs → LeafKeyIn x c → LeafKeyIn x (.node keys cs)

/-- `Abs pg S off t`: the page at `off` unfolds through the store `pg` to
the pure tree `t`, every offset involved satisfies the allowed-set predicate
`S` (the claims use `S = (· < pg.cursor)`: the tree never points into
unallocated space), and every internal node links `keys.length + 1`
children. -/
inductive Abs {K V : Type} (pg : Pager K V) (S : Nat → Prop) : Nat → PTree K V → Prop where
  | leaf {off : Nat} {l : LeafNode K V} : S off → pg.read off = some (.Leaf l) →
      Abs pg S off (.leaf l.keys l.values)
  | node {off : Nat} {n : InternalNode K} {ts : List (PTree K V)} : S off →
      pg.read off = some (.Internal n) →
      n.children.length = n.keys.length + 1 →
      List.Forall₂ (Abs pg S) n.children ts →
      Abs pg S off (.node n.keys ts)

/-- `NodeAbs pg S n t`: the in-memory node `n` (whose children, if any, are
offsets into `pg`) unfolds to the pure tree `t`. -/
inductive NodeAbs {K V : Type} (pg : Pager K V) (S : Nat → Prop) : Node K V → PTree K V → Prop where
  | leaf {l : LeafNode K V} : NodeAbs pg S (.Leaf l) (.leaf l.keys l.values)
  | node {n : InternalNode K} {ts : List (PTree K V)} :
      n.children.length = n.keys.length + 1 →
      List.Forall₂ (Abs pg S) n.children ts →
      NodeAbs pg S (.Internal n) (.node n.keys ts)

/-- Optional lower bound check: `lbOK lo k` when `lo ≤ k` (or `lo` absent). -/
def lbOK {K : Type} [LinearOrder K] : Option K → K → Prop
  | none, _ => True
  | some b, k => b ≤ k

/-- Optional upper bound check: `ubOK hi k` when `k ≤ hi` (or `hi` absent). -/
def ubOK {K : Type} [LinearOrder K] : Option K → K → Prop
  | none, _ => True
  | some b, k => k ≤ b

/-- Lower bound on the subtree at child position `i` of an internal node:
the enclosing bound for the leftmost child, else the separator to its left. -/
def childLB {K : Type} (lo : Option K) (keys : List K) : Nat → Option K
  | 0 => lo
  | i+1 => keys.get? i

/-- Upper bound on the subtree at child position `i`: the separator at `i`,
or the enclosing bound for the rightmost child. -/
def childUB {K : Type} (hi : Option K) (keys : List K) (i : Nat) : Option K :=
  match keys.get? i with
  | some k => some k
  | none => hi

/-- Well-formedness of a pure tree between optional bounds: keys are
`≤`-sorted and within the bounds, internal nodes have `keys.length + 1`
children, and the subtree at child position `i` lies between the adjacent
separators inclusively — the separation discipline the code maintains
(a leaf split keeps the promoted key as the last key of the left leaf, so
the left subtree may contain keys equal to the separator). -/
inductive WF {K V : Type} [LinearOrder K] : Option K → Option K → PTree K V → Prop where
  | leaf {lo hi : Option K} {keys : List K} {values : List V} :
      keys.Sorted (· ≤ ·) → (∀ k ∈ keys, lbOK lo k ∧ ubOK hi k) →
      WF lo hi (.leaf keys values)
  | node {lo hi : Option K} {keys : List K} {cs : List (PTree K V)} :
      keys.Sorted (· ≤ ·) → (∀ k ∈ keys, lbOK lo k ∧ ubOK hi k) →
      cs.length = keys.length + 1 →
      (∀ i c, cs.get? i = some c → WF (childLB lo keys i) (childUB hi keys i) c) →
      WF lo hi (.node keys cs)

/-- Claim C6 as stated: for every internal node with separator
`keys[i] = k`, every key in the subtree at `children[i]` is strictly less
than `k`, and every key in the subtree at `children[i+1]` is at least `k`. -/
inductive StrictSep {K V : Type} [LinearOrder K] : PTree K V → Prop where
  | leaf {keys : List K} {values : List V} : StrictSep (.leaf keys values)
  | node {keys : List K} {cs : List (PTree K V)} :
      (∀ i k c, keys.get? i = some k → cs.get? i = some c →
        ∀ x, KeyIn x c → x < k) →
      (∀ i k c, keys.get? i = some k → cs.get? (i + 1) = some c →
        ∀ x, KeyIn x c → k ≤ x) →
      (∀ c ∈ cs, StrictSep c) → StrictSep (.node keys cs)

/-- Claim C6 amended: as `StrictSep`, but the left subtree is bounded by
`≤ k` instead of `< k` (the separator itself remains as the last key of the
left leaf after a split). -/
inductive Sep {K V : Type} [LinearOrder K] : PTree K V → Prop where
  | leaf {keys : List K} {values : List V} : Sep (.leaf keys values)
  | node {keys : List K} {cs : List (PTree K V)} :
      (∀ i k c, keys.get? i = some k → cs.get? i = some c →
        ∀ x, KeyIn x c → x ≤ k) →
      (∀ i k c, keys.get? i = some k → cs.get? (i + 1) = some c →
        ∀ x, KeyIn x c → k ≤ x) →
      (∀ c ∈ cs, Sep c) → Sep (.node keys cs)

/-- The tree-level invariant carried through every public operation: an
empty root slot, or a root page that unfolds to a well-formed pure tree. -/
def Inv {K V : Type} [LinearOrder K] (s : BPTree K V) : Prop :=
  match s.root_node with
  | none => True
  | some r => ∃ t : PTree K V, Abs s.pager (fun o => o < s.pager.cursor) r t ∧ WF none none t

/-- `HeightLe t n`: every root-to-leaf path of `t` crosses at most `n`
internal nodes — enough recursion fuel for the `Node` operations. -/
inductive HeightLe {K V : Type} : PTree K V → Nat → Prop where
  | leaf {keys : List K} {values : List V} {n : Nat} : HeightLe (.leaf keys values) n
  | node {keys : List K} {cs : List (PTree K V)} {n : Nat} :
      (∀ c ∈ cs, HeightLe c n) → HeightLe (.node keys cs) (n+1)


/-- The ops of the concrete separation counterexample: scenario S1's first
four inserts at degree 4 (keys 10, 20, 5, 6). -/
def c6ops : List (Op Nat Nat) :=
  [Op.insert 10 110, Op.insert 20 120, Op.insert 5 105, Op.insert 6 106]

/-- The tree state those four inserts produce. -/
def c6state : BPTree Nat Nat :=
  match runOps 4 10 c6ops with
  | some t => t
  | none => BPTree.new Nat Nat 4 STARTUP_OFFSET

/-- The pure tree of `c6state`: the root separator 6 also sits in the left
leaf, so the strict form of the separation invariant fails. -/
def c6tree : PTree Nat Nat :=
  .node [6] [.leaf [5, 6] [105, 106], .leaf [10, 20] [110, 120]]

/-- Ops whose final delete rebalances by borrowing from a left leaf sibling
holding three keys (degree 4): the insert phase builds root [2] over leaves
[0,1,2] and [3,4,5]; deleting 5 then 4 underflows the right leaf and borrows
from the left. -/
def c6dops : List (Op Nat Nat) :=
  [Op.insert 1 101, Op.insert 2 102, Op.insert 3 103, Op.insert 4 104,
   Op.insert 5 105, Op.insert 0 100, Op.delete 5, Op.delete 4]

/-- The tree state those eight calls produce. -/
def c6dstate : BPTree Nat Nat :=
  match runOps 4 10 c6dops with
  | some t => t
  | none => BPTree.new Nat Nat 4 STARTUP_OFFSET

/-- The pure tree of `c6dstate`: `borrow_left` set the parent separator to
the donor's FIRST remaining key (0) instead of the moved key, so the left
leaf still holds the key 1 > 0 — no separation discipline survives, and the
stored key 1 becomes unreachable to search. -/
def c6dtree : PTree Nat Nat :=
  .node [0] [.leaf [0, 1] [100, 101], .leaf [2, 3] [102, 103]]

/-! ## Theorems -/

/-! ### Binary search -/

theorem sorted_get?_le {K : Type} [LinearOrder K] {keys : List K}
    (hs : keys.Sorted (· ≤ ·)) {i j : Nat} {a b : K} (hij : i ≤ j)
    (ha : keys.get? i = some a) (hb : keys.get? j = some b) : a ≤ b := by
  rcases List.get?_eq_some.mp ha with ⟨hi, ha'⟩
  rcases List.get?_eq_some.mp hb with ⟨hj, hb'⟩
  subst ha' hb'
  rcases Nat.lt_or_ge i j with h | h
  · exact List.Sorted.rel_get_of_lt hs h
  · have : i = j := by omega
    subst this
    rfl

theorem bsAux_inl {K : Type} [LinearOrder K] {keys : List K} {key : K} :
    ∀ fuel left right p, bsAux keys key fuel left right = .inl p →
      keys.get? p = some key ∧ left ≤ p ∧ p < right := by
  intro fuel
  induction fuel with
  | zero => intro l r p h; simp [bsAux] at h
  | succ fuel ih =>
    intro l r p h
    rw [bsAux] at h
    split at h
    · have hml : l ≤ l + (r - l) / 2 := Nat.le_add_right _ _
      have hmr : l + (r - l) / 2 < r := by
        rename_i hlr
        have : (r - l) / 2 < r - l := Nat.div_lt_self (by omega) (by omega)
        omega
      split at h
      · cases h
      · rename_i a hg
        split at h
        · obtain ⟨h1, h2, h3⟩ := ih _ _ _ h
          exact ⟨h1, by omega, h3⟩
        · split at h
          · obtain ⟨h1, h2, h3⟩ := ih _ _ _ h
            exact ⟨h1, h2, by omega⟩
          · cases h
            rename_i ha hb
            have : a = key := le_antisymm (not_lt.mp hb) (not_lt.mp ha)
            exact ⟨this ▸ hg, hml, hmr⟩
    · cases h

theorem bsAux_inr_bounds {K : Type} [LinearOrder K] {keys : List K} {key : K} :
    ∀ fuel left right p, left ≤ right →
      bsAux keys key fuel left right = .inr p → left ≤ p ∧ p ≤ right := by
  intro fuel
  induction fuel with
  | zero => intro l r p hlr h; rw [bsAux] at h; cases h; omega
  | succ fuel ih =>
    intro l r p hlr h
    rw [bsAux] at h
    split at h
    · rename_i hlt
      have hml : l ≤ l + (r - l) / 2 := Nat.le_add_right _ _
      have hmr : l + (r - l) / 2 < r := by
        have : (r - l) / 2 < r - l := Nat.div_lt_self (by omega) (by omega)
        omega
      split at h
      · cases h; omega
      · rename_i a hg
        split at h
        · obtain ⟨h1, h2⟩ := ih _ _ _ (by omega) h
          exact ⟨by omega, h2⟩
        · split at h
          · obtain ⟨h1, h2⟩ := ih _ _ _ (by omega) h
            exact ⟨h1, by omega⟩
          · cases h
    · cases h; omega

theorem bsAux_inr {K : Type} [LinearOrder K] {keys : List K} {key : K}
    (hs : keys.Sorted (· ≤ ·)) :
    ∀ fuel left right p, right ≤ keys.length → right - left ≤ fuel → left ≤ right →
      bsAux keys key fuel left right = .inr p →
      left ≤ p ∧ p ≤ right ∧
      (∀ i a, left ≤ i → i < p → keys.get? i = some a → a < key) ∧
      (∀ i a, p ≤ i → i < right → keys.get? i = some a → key < a) := by
  intro fuel
  induction fuel with
  | zero =>
    intro l r p hr hf hlr h
    rw [bsAux] at h; cases h
    have : l = r := by omega
    subst this
    exact ⟨le_refl _, le_refl _, fun i a h1 h2 _ => by omega, fun i a h1 h2 _ => by omega⟩
  | succ fuel ih =>
    intro l r p hr hf hlr h
    rw [bsAux] at h
    split at h
    · rename_i hlt
      have hml : l ≤ l + (r - l) / 2 := Nat.le_add_right _ _
      have hmr : l + (r - l) / 2 < r := by
        have : (r - l) / 2 < r - l := Nat.div_lt_self (by omega) (by omega)
        omega
      split at h
      · rename_i hg
        exfalso
        have : keys.length ≤ l + (r - l) / 2 := List.get?_eq_none.mp hg
        omega
      · rename_i a hg
        split at h
        · rename_i ha
          obtain ⟨h1, h2, h3, h4⟩ := ih _ _ _ hr (by omega) (by omega) h
          refine ⟨by omega, h2, ?_, h4⟩
          intro i b hi1 hi2 hib
          by_cases hcase : i < l + (r - l) / 2 + 1
          · have : b ≤ a := sorted_get?_le hs (by omega) hib hg
            exact lt_of_le_of_lt this ha
          · exact h3 i b (by omega) hi2 hib
        · rename_i ha
          split at h
          · rename_i hb
            obtain ⟨h1, h2, h3, h4⟩ := ih _ _ _ (by omega) (by omega) (by omega) h
            refine ⟨h1, by omega, h3, ?_⟩
            intro i b hi1 hi2 hib
            by_cases hcase : i < l + (r - l) / 2
            · exact h4 i b hi1 hcase hib
            · have : a ≤ b := sorted_get?_le hs (by omega) hg hib
              exact lt_of_lt_of_le hb this
          · cases h
    · cases h
      have : l = r := by omega
      subst this
      exact ⟨le_refl _, le_refl _, fun i a h1 h2 _ => by omega, fun i a h1 h2 _ => by omega⟩

theorem binary_search_inl {K : Type} [LinearOrder K] {keys : List K} {key : K} {p : Nat}
    (h : binary_search keys key = .inl p) :
    keys.get? p = some key ∧ p < keys.length := by
  obtain ⟨h1, _, h3⟩ := bsAux_inl _ _ _ _ h
  exact ⟨h1, h3⟩

theorem binary_search_inr {K : Type} [LinearOrder K] {keys : List K} {key : K} {p : Nat}
    (hs : keys.Sorted (· ≤ ·)) (h : binary_search keys key = .inr p) :
    p ≤ keys.length ∧
    (∀ i a, i < p → keys.get? i = some a → a < key) ∧
    (∀ i a, p ≤ i → i < keys.length → keys.get? i = some a → key < a) := by
  obtain ⟨_, h2, h3, h4⟩ :=
    bsAux_inr hs _ 0 keys.length _ (le_refl _) (by omega) (by omega) h
  exact ⟨h2, fun i a hi ha => h3 i a (by omega) hi ha, h4⟩

theorem binary_search_inl_mem {K : Type} [LinearOrder K] {keys : List K} {key : K} {p : Nat}
    (h : binary_search keys key = .inl p) : key ∈ keys := by
  obtain ⟨h1, _⟩ := binary_search_inl h
  exact List.get?_mem h1

theorem position_le_length {K : Type} [LinearOrder K] (keys : List K) (key : K) :
    unwrapPos (binary_search keys key) ≤ keys.length := by
  cases h : binary_search keys key with
  | inl p => exact le_of_lt (binary_search_inl h).2
  | inr p =>
    have := bsAux_inr_bounds _ 0 keys.length p (by omega) h
    simpa [unwrapPos] using this.2

/-- Claim C1.  The spec asserts model equivalence: after any sequence of
insert/delete calls, `search(k)` matches the reference map (in which insert
overwrites) for every key ever inserted.  The code violates this — intended
overwrite-on-duplicate behaviour (spec §4.2 step 2) is missing from
`LeafNode::insert`, which unconditionally inserts at the binary-search
position.  Failing input, degree 4: `insert(k,100); insert(k,200)`; the
reference lookup gives 200, but `search(k)` on the tree gives 100 (the leaf
holds `keys = [k, k]`, `values = [200, 100]`, and `binary_search` lands on
index 1). -/
theorem c1_code_bug_eval :
    (runOps 4 10 [Op.insert 1 100, Op.insert 1 200]).bind (fun t => t.search 10 1)
      = some (some 100)
    ∧ refLookup (refRun [Op.insert (1 : Nat) (100 : Nat), Op.insert 1 200]) 1 = some 200
    ∧ (100 : Nat) ≠ 200 := by
  refine ⟨by decide, by decide, by decide⟩

/-- Claim C2.  The spec says leaf insert overwrites `values[p]` on an exact
key hit, leaves `keys` unchanged and returns none.  `LeafNode::insert`
(src/node/leaf.rs) has no overwrite branch: on the exact hit at position 0
it inserts the key again, so the leaf ends with two entries for the key, and
a subsequent search returns the first-inserted value, not the second. -/
theorem c2_code_bug_eval :
    LeafNode.insert { keys := [5], values := [70], offset := none }
        { cursor := 0, store := ([] : List (Nat × Node Nat Nat)) } 5 90 4
      = some ({ keys := [5, 5], values := [90, 70], offset := none }, none)
    ∧ LeafNode.search { keys := [5, 5], values := [90, 70], offset := (none : Option Nat) } 5
      = some 70 := by
  refine ⟨by decide, by decide⟩

/-- Claim C5's empty-state conjunct fails on the code: with degree 3,
`insert(1,100); insert(1,200); delete(1)` deletes every key that was ever
inserted, yet `is_empty()` returns false — the duplicate-insert slip (see
`c1_code_bug_eval`) leaves a second copy of the key in the leaf root. -/
theorem c5_code_bug_eval :
    (runOps 3 10 [Op.insert 1 100, Op.insert 1 200, Op.delete 1]).bind
        (fun t => t.is_empty)
      = some false := by
  decide

/-- Claim C9.  The spec asserts that `Pager::write`/`write_at` fail with an
`OversizedNode` error when the serialized node exceeds `PAGE_SIZE`.
`pager.rs` contains no size check of any kind: both operations serialize and
write unconditionally, so an oversized node is written across the page
boundary instead of being rejected.  Witnessed on a node whose bincode
encoding takes 5009 bytes. -/
theorem c9_code_bug_eval :
    PAGE_SIZE < nodeEncodedSize oversizedNode
    ∧ Pager.write { cursor := 0, store := [] } oversizedNode
      = (0, { cursor := PAGE_SIZE, store := [(0, oversizedNode)] })
    ∧ Pager.write_at { cursor := 0, store := [] } oversizedNode 77
      = { cursor := 0, store := [(77, oversizedNode)] } := by
  refine ⟨?_, rfl, rfl⟩
  have h1 : stringEncodedSize "a" = 2 := rfl
  have hv : valueEncodedSize (List.replicate 5000 0) = 5003 := by
    rw [valueEncodedSize, List.length_replicate]
    norm_num [varintSize]
  have hsum : nodeEncodedSize oversizedNode = 5009 := by
    simp only [nodeEncodedSize, oversizedNode, List.map_cons, List.map_nil, h1, hv,
      List.sum_cons, List.sum_nil, List.length_cons, List.length_nil, optOffsetEncodedSize]
    norm_num [varintSize]
  rw [hsum]
  norm_num [PAGE_SIZE]

/-- Claim C10.  The claimed in-bounds access does not hold: with degree 3,
`can_borrow` lets a left sibling holding a single key act as donor
(`1 ≥ 3 / 2`), and after the pop `sibling.keys[0]` is out of bounds — a
Rust panic.  Reachable from the public API: insert 1, 2, 3, delete 3, then
delete 2 panics inside `borrow_left` (the first four calls succeed). -/
theorem c10_code_bug_eval :
    runOps 3 10 [Op.insert 1 1, Op.insert 2 2, Op.insert 3 3, Op.delete 3, Op.delete 2]
      = (none : Option (BPTree Nat Nat))
    ∧ (runOps 3 10 [Op.insert 1 1, Op.insert 2 2, Op.insert 3 3, Op.delete 3]
        : Option (BPTree Nat Nat)).isSome = true := by
  refine ⟨by decide, by decide⟩

/-- Claim C8 as stated is false: mutated nodes are not written back at the
offset they were read from.  Concrete input, degree 4: after `insert(1,100)`
the root leaf sits at offset 4116; the structurally trivial `insert(2,200)`
(no split, same single leaf) rewrites the tree with the root at offset 8212
— every mutating call copies each loaded node to a freshly allocated offset
and writes the mutation there. -/
theorem c8_counterexample :
    (runOps 4 10 [Op.insert 1 100]).map (fun t => t.root_node) = some (some 4116)
    ∧ (runOps 4 10 [Op.insert 1 100, Op.insert 2 200]).map (fun t => t.root_node)
      = some (some 8212)
    ∧ ((runOps 4 10 [Op.insert 1 100, Op.insert 2 200]).bind
        (fun t => t.root_node.bind t.pager.read))
      = some (.Leaf { keys := [1, 2], values := [100, 200], offset := some 4116 })
    ∧ (4116 : Nat) ≠ 8212 := by
  refine ⟨by decide, by decide, by decide, by decide⟩

/-- Claim C3.  Split layout.  Leaf half: when inserting key/value at the
binary-search position `p` makes the key list `ks` exceed `degree - 1`
entries, the leaf splits at `s = ⌊ks.length / 2⌋`: the separator returned
upward is `ks[s-1]`, which remains the last key of the left leaf
(`left.keys = ks.take s` of length `s`), and the new right leaf takes
`ks.drop s` / `vs.drop s`; with no overflow nothing splits.  Internal half:
along the code path where the child at the lower-bound position split, the
parent inserts the promoted key at `p` and the sibling offset at `p + 1`,
and if the resulting key list `keys1` exceeds `degree - 1` entries it splits
at `s = ⌊keys1.length / 2⌋`, promoting `keys1[s]` (removed from both
halves): the left keeps `keys1.take s` and `children1.take (s+1)`, the new
right node takes `keys1.drop (s+1)` and `children1.drop (s+1)`. -/
theorem c3_split_layout {K V : Type} [LinearOrder K] :
    (∀ (self : LeafNode K V) (pg : Pager K V) (key : K) (value : V) (degree : Nat)
        (left : LeafNode K V) (sp : Option (K × LeafNode K V)),
      3 ≤ degree →
      LeafNode.insert self pg key value degree = some (left, sp) →
      (∀ ks vs s, ks = self.keys.insertIdx (unwrapPos (binary_search self.keys key)) key →
        vs = self.values.insertIdx (unwrapPos (binary_search self.keys key)) value →
        s = ks.length / 2 →
        (degree - 1 < ks.length →
          ∃ mid right, sp = some (mid, right)
            ∧ ks.get? (s - 1) = some mid
            ∧ left.keys = ks.take s ∧ left.values = vs.take s
            ∧ right.keys = ks.drop s ∧ right.values = vs.drop s
            ∧ left.keys.length = s ∧ left.keys.get? (s - 1) = some mid)
        ∧ (ks.length ≤ degree - 1 → sp = none ∧ left.keys = ks ∧ left.values = vs)))
    ∧
    (∀ (self : InternalNode K) (pg pgA pg2 pg3 pg4 pg5 : Pager K V) (fuel : Nat) (key : K)
        (value : V) (degree : Nat) (coff coff2 sibOff : Nat)
        (child child2 sib n' : Node K V) (mid : K)
        (sp : Option (K × Node K V)),
      3 ≤ degree →
      self.children.get? (unwrapPos (binary_search self.keys key)) = some coff →
      pg.read coff = some child →
      pg.write child = (coff2, pgA) →
      Node.insert fuel pgA child key value degree = some (pg2, child2, some (mid, sib)) →
      pg2.write_at child2 coff2 = pg3 →
      pg3.write sib = (sibOff, pg4) →
      Node.insert (fuel + 1) pg (.Internal self) key value degree = some (pg5, n', sp) →
      (∀ keys1 children1 s,
        keys1 = self.keys.insertIdx (unwrapPos (binary_search self.keys key)) mid →
        children1 = (self.children.set (unwrapPos (binary_search self.keys key)) coff2).insertIdx
            (unwrapPos (binary_search self.keys key) + 1) sibOff →
        s = keys1.length / 2 →
        (degree - 1 < keys1.length →
          ∃ leftn rightn mid2, n' = .Internal leftn ∧ sp = some (mid2, .Internal rightn)
            ∧ keys1.get? s = some mid2
            ∧ leftn.keys = keys1.take s ∧ leftn.children = children1.take (s + 1)
            ∧ rightn.keys = keys1.drop (s + 1) ∧ rightn.children = children1.drop (s + 1))
        ∧ (keys1.length ≤ degree - 1 → sp = none
            ∧ n' = .Internal { self with keys := keys1, children := children1 }))) := by
  constructor
  · intro self pg key value degree left sp hd h ks vs s hks hvs hs
    subst hks hvs hs
    simp only [LeafNode.insert] at h
    split at h
    · rename_i hlen
      split at h
      · cases h
      · rename_i l2 mk2 r2 heq
        simp only [Option.some.injEq, Prod.mk.injEq] at h
        obtain ⟨hL, hSp⟩ := h
        subst hL
        subst hSp
        simp only [LeafNode.split] at heq
        have hs0 : ¬ ((self.keys.insertIdx (unwrapPos (binary_search self.keys key)) key).length / 2 = 0) := by
          have h2 : 2 ≤ (self.keys.insertIdx (unwrapPos (binary_search self.keys key)) key).length := by
            omega
          have := Nat.one_le_div_iff (show 0 < 2 by omega) |>.mpr h2
          omega
        rw [if_neg hs0] at heq
        split at heq
        · cases heq
        · rename_i m hm
          simp only [Option.some.injEq, Prod.mk.injEq] at heq
          obtain ⟨h1, h2, h3⟩ := heq
          subst h1
          subst h2
          subst h3
          refine ⟨fun _ => ⟨m, _, rfl, hm, rfl, rfl, rfl, rfl, ?_, ?_⟩, fun hcon => by omega⟩
          · exact List.length_take_of_le (Nat.div_le_self _ _)
          · have hlt : (self.keys.insertIdx (unwrapPos (binary_search self.keys key)) key).length / 2 - 1
                < (self.keys.insertIdx (unwrapPos (binary_search self.keys key)) key).length / 2 := by
              omega
            rw [List.get?_take hlt]
            exact hm
    · rename_i hlen
      simp only [Option.some.injEq, Prod.mk.injEq] at h
      obtain ⟨h1, h2⟩ := h
      subst h1
      subst h2
      exact ⟨fun hcon => by omega, fun _ => ⟨rfl, rfl, rfl⟩⟩
  · intro self pg pgA pg2 pg3 pg4 pg5 fuel key value degree coff coff2 sibOff
      child child2 sib n' mid sp hd hcoff hread hw hrec hwb hws h
    intro keys1 children1 s hk1 hc1 hs1
    subst hk1 hc1 hs1
    simp only [Node.insert, hcoff, hread, hw, hrec, hwb, hws] at h
    split at h
    · rename_i hlen
      split at h
      · cases h
      · rename_i l2 mk2 sb2 heq
        simp only [Option.some.injEq, Prod.mk.injEq] at h
        obtain ⟨hP, hN, hSp⟩ := h
        subst hP
        subst hN
        subst hSp
        simp only [InternalNode.split] at heq
        have hslen : (self.keys.insertIdx (unwrapPos (binary_search self.keys key)) mid).length / 2
            < (self.keys.insertIdx (unwrapPos (binary_search self.keys key)) mid).length := by
          exact Nat.div_lt_self (by omega) (by omega)
        rw [List.drop_eq_getElem_cons hslen] at heq
        simp only [Option.some.injEq, Prod.mk.injEq] at heq
        obtain ⟨h1, h2, h3⟩ := heq
        subst h1
        subst h2
        subst h3
        refine ⟨fun _ => ⟨_, _, _, rfl, rfl, ?_, rfl, rfl, rfl, rfl⟩, fun hcon => by omega⟩
        exact List.get?_eq_get hslen
    · rename_i hlen
      simp only [Option.some.injEq, Prod.mk.injEq] at h
      obtain ⟨h1, h2, h3⟩ := h
      subst h1
      subst h2
      subst h3
      exact ⟨fun hcon => by omega, fun _ => ⟨rfl, rfl⟩⟩

/-- Witness for `c3_split_layout`: both halves applied at concrete inputs.
Leaf: inserting 3 into the two-key leaf `[1, 2]` at degree 3 splits at
`s = 1` with separator `[1,2,3][0] = 1`.  Internal: a one-key internal node
whose left child splits absorbs the promoted key and sibling offset without
splitting itself. -/
theorem c3_split_layout_witness :
    (∃ mid right,
      (some ((1 : Nat), ({ keys := [2, 3], values := [20, 30], offset := some 0 } : LeafNode Nat Nat)))
        = some (mid, right)
      ∧ ([1, 2, 3] : List Nat).get? (1 - 1) = some mid)
    ∧ ((none : Option (Nat × Node Nat Nat)) = none
      ∧ (Node.Internal { keys := [1, 5], children := [300, 4396, 200], offset := none } : Node Nat Nat)
        = Node.Internal { keys := [1, 5], children := [300, 4396, 200], offset := none }) := by
  constructor
  · have h := (c3_split_layout.1 { keys := [1, 2], values := [10, 20], offset := none }
      { cursor := 0, store := [] } 3 30 3
      { keys := [1], values := [10], offset := none }
      (some (1, { keys := [2, 3], values := [20, 30], offset := some 0 }))
      (by decide) (by decide) [1, 2, 3] [10, 20, 30] 1 (by decide) (by decide) (by decide)).1
      (by decide)
    obtain ⟨mid, right, h1, h2, _⟩ := h
    exact ⟨mid, right, h1, h2⟩
  · have h := (c3_split_layout.2 { keys := [5], children := [100, 200], offset := none }
      { cursor := 300, store := [(100, .Leaf { keys := [2, 3], values := [22, 33], offset := none })] }
      { cursor := 4396, store := [(300, .Leaf { keys := [2, 3], values := [22, 33], offset := none }), (100, .Leaf { keys := [2, 3], values := [22, 33], offset := none })] }
      { cursor := 4396, store := [(300, .Leaf { keys := [2, 3], values := [22, 33], offset := none }), (100, .Leaf { keys := [2, 3], values := [22, 33], offset := none })] }
      { cursor := 4396, store := [(300, .Leaf { keys := [1], values := [11], offset := none }), (300, .Leaf { keys := [2, 3], values := [22, 33], offset := none }), (100, .Leaf { keys := [2, 3], values := [22, 33], offset := none })] }
      { cursor := 8492, store := [(4396, .Leaf { keys := [2, 3], values := [22, 33], offset := some 4396 }), (300, .Leaf { keys := [1], values := [11], offset := none }), (300, .Leaf { keys := [2, 3], values := [22, 33], offset := none }), (100, .Leaf { keys := [2, 3], values := [22, 33], offset := none })] }
      { cursor := 8492, store := [(4396, .Leaf { keys := [2, 3], values := [22, 33], offset := some 4396 }), (300, .Leaf { keys := [1], values := [11], offset := none }), (300, .Leaf { keys := [2, 3], values := [22, 33], offset := none }), (100, .Leaf { keys := [2, 3], values := [22, 33], offset := none })] }
      0 1 11 3 100 300 4396
      (.Leaf { keys := [2, 3], values := [22, 33], offset := none })
      (.Leaf { keys := [1], values := [11], offset := none })
      (.Leaf { keys := [2, 3], values := [22, 33], offset := some 4396 })
      (.Internal { keys := [1, 5], children := [300, 4396, 200], offset := none })
      1 none
      (by decide) (by decide) (by decide) (by decide) (by decide) (by decide) (by decide) (by decide)
      [1, 5] [300, 4396, 200] 1 (by decide) (by decide) (by decide)).2 (by decide)
    exact ⟨rfl, h.2⟩

/-! ### Pager plumbing -/

theorem Pager.cursor_write {K V : Type} (pg : Pager K V) (n : Node K V) :
    (pg.write n).2.cursor = pg.cursor + PAGE_SIZE := rfl

theorem Pager.read_write_self {K V : Type} (pg : Pager K V) (n : Node K V) :
    (pg.write n).2.read pg.cursor = some n := by
  simp [Pager.write, Pager.read, storeLookup]

theorem Pager.read_write_of_ne {K V : Type} (pg : Pager K V) (n : Node K V) {off : Nat}
    (h : off ≠ pg.cursor) : (pg.write n).2.read off = pg.read off := by
  simp only [Pager.write, Pager.read, storeLookup]
  exact if_neg fun hc => h hc.symm

theorem Pager.read_write_at_self {K V : Type} (pg : Pager K V) (n : Node K V) (tgt : Nat) :
    (pg.write_at n tgt).read tgt = some n := by
  simp [Pager.write_at, Pager.read, storeLookup]

theorem Pager.read_write_at_of_ne {K V : Type} (pg : Pager K V) (n : Node K V) {off tgt : Nat}
    (h : off ≠ tgt) : (pg.write_at n tgt).read off = pg.read off := by
  simp only [Pager.write_at, Pager.read, storeLookup]
  exact if_neg fun hc => h hc.symm

/-! ### Borrow and merge result shapes -/

theorem borrow_left_shape {K V : Type} [LinearOrder K] {self : InternalNode K}
    {pg : Pager K V} {i : Nat} {L child : Node K V} {loff coff : Nat} {pg2 : Pager K V}
    {self2 : InternalNode K}
    (h : self.borrow_left pg i L loff child coff = some (pg2, self2)) :
    self2.keys.length = self.keys.length ∧ self2.children = self.children := by
  cases L with
  | Internal ls =>
    cases child with
    | Internal cs =>
      simp only [InternalNode.borrow_left] at h
      split at h
      · cases h
      · split at h <;>
          first
          | (simp only [Option.some.injEq, Prod.mk.injEq] at h
             obtain ⟨h1, h2⟩ := h
             subst h2
             simp [List.length_set])
          | cases h
    | Leaf cs =>
      simp only [InternalNode.borrow_left] at h
      split at h
      · cases h
      · simp only [Option.some.injEq, Prod.mk.injEq] at h
        obtain ⟨h1, h2⟩ := h
        subst h2
        exact ⟨rfl, rfl⟩
  | Leaf ls =>
    cases child with
    | Leaf cs =>
      simp only [InternalNode.borrow_left] at h
      split at h
      · cases h
      · split at h <;>
          first
          | (split at h <;>
              first
              | (simp only [Option.some.injEq, Prod.mk.injEq] at h
                 obtain ⟨h1, h2⟩ := h
                 subst h2
                 simp [List.length_set])
              | cases h)
          | cases h
    | Internal cs =>
      simp only [InternalNode.borrow_left] at h
      split at h
      · cases h
      · simp only [Option.some.injEq, Prod.mk.injEq] at h
        obtain ⟨h1, h2⟩ := h
        subst h2
        exact ⟨rfl, rfl⟩

theorem borrow_right_shape {K V : Type} [LinearOrder K] {self : InternalNode K}
    {pg : Pager K V} {i : Nat} {R child : Node K V} {roff coff : Nat} {pg2 : Pager K V}
    {self2 : InternalNode K}
    (h : self.borrow_right pg i R roff child coff = some (pg2, self2)) :
    self2.keys.length = self.keys.length ∧ self2.children = self.children := by
  cases R with
  | Internal rs =>
    cases child with
    | Internal cs =>
      simp only [InternalNode.borrow_right] at h
      split at h <;>
        first
        | (simp only [Option.some.injEq, Prod.mk.injEq] at h
           obtain ⟨h1, h2⟩ := h
           subst h2
           simp [List.length_set])
        | cases h
    | Leaf cs =>
      simp only [InternalNode.borrow_right] at h
      simp only [Option.some.injEq, Prod.mk.injEq] at h
      obtain ⟨h1, h2⟩ := h
      subst h2
      exact ⟨rfl, rfl⟩
  | Leaf rs =>
    cases child with
    | Leaf cs =>
      simp only [InternalNode.borrow_right] at h
      split at h <;>
        first
        | (simp only [Option.some.injEq, Prod.mk.injEq] at h
           obtain ⟨h1, h2⟩ := h
           subst h2
           simp [List.length_set])
        | cases h
    | Internal cs =>
      simp only [InternalNode.borrow_right] at h
      simp only [Option.some.injEq, Prod.mk.injEq] at h
      obtain ⟨h1, h2⟩ := h
      subst h2
      exact ⟨rfl, rfl⟩

theorem merge_left_shape {K V : Type} [LinearOrder K] {self : InternalNode K}
    {pg : Pager K V} {i : Nat} {L child : Node K V} {loff coff : Nat} {pg2 : Pager K V}
    {self2 : InternalNode K} (hv : sameVariant L child = true)
    (h : self.merge_left pg i L loff child coff = some (pg2, self2)) :
    self2.keys = self.keys.eraseIdx (i - 1) ∧ self2.children = self.children.eraseIdx i := by
  cases L with
  | Internal ls =>
    cases child with
    | Internal cs =>
      simp only [InternalNode.merge_left] at h
      split at h
      · cases h
      · split at h <;>
          first
          | (simp only [Option.some.injEq, Prod.mk.injEq] at h
             obtain ⟨h1, h2⟩ := h
             subst h2
             exact ⟨rfl, rfl⟩)
          | cases h
    | Leaf cs => simp [sameVariant] at hv
  | Leaf ls =>
    cases child with
    | Leaf cs =>
      simp only [InternalNode.merge_left] at h
      split at h
      · cases h
      · split at h <;>
          first
          | (simp only [Option.some.injEq, Prod.mk.injEq] at h
             obtain ⟨h1, h2⟩ := h
             subst h2
             exact ⟨rfl, rfl⟩)
          | cases h
    | Internal cs => simp [sameVariant] at hv

theorem merge_right_shape {K V : Type} [LinearOrder K] {self : InternalNode K}
    {pg : Pager K V} {i : Nat} {R child : Node K V} {roff coff : Nat} {pg2 : Pager K V}
    {self2 : InternalNode K} (hv : sameVariant child R = true)
    (h : self.merge_right pg i R roff child coff = some (pg2, self2)) :
    self2.keys = self.keys.eraseIdx i ∧ self2.children = self.children.eraseIdx (i + 1) := by
  cases R with
  | Internal rs =>
    cases child with
    | Internal cs =>
      simp only [InternalNode.merge_right] at h
      split at h <;>
        first
        | (simp only [Option.some.injEq, Prod.mk.injEq] at h
           obtain ⟨h1, h2⟩ := h
           subst h2
           exact ⟨rfl, rfl⟩)
        | cases h
    | Leaf cs => simp [sameVariant] at hv
  | Leaf rs =>
    cases child with
    | Leaf cs =>
      simp only [InternalNode.merge_right] at h
      split at h <;>
        first
        | (simp only [Option.some.injEq, Prod.mk.injEq] at h
           obtain ⟨h1, h2⟩ := h
           subst h2
           exact ⟨rfl, rfl⟩)
        | cases h
    | Internal cs => simp [sameVariant] at hv

theorem borrow_left_writes {K V : Type} [LinearOrder K] {self : InternalNode K}
    {pg : Pager K V} {i : Nat} {L child : Node K V} {lo co : Nat} {pg2 : Pager K V}
    {self2 : InternalNode K}
    (h : self.borrow_left pg i L lo child co = some (pg2, self2)) :
    pg2.cursor = pg.cursor ∧ ∀ off, off ≠ lo → off ≠ co → pg2.read off = pg.read off := by
  cases L with
  | Internal ls =>
    cases child with
    | Internal cs =>
      simp only [InternalNode.borrow_left] at h
      split at h
      · cases h
      · split at h <;>
          first
          | (simp only [Option.some.injEq, Prod.mk.injEq] at h
             obtain ⟨h1, h2⟩ := h
             subst h1
             exact ⟨rfl, fun off h1 h2 =>
               (Pager.read_write_at_of_ne _ _ h2).trans (Pager.read_write_at_of_ne _ _ h1)⟩)
          | cases h
    | Leaf cs =>
      simp only [InternalNode.borrow_left] at h
      split at h
      · cases h
      · simp only [Option.some.injEq, Prod.mk.injEq] at h
        obtain ⟨h1, h2⟩ := h
        subst h1
        exact ⟨rfl, fun off h1 h2 => rfl⟩
  | Leaf ls =>
    cases child with
    | Leaf cs =>
      simp only [InternalNode.borrow_left] at h
      split at h
      · cases h
      · split at h <;>
          first
          | (split at h <;>
              first
              | (simp only [Option.some.injEq, Prod.mk.injEq] at h
                 obtain ⟨h1, h2⟩ := h
                 subst h1
                 exact ⟨rfl, fun off h1 h2 =>
                   (Pager.read_write_at_of_ne _ _ h2).trans (Pager.read_write_at_of_ne _ _ h1)⟩)
              | cases h)
          | cases h
    | Internal cs =>
      simp only [InternalNode.borrow_left] at h
      split at h
      · cases h
      · simp only [Option.some.injEq, Prod.mk.injEq] at h
        obtain ⟨h1, h2⟩ := h
        subst h1
        exact ⟨rfl, fun off h1 h2 => rfl⟩

theorem borrow_right_writes {K V : Type} [LinearOrder K] {self : InternalNode K}
    {pg : Pager K V} {i : Nat} {R child : Node K V} {ro co : Nat} {pg2 : Pager K V}
    {self2 : InternalNode K}
    (h : self.borrow_right pg i R ro child co = some (pg2, self2)) :
    pg2.cursor = pg.cursor ∧ ∀ off, off ≠ ro → off ≠ co → pg2.read off = pg.read off := by
  cases R with
  | Internal rs =>
    cases child with
    | Internal cs =>
      simp only [InternalNode.borrow_right] at h
      split at h <;>
        first
        | (simp only [Option.some.injEq, Prod.mk.injEq] at h
           obtain ⟨h1, h2⟩ := h
           subst h1
           exact ⟨rfl, fun off h1 h2 =>
             (Pager.read_write_at_of_ne _ _ h2).trans (Pager.read_write_at_of_ne _ _ h1)⟩)
        | cases h
    | Leaf cs =>
      simp only [InternalNode.borrow_right] at h
      simp only [Option.some.injEq, Prod.mk.injEq] at h
      obtain ⟨h1, h2⟩ := h
      subst h1
      exact ⟨rfl, fun off h1 h2 => rfl⟩
  | Leaf rs =>
    cases child with
    | Leaf cs =>
      simp only [InternalNode.borrow_right] at h
      split at h <;>
        first
        | (simp only [Option.some.injEq, Prod.mk.injEq] at h
           obtain ⟨h1, h2⟩ := h
           subst h1
           exact ⟨rfl, fun off h1 h2 =>
             (Pager.read_write_at_of_ne _ _ h2).trans (Pager.read_write_at_of_ne _ _ h1)⟩)
        | cases h
    | Internal cs =>
      simp only [InternalNode.borrow_right] at h
      simp only [Option.some.injEq, Prod.mk.injEq] at h
      obtain ⟨h1, h2⟩ := h
      subst h1
      exact ⟨rfl, fun off h1 h2 => rfl⟩

theorem merge_left_writes {K V : Type} [LinearOrder K] {self : InternalNode K}
    {pg : Pager K V} {i : Nat} {L child : Node K V} {lo co : Nat} {pg2 : Pager K V}
    {self2 : InternalNode K}
    (h : self.merge_left pg i L lo child co = some (pg2, self2)) :
    pg2.cursor = pg.cursor ∧ ∀ off, off ≠ lo → off ≠ co → pg2.read off = pg.read off := by
  cases L with
  | Internal ls =>
    cases child with
    | Internal cs =>
      simp only [InternalNode.merge_left] at h
      split at h
      · cases h
      · split at h <;>
          first
          | (simp only [Option.some.injEq, Prod.mk.injEq] at h
             obtain ⟨h1, h2⟩ := h
             subst h1
             exact ⟨rfl, fun off h1 h2 =>
               (Pager.read_write_at_of_ne _ _ h2).trans (Pager.read_write_at_of_ne _ _ h1)⟩)
          | cases h
    | Leaf cs =>
      simp only [InternalNode.merge_left] at h
      split at h
      · cases h
      · simp only [Option.some.injEq, Prod.mk.injEq] at h
        obtain ⟨h1, h2⟩ := h
        subst h1
        exact ⟨rfl, fun off h1 h2 => rfl⟩
  | Leaf ls =>
    cases child with
    | Leaf cs =>
      simp only [InternalNode.merge_left] at h
      split at h
      · cases h
      · split at h <;>
          first
          | (simp only [Option.some.injEq, Prod.mk.injEq] at h
             obtain ⟨h1, h2⟩ := h
             subst h1
             exact ⟨rfl, fun off h1 h2 =>
               (Pager.read_write_at_of_ne _ _ h2).trans (Pager.read_write_at_of_ne _ _ h1)⟩)
          | cases h
    | Internal cs =>
      simp only [InternalNode.merge_left] at h
      split at h
      · cases h
      · simp only [Option.some.injEq, Prod.mk.injEq] at h
        obtain ⟨h1, h2⟩ := h
        subst h1
        exact ⟨rfl, fun off h1 h2 => rfl⟩

theorem merge_right_writes {K V : Type} [LinearOrder K] {self : InternalNode K}
    {pg : Pager K V} {i : Nat} {R child : Node K V} {ro co : Nat} {pg2 : Pager K V}
    {self2 : InternalNode K}
    (h : self.merge_right pg i R ro child co = some (pg2, self2)) :
    pg2.cursor = pg.cursor ∧ ∀ off, off ≠ ro → off ≠ co → pg2.read off = pg.read off := by
  cases R with
  | Internal rs =>
    cases child with
    | Internal cs =>
      simp only [InternalNode.merge_right] at h
      split at h <;>
        first
        | (simp only [Option.some.injEq, Prod.mk.injEq] at h
           obtain ⟨h1, h2⟩ := h
           subst h1
           exact ⟨rfl, fun off h1 h2 =>
             (Pager.read_write_at_of_ne _ _ h2).trans (Pager.read_write_at_of_ne _ _ h1)⟩)
        | cases h
    | Leaf cs =>
      simp only [InternalNode.merge_right] at h
      simp only [Option.some.injEq, Prod.mk.injEq] at h
      obtain ⟨h1, h2⟩ := h
      subst h1
      exact ⟨rfl, fun off h1 h2 => rfl⟩
  | Leaf rs =>
    cases child with
    | Leaf cs =>
      simp only [InternalNode.merge_right] at h
      split at h <;>
        first
        | (simp only [Option.some.injEq, Prod.mk.injEq] at h
           obtain ⟨h1, h2⟩ := h
           subst h1
           exact ⟨rfl, fun off h1 h2 =>
             (Pager.read_write_at_of_ne _ _ h2).trans (Pager.read_write_at_of_ne _ _ h1)⟩)
        | cases h
    | Internal cs =>
      simp only [InternalNode.merge_right] at h
      simp only [Option.some.injEq, Prod.mk.injEq] at h
      obtain ⟨h1, h2⟩ := h
      subst h1
      exact ⟨rfl, fun off h1 h2 => rfl⟩

theorem rebalance_merge_frame {K V : Type} [LinearOrder K] {self : InternalNode K}
    {pg : Pager K V} {pos : Nat} {child : Node K V} {coff : Nat} {d : Nat}
    {pg2 : Pager K V} {self2 : InternalNode K} {b : Bool}
    (h : self.rebalance_merge pg pos child coff d = some (pg2, self2, b)) :
    pg.cursor ≤ pg2.cursor ∧
    ∀ off, off < pg.cursor → off ≠ coff → pg2.read off = pg.read off := by
  have hpos : 0 < PAGE_SIZE := by decide
  rw [InternalNode.rebalance_merge] at h
  split at h <;>
    (split at h
     · cases h
     · rename_i hget
       split at h
       · cases h
       · rename_i S hread
         simp only [Pager.write] at h
         split at h
         · cases h
         · rename_i pgm selfm heq
           simp only [Option.some.injEq, Prod.mk.injEq] at h
           obtain ⟨h1, h2, h3⟩ := h
           subst h1
           first
           | (obtain ⟨hc, hr⟩ := merge_left_writes heq
              have hcur : pgm.cursor = pg.cursor + PAGE_SIZE := hc
              refine ⟨by omega, ?_⟩
              intro off hlt hne
              rw [hr off (by omega) hne]
              simp only [Pager.read, storeLookup]
              exact if_neg (by omega))
           | (obtain ⟨hc, hr⟩ := merge_right_writes heq
              have hcur : pgm.cursor = pg.cursor + PAGE_SIZE := hc
              refine ⟨by omega, ?_⟩
              intro off hlt hne
              rw [hr off (by omega) hne]
              simp only [Pager.read, storeLookup]
              exact if_neg (by omega)))

theorem rebalance_try_right_frame {K V : Type} [LinearOrder K] {self : InternalNode K}
    {pg : Pager K V} {pos : Nat} {child : Node K V} {coff : Nat} {d : Nat}
    {pg2 : Pager K V} {self2 : InternalNode K} {b : Bool}
    (h : self.rebalance_try_right pg pos child coff d = some (pg2, self2, b)) :
    pg.cursor ≤ pg2.cursor ∧
    ∀ off, off < pg.cursor → off ≠ coff → pg2.read off = pg.read off := by
  have hpos : 0 < PAGE_SIZE := by decide
  rw [InternalNode.rebalance_try_right] at h
  split at h
  · split at h
    · cases h
    · rename_i hget
      split at h
      · cases h
      · rename_i S hread
        simp only [Pager.write] at h
        split at h
        · split at h
          · cases h
          · rename_i pgb selfb heq
            simp only [Option.some.injEq, Prod.mk.injEq] at h
            obtain ⟨h1, h2, h3⟩ := h
            subst h1
            obtain ⟨hc, hr⟩ := borrow_right_writes heq
            have hcur : pgb.cursor = pg.cursor + PAGE_SIZE := hc
            refine ⟨by omega, ?_⟩
            intro off hlt hne
            rw [hr off (by omega) hne]
            simp only [Pager.read, storeLookup]
            exact if_neg (by omega)
        · obtain ⟨hc, hr⟩ := rebalance_merge_frame h
          have hcur : pg.cursor + PAGE_SIZE ≤ pg2.cursor := hc
          refine ⟨by omega, ?_⟩
          intro off hlt hne
          have hstep := hr off (show off < pg.cursor + PAGE_SIZE by omega) hne
          rw [hstep]
          simp only [Pager.read, storeLookup]
          exact if_neg (by omega)
  · exact rebalance_merge_frame h

theorem rebalance_frame {K V : Type} [LinearOrder K] {self : InternalNode K}
    {pg : Pager K V} {pos : Nat} {child : Node K V} {d : Nat}
    {pg2 : Pager K V} {self2 : InternalNode K} {b : Bool} {coff : Nat}
    (hcoff : self.children.get? pos = some coff)
    (h : self.rebalance pg pos child d = some (pg2, self2, b)) :
    pg.cursor ≤ pg2.cursor ∧
    ∀ off, off < pg.cursor → off ≠ coff → pg2.read off = pg.read off := by
  have hpos : 0 < PAGE_SIZE := by decide
  rw [InternalNode.rebalance] at h
  rw [hcoff] at h
  simp only [] at h
  split at h
  · split at h
    · cases h
    · rename_i hget
      split at h
      · cases h
      · rename_i S hread
        simp only [Pager.write] at h
        split at h
        · split at h
          · cases h
          · rename_i pgb selfb heq
            simp only [Option.some.injEq, Prod.mk.injEq] at h
            obtain ⟨h1, h2, h3⟩ := h
            subst h1
            obtain ⟨hc, hr⟩ := borrow_left_writes heq
            have hcur : pgb.cursor = pg.cursor + PAGE_SIZE := hc
            refine ⟨by omega, ?_⟩
            intro off hlt hne
            rw [hr off (by omega) hne]
            simp only [Pager.read, storeLookup]
            exact if_neg (by omega)
        · obtain ⟨hc, hr⟩ := rebalance_try_right_frame h
          have hcur : pg.cursor + PAGE_SIZE ≤ pg2.cursor := hc
          refine ⟨by omega, ?_⟩
          intro off hlt hne
          have hstep := hr off (show off < pg.cursor + PAGE_SIZE by omega) hne
          rw [hstep]
          simp only [Pager.read, storeLookup]
          exact if_neg (by omega)
  · exact rebalance_try_right_frame h

theorem Node.insert_frame {K V : Type} [LinearOrder K] :
    ∀ (fuel : Nat) (pg : Pager K V) (n : Node K V) (k : K) (v : V) (d : Nat)
      (pg2 : Pager K V) (n2 : Node K V) (sp : Option (K × Node K V)),
      Node.insert fuel pg n k v d = some (pg2, n2, sp) →
      pg.cursor ≤ pg2.cursor ∧ ∀ off, off < pg.cursor → pg2.read off = pg.read off := by
  have hpos : 0 < PAGE_SIZE := by decide
  intro fuel
  induction fuel with
  | zero =>
    intro pg n k v d pg2 n2 sp h
    cases n with
    | Leaf l =>
      simp only [Node.insert] at h
      split at h <;>
        first
        | (cases h
           exact ⟨le_refl _, fun off _ => rfl⟩)
        | cases h
    | Internal nd =>
      simp only [Node.insert] at h
      cases h
  | succ fuel ih =>
    intro pg n k v d pg2 n2 sp h
    cases n with
    | Leaf l =>
      simp only [Node.insert] at h
      split at h <;>
        first
        | (cases h
           exact ⟨le_refl _, fun off _ => rfl⟩)
        | cases h
    | Internal nd =>
      simp only [Node.insert] at h
      split at h
      · cases h
      · rename_i coff hget
        split at h
        · cases h
        · rename_i child hread
          simp only [Pager.write] at h
          split at h
          · cases h
          · rename_i pgR childR spR heqrec
            obtain ⟨ihc, ihr⟩ := ih _ _ _ _ _ _ _ _ heqrec
            have ihc2 : pg.cursor + PAGE_SIZE ≤ pgR.cursor := ihc
            split at h
            · simp only [Option.some.injEq, Prod.mk.injEq] at h
              obtain ⟨h1, h2⟩ := h
              subst h1
              refine ⟨?_, ?_⟩
              · show pg.cursor ≤ pgR.cursor
                omega
              · intro off hlt
                show (pgR.write_at childR pg.cursor).read off = pg.read off
                rw [Pager.read_write_at_of_ne _ _ (by omega : off ≠ pg.cursor)]
                have hstep := ihr off (show off < pg.cursor + PAGE_SIZE by omega)
                rw [hstep]
                simp only [Pager.read, storeLookup]
                exact if_neg (by omega)
            · rename_i mk sib
              simp only [Pager.write, Pager.write_at] at h
              split at h
              · split at h
                · cases h
                · rename_i l2 mk2 sib2 heqsp
                  simp only [Option.some.injEq, Prod.mk.injEq] at h
                  obtain ⟨h1, h2⟩ := h
                  subst h1
                  refine ⟨?_, ?_⟩
                  · show pg.cursor ≤ pgR.cursor + PAGE_SIZE
                    omega
                  · intro off hlt
                    simp only [Pager.read, storeLookup]
                    rw [if_neg (by omega : ¬ pgR.cursor = off)]
                    rw [if_neg (by omega : ¬ pg.cursor = off)]
                    have hstep := ihr off (show off < pg.cursor + PAGE_SIZE by omega)
                    have hstep2 : storeLookup pgR.store off
                        = storeLookup ((pg.cursor, child) :: pg.store) off := hstep
                    rw [hstep2]
                    simp only [storeLookup]
                    rw [if_neg (by omega : ¬ pg.cursor = off)]
              · simp only [Option.some.injEq, Prod.mk.injEq] at h
                obtain ⟨h1, h2⟩ := h
                subst h1
                refine ⟨?_, ?_⟩
                · show pg.cursor ≤ pgR.cursor + PAGE_SIZE
                  omega
                · intro off hlt
                  simp only [Pager.read, storeLookup]
                  rw [if_neg (by omega : ¬ pgR.cursor = off)]
                  rw [if_neg (by omega : ¬ pg.cursor = off)]
                  have hstep := ihr off (show off < pg.cursor + PAGE_SIZE by omega)
                  have hstep2 : storeLookup pgR.store off
                      = storeLookup ((pg.cursor, child) :: pg.store) off := hstep
                  rw [hstep2]
                  simp only [storeLookup]
                  rw [if_neg (by omega : ¬ pg.cursor = off)]

theorem Node.remove_frame {K V : Type} [LinearOrder K] :
    ∀ (fuel : Nat) (pg : Pager K V) (n : Node K V) (k : K) (d : Nat)
      (pg2 : Pager K V) (n2 : Node K V) (res : Option Bool),
      Node.remove fuel pg n k d = some (pg2, n2, res) →
      pg.cursor ≤ pg2.cursor ∧ ∀ off, off < pg.cursor → pg2.read off = pg.read off := by
  have hpos : 0 < PAGE_SIZE := by decide
  intro fuel
  induction fuel with
  | zero =>
    intro pg n k d pg2 n2 res h
    cases n with
    | Leaf l =>
      simp only [Node.remove] at h
      simp only [Option.some.injEq, Prod.mk.injEq] at h
      obtain ⟨h1, h2⟩ := h
      subst h1
      exact ⟨le_refl _, fun off _ => rfl⟩
    | Internal nd =>
      simp only [Node.remove] at h
      cases h
  | succ fuel ih =>
    intro pg n k d pg2 n2 res h
    cases n with
    | Leaf l =>
      simp only [Node.remove] at h
      simp only [Option.some.injEq, Prod.mk.injEq] at h
      obtain ⟨h1, h2⟩ := h
      subst h1
      exact ⟨le_refl _, fun off _ => rfl⟩
    | Internal nd =>
      simp only [Node.remove] at h
      split at h
      · cases h
      · rename_i coff hget
        split at h
        · cases h
        · rename_i child hread
          simp only [Pager.write] at h
          split at h
          · cases h
          · rename_i pgR childR resR heqrec
            obtain ⟨ihc, ihr⟩ := ih _ _ _ _ _ _ _ heqrec
            have ihc2 : pg.cursor + PAGE_SIZE ≤ pgR.cursor := ihc
            have hframe1 : ∀ off, off < pg.cursor → pgR.read off = pg.read off := by
              intro off hlt
              have hstep := ihr off (show off < pg.cursor + PAGE_SIZE by omega)
              have hstep2 : pgR.read off = storeLookup ((pg.cursor, child) :: pg.store) off := hstep
              rw [hstep2]
              simp only [storeLookup]
              rw [if_neg (by omega : ¬ pg.cursor = off)]
              rfl
            split at h
            · simp only [Option.some.injEq, Prod.mk.injEq] at h
              obtain ⟨h1, h2⟩ := h
              subst h1
              exact ⟨by omega, hframe1⟩
            · rename_i needReb
              split at h
              · split at h
                · cases h
                · rename_i pgB selfB bB heqreb
                  simp only [Option.some.injEq, Prod.mk.injEq] at h
                  obtain ⟨h1, h2⟩ := h
                  subst h1
                  have hilen : unwrapPos (binary_search nd.keys k) < nd.children.length := by
                    obtain ⟨hl, _⟩ := List.get?_eq_some.mp hget
                    exact hl
                  have hcoffB : (nd.children.set (unwrapPos (binary_search nd.keys k))
                      pg.cursor).get? (unwrapPos (binary_search nd.keys k)) = some pg.cursor :=
                    List.get?_set_eq_of_lt _ (by simpa using hilen)
                  obtain ⟨rc, rr⟩ := rebalance_frame hcoffB heqreb
                  have rc2 : pgR.cursor ≤ pgB.cursor := rc
                  refine ⟨by omega, ?_⟩
                  intro off hlt
                  have hstep := rr off (show off < pgR.cursor by omega)
                    (by omega : off ≠ pg.cursor)
                  rw [hstep]
                  rw [Pager.read_write_at_of_ne _ _ (by omega : off ≠ pg.cursor)]
                  exact hframe1 off hlt
              · simp only [Option.some.injEq, Prod.mk.injEq] at h
                obtain ⟨h1, h2⟩ := h
                subst h1
                refine ⟨?_, ?_⟩
                · show pg.cursor ≤ pgR.cursor
                  omega
                · intro off hlt
                  show (pgR.write_at childR pg.cursor).read off = pg.read off
                  rw [Pager.read_write_at_of_ne _ _ (by omega : off ≠ pg.cursor)]
                  exact hframe1 off hlt


/-! ### Abstraction-layer machinery -/

theorem Forall₂_get_left {α β : Type} {R : α → β → Prop} :
    ∀ {l1 : List α} {l2 : List β}, List.Forall₂ R l1 l2 →
      ∀ i a, l1.get? i = some a → ∃ b, l2.get? i = some b ∧ R a b := by
  intro l1 l2 h
  induction h with
  | nil => intro i a ha; simp at ha
  | cons hr _ ih =>
    intro i a ha
    cases i with
    | zero =>
      simp only [List.get?] at ha
      cases ha
      exact ⟨_, rfl, hr⟩
    | succ j =>
      simp only [List.get?] at ha
      exact ih j a ha

theorem Forall₂_get_right {α β : Type} {R : α → β → Prop} :
    ∀ {l1 : List α} {l2 : List β}, List.Forall₂ R l1 l2 →
      ∀ i b, l2.get? i = some b → ∃ a, l1.get? i = some a ∧ R a b := by
  intro l1 l2 h
  induction h with
  | nil => intro i b hb; simp at hb
  | cons hr _ ih =>
    intro i b hb
    cases i with
    | zero =>
      simp only [List.get?] at hb
      cases hb
      exact ⟨_, rfl, hr⟩
    | succ j =>
      simp only [List.get?] at hb
      exact ih j b hb

theorem Forall₂_imp_mem {α β : Type} {R R' : α → β → Prop} :
    ∀ {l1 : List α} {l2 : List β}, List.Forall₂ R l1 l2 →
      (∀ a b, b ∈ l2 → R a b → R' a b) → List.Forall₂ R' l1 l2 := by
  intro l1 l2 h
  induction h with
  | nil => intro _; exact List.Forall₂.nil
  | cons hr _ ih =>
    intro hm
    exact List.Forall₂.cons (hm _ _ (List.mem_cons_self _ _) hr)
      (ih fun a b hb hab => hm a b (List.mem_cons_of_mem _ hb) hab)

theorem sizeOf_mem_children {K V : Type} {keys : List K} {cs : List (PTree K V)}
    {c : PTree K V} (hc : c ∈ cs) : sizeOf c < sizeOf (PTree.node keys cs) := by
  have h1 : sizeOf c < sizeOf cs := List.sizeOf_lt_of_mem hc
  have h2 : sizeOf (PTree.node keys cs) = 1 + sizeOf keys + sizeOf cs := by
    simp [PTree.node.sizeOf_spec]
  omega

theorem sizeOf_ptree_pos {K V : Type} (t : PTree K V) : 0 < sizeOf t := by
  cases t with
  | leaf ks vs => simp [PTree.leaf.sizeOf_spec]
  | node ks cs => simp [PTree.node.sizeOf_spec]

theorem Abs_frame_aux {K V : Type} {pg pg2 : Pager K V} {S S2 : Nat → Prop}
    (hm : ∀ o, S o → S2 o) (hf : ∀ o, S o → pg2.read o = pg.read o) :
    ∀ (n : Nat) (t : PTree K V), sizeOf t ≤ n →
      ∀ off, Abs pg S off t → Abs pg2 S2 off t := by
  intro n
  induction n with
  | zero =>
    intro t ht
    exact absurd (sizeOf_ptree_pos t) (by omega)
  | succ n ih =>
    intro t ht off h
    cases h with
    | leaf hS hr => exact Abs.leaf (hm _ hS) ((hf _ hS).trans hr)
    | node hS hr hlen hkids =>
      refine Abs.node (hm _ hS) ((hf _ hS).trans hr) hlen ?_
      rename_i nd ts
      refine Forall₂_imp_mem hkids ?_
      intro a b hb hab
      have hsz : sizeOf b < sizeOf (PTree.node nd.keys ts) := sizeOf_mem_children hb
      exact ih b (by omega) a hab

/-- Frame-and-monotonicity for the store abstraction: a parse survives any
store change that preserves the reads inside its allowed set, and the
allowed set may grow. -/
theorem Abs.frame {K V : Type} {pg pg2 : Pager K V} {S S2 : Nat → Prop} {off : Nat}
    {t : PTree K V} (h : Abs pg S off t) (hm : ∀ o, S o → S2 o)
    (hf : ∀ o, S o → pg2.read o = pg.read o) : Abs pg2 S2 off t :=
  Abs_frame_aux hm hf (sizeOf t) t (le_refl _) off h

theorem NodeAbs.liftFrame {K V : Type} {pg pg2 : Pager K V} {S S2 : Nat → Prop}
    {n : Node K V} {t : PTree K V} (h : NodeAbs pg S n t) (hm : ∀ o, S o → S2 o)
    (hf : ∀ o, S o → pg2.read o = pg.read o) : NodeAbs pg2 S2 n t := by
  cases h with
  | leaf => exact NodeAbs.leaf
  | node hlen hkids =>
    exact NodeAbs.node hlen
      (List.Forall₂.imp (fun a b hab => Abs.frame hab hm hf) hkids)

/-! ### Bound arithmetic on optional bounds -/

theorem lbOK_trans {K : Type} [LinearOrder K] {lo : Option K} {a b : K}
    (h : lbOK lo a) (hab : a ≤ b) : lbOK lo b := by
  cases lo with
  | none => trivial
  | some x => exact le_trans h hab

theorem ubOK_trans {K : Type} [LinearOrder K] {hi : Option K} {a b : K}
    (h : ubOK hi a) (hba : b ≤ a) : ubOK hi b := by
  cases hi with
  | none => trivial
  | some x => exact le_trans hba h

theorem WF_keyIn_bounds_aux {K V : Type} [LinearOrder K] :
    ∀ (n : Nat) (t : PTree K V), sizeOf t ≤ n → ∀ lo hi, WF lo hi t →
      ∀ x, KeyIn x t → lbOK lo x ∧ ubOK hi x := by
  intro n
  induction n with
  | zero =>
    intro t ht
    exact absurd (sizeOf_ptree_pos t) (by omega)
  | succ n ih =>
    intro t ht lo hi hwf x hx
    cases hx with
    | leaf hmem =>
      cases hwf with
      | leaf hs hb => exact hb x hmem
    | nodeKey hmem =>
      cases hwf with
      | node hs hb hlen hch => exact hb x hmem
    | nodeChild hc hx' =>
      rename_i keys cs c
      cases hwf with
      | node hs hb hlen hch =>
        obtain ⟨i, hci⟩ := List.get?_of_mem hc
        have hwfc := hch i c hci
        have hsz : sizeOf c < sizeOf (PTree.node keys cs) := sizeOf_mem_children hc
        obtain ⟨hl, hu⟩ := ih c (by omega) _ _ hwfc x hx'
        have hilen : i < cs.length := (List.get?_eq_some.mp hci).1
        constructor
        · cases i with
          | zero => exact hl
          | succ j =>
            cases hk : keys.get? j with
            | none =>
              have := List.get?_eq_none.mp hk
              omega
            | some k2 =>
              rw [show childLB lo keys (j+1) = keys.get? j from rfl, hk] at hl
              exact lbOK_trans (hb k2 (List.get?_mem hk)).1 hl
        · cases hk : keys.get? i with
          | none =>
            rw [show childUB hi keys i = hi by simp only [childUB, hk]] at hu
            exact hu
          | some k2 =>
            rw [show childUB hi keys i = some k2 by simp only [childUB, hk]] at hu
            exact ubOK_trans (hb k2 (List.get?_mem hk)).2 hu

/-- Every key inside a tree that is well-formed between two bounds respects
those bounds. -/
theorem WF.keyBounds {K V : Type} [LinearOrder K] {lo hi : Option K} {t : PTree K V}
    (hwf : WF lo hi t) {x : K} (hx : KeyIn x t) : lbOK lo x ∧ ubOK hi x :=
  WF_keyIn_bounds_aux (sizeOf t) t (le_refl _) lo hi hwf x hx

theorem WF_sep_aux {K V : Type} [LinearOrder K] :
    ∀ (n : Nat) (t : PTree K V), sizeOf t ≤ n → ∀ lo hi, WF lo hi t → Sep t := by
  intro n
  induction n with
  | zero =>
    intro t ht
    exact absurd (sizeOf_ptree_pos t) (by omega)
  | succ n ih =>
    intro t ht lo hi hwf
    cases hwf with
    | leaf hs hb => exact Sep.leaf
    | node hs hb hlen hch =>
      rename_i keys cs
      refine Sep.node ?_ ?_ ?_
      · intro i k c hk hc x hx
        have hwfc := hch i c hc
        have hub : childUB hi keys i = some k := by simp only [childUB, hk]
        rw [hub] at hwfc
        exact (hwfc.keyBounds hx).2
      · intro i k c hk hc x hx
        have hwfc := hch (i+1) c hc
        have hlb : childLB lo keys (i+1) = some k := by
          rw [show childLB lo keys (i+1) = keys.get? i from rfl, hk]
        rw [hlb] at hwfc
        exact (hwfc.keyBounds hx).1
      · intro c hc
        obtain ⟨i, hci⟩ := List.get?_of_mem hc
        have hsz : sizeOf c < sizeOf (PTree.node keys cs) := sizeOf_mem_children hc
        exact ih c (by omega) _ _ (hch i c hci)

/-- A tree that is well-formed between any bounds satisfies the amended
separation discipline. -/
theorem WF.sep {K V : Type} [LinearOrder K] {lo hi : Option K} {t : PTree K V}
    (hwf : WF lo hi t) : Sep t :=
  WF_sep_aux (sizeOf t) t (le_refl _) lo hi hwf

/-! ### Sortedness around the binary-search position -/

theorem bs_pos_flanks {K : Type} [LinearOrder K] {keys : List K} {key : K} {p : Nat}
    (hs : keys.Sorted (· ≤ ·)) (hp : unwrapPos (binary_search keys key) = p) :
    p ≤ keys.length ∧ (∀ i a, i < p → keys.get? i = some a → a ≤ key) ∧
    (∀ i a, p ≤ i → i < keys.length → keys.get? i = some a → key ≤ a) := by
  cases hbs : binary_search keys key with
  | inl q =>
    rw [hbs] at hp
    simp only [unwrapPos] at hp
    subst hp
    obtain ⟨hq, hql⟩ := binary_search_inl hbs
    refine ⟨le_of_lt hql, ?_, ?_⟩
    · intro i a hi ha
      exact sorted_get?_le hs (by omega) ha hq
    · intro i a hpi _ ha
      exact sorted_get?_le hs hpi hq ha
  | inr q =>
    rw [hbs] at hp
    simp only [unwrapPos] at hp
    subst hp
    obtain ⟨h1, h2, h3⟩ := binary_search_inr hs hbs
    exact ⟨h1, fun i a hi ha => le_of_lt (h2 i a hi ha),
      fun i a hpi hil ha => le_of_lt (h3 i a hpi hil ha)⟩

theorem insertIdx_eq_take_drop {α : Type} (a : α) :
    ∀ (p : Nat) (l : List α), p ≤ l.length →
      l.insertIdx p a = l.take p ++ a :: l.drop p := by
  intro p
  induction p with
  | zero =>
    intro l _
    simp [List.insertIdx_zero]
  | succ q ih =>
    intro l hl
    cases l with
    | nil => simp at hl
    | cons x xs =>
      rw [List.insertIdx_succ_cons, ih xs (by simpa using hl)]
      rfl

theorem mem_take_get {α : Type} {l : List α} {p : Nat} {a : α} (ha : a ∈ l.take p) :
    ∃ i, i < p ∧ l.get? i = some a := by
  obtain ⟨i, hi⟩ := List.get?_of_mem ha
  have hil : i < (l.take p).length := (List.get?_eq_some.mp hi).1
  have hip : i < p := by
    rw [List.length_take] at hil
    omega
  exact ⟨i, hip, by rw [← List.get?_take hip]; exact hi⟩

theorem mem_drop_get {α : Type} {l : List α} {p : Nat} {a : α} (ha : a ∈ l.drop p) :
    ∃ i, p ≤ i ∧ i < l.length ∧ l.get? i = some a := by
  obtain ⟨i, hi⟩ := List.get?_of_mem ha
  rw [List.get?_drop] at hi
  have hil : p + i < l.length := (List.get?_eq_some.mp hi).1
  exact ⟨p + i, by omega, hil, hi⟩

/-- Inserting `key` at a position with `≤ key` everything on the left and
`≥ key` everything on the right keeps the list sorted. -/
theorem sorted_insertIdx {K : Type} [LinearOrder K] {keys : List K} {key : K} {p : Nat}
    (hs : keys.Sorted (· ≤ ·)) (hp : p ≤ keys.length)
    (hleft : ∀ i a, i < p → keys.get? i = some a → a ≤ key)
    (hright : ∀ i a, p ≤ i → i < keys.length → keys.get? i = some a → key ≤ a) :
    (keys.insertIdx p key).Sorted (· ≤ ·) := by
  rw [insertIdx_eq_take_drop key p keys hp]
  rw [List.Sorted, List.pairwise_append]
  refine ⟨List.Pairwise.sublist (List.take_sublist p keys) hs, ?_, ?_⟩
  · rw [List.pairwise_cons]
    refine ⟨?_, List.Pairwise.sublist (List.drop_sublist p keys) hs⟩
    intro b hb
    obtain ⟨i, hpi, hil, hib⟩ := mem_drop_get hb
    exact hright i b hpi hil hib
  · intro a ha b hb
    obtain ⟨i, hip, hia⟩ := mem_take_get ha
    rcases List.mem_cons.mp hb with hbk | hbd
    · subst hbk
      exact hleft i a hip hia
    · obtain ⟨j, hpj, hjl, hjb⟩ := mem_drop_get hbd
      exact le_trans (hleft i a hip hia) (hright j b hpj hjl hjb)

/-! ### Assembling parses after writes -/

theorem Abs_S {K V : Type} {pg : Pager K V} {S : Nat → Prop} {off : Nat} {t : PTree K V}
    (h : Abs pg S off t) : S off := by
  cases h with
  | leaf hS _ => exact hS
  | node hS _ _ _ => exact hS

theorem Abs_to_NodeAbs {K V : Type} {pg : Pager K V} {S : Nat → Prop} {off : Nat}
    {t : PTree K V} {n : Node K V} (h : Abs pg S off t) (hr : pg.read off = some n) :
    NodeAbs pg S n t := by
  cases h with
  | leaf hS hrd =>
    have := hrd.symm.trans hr
    cases this
    exact NodeAbs.leaf
  | node hS hrd hlen hkids =>
    have := hrd.symm.trans hr
    cases this
    exact NodeAbs.node hlen hkids

theorem NodeAbs_write_at_abs {K V : Type} {pg : Pager K V} {S S2 : Nat → Prop}
    {n : Node K V} {t : PTree K V} {tgt : Nat}
    (h : NodeAbs pg S n t) (hne : ∀ o, S o → o ≠ tgt)
    (hm : ∀ o, S o → S2 o) (htgt : S2 tgt) :
    Abs (pg.write_at n tgt) S2 tgt t := by
  cases h with
  | leaf => exact Abs.leaf htgt (Pager.read_write_at_self _ _ _)
  | node hlen hkids =>
    refine Abs.node htgt (Pager.read_write_at_self _ _ _) hlen ?_
    refine List.Forall₂.imp (fun a b hab => Abs.frame hab hm ?_) hkids
    intro o hS
    exact Pager.read_write_at_of_ne _ _ (hne o hS)

theorem NodeAbs_write_abs {K V : Type} {pg : Pager K V} {S S2 : Nat → Prop}
    {n : Node K V} {t : PTree K V}
    (h : NodeAbs pg S n t) (hlt : ∀ o, S o → o < pg.cursor)
    (hm : ∀ o, S o → S2 o) (htgt : S2 pg.cursor) :
    Abs (pg.write n).2 S2 pg.cursor t := by
  cases h with
  | leaf => exact Abs.leaf htgt (Pager.read_write_self _ _)
  | node hlen hkids =>
    refine Abs.node htgt (Pager.read_write_self _ _) hlen ?_
    refine List.Forall₂.imp (fun a b hab => Abs.frame hab hm ?_) hkids
    intro o hS
    exact Pager.read_write_of_ne _ _ (by have := hlt o hS; omega)

/-! ### `Forall₂` under list surgery -/

theorem Forall₂_set {α β : Type} {R : α → β → Prop} :
    ∀ {l1 : List α} {l2 : List β}, List.Forall₂ R l1 l2 →
      ∀ i a b, R a b → List.Forall₂ R (l1.set i a) (l2.set i b) := by
  intro l1 l2 h
  induction h with
  | nil => intro i a b _; exact List.Forall₂.nil
  | cons hr hrest ih =>
    intro i a b hab
    cases i with
    | zero => exact List.Forall₂.cons hab hrest
    | succ j => exact List.Forall₂.cons hr (ih j a b hab)

theorem Forall₂_insertIdx {α β : Type} {R : α → β → Prop} :
    ∀ {l1 : List α} {l2 : List β}, List.Forall₂ R l1 l2 →
      ∀ i a b, R a b → List.Forall₂ R (l1.insertIdx i a) (l2.insertIdx i b) := by
  intro l1 l2 h
  induction h with
  | nil =>
    intro i a b hab
    cases i with
    | zero => exact List.Forall₂.cons hab List.Forall₂.nil
    | succ j => exact List.Forall₂.nil
  | cons hr hrest ih =>
    intro i a b hab
    cases i with
    | zero => exact List.Forall₂.cons hab (List.Forall₂.cons hr hrest)
    | succ j =>
      rw [List.insertIdx_succ_cons, List.insertIdx_succ_cons]
      exact List.Forall₂.cons hr (ih j a b hab)

theorem Forall₂_take {α β : Type} {R : α → β → Prop} :
    ∀ {l1 : List α} {l2 : List β}, List.Forall₂ R l1 l2 →
      ∀ n, List.Forall₂ R (l1.take n) (l2.take n) := by
  intro l1 l2 h
  induction h with
  | nil => intro n; simp
  | cons hr hrest ih =>
    intro n
    cases n with
    | zero => exact List.Forall₂.nil
    | succ m => exact List.Forall₂.cons hr (ih m)

theorem Forall₂_drop {α β : Type} {R : α → β → Prop} :
    ∀ {l1 : List α} {l2 : List β}, List.Forall₂ R l1 l2 →
      ∀ n, List.Forall₂ R (l1.drop n) (l2.drop n) := by
  intro l1 l2 h
  induction h with
  | nil => intro n; simp
  | cons hr hrest ih =>
    intro n
    cases n with
    | zero => exact List.Forall₂.cons hr hrest
    | succ m => exact ih m

/-! ### `get?` across `insertIdx` -/

theorem get?_insertIdx_lt {α : Type} {l : List α} {p i : Nat} (a : α) (hple : p ≤ l.length)
    (h : i < p) : (l.insertIdx p a).get? i = l.get? i := by
  rw [insertIdx_eq_take_drop a p l hple,
    List.get?_append (by rw [List.length_take]; omega)]
  exact List.get?_take h

theorem get?_insertIdx_self {α : Type} {l : List α} {p : Nat} (a : α)
    (hple : p ≤ l.length) : (l.insertIdx p a).get? p = some a := by
  rw [insertIdx_eq_take_drop a p l hple,
    List.get?_append_right (by rw [List.length_take]; omega)]
  have hlt : (List.take p l).length = p := by rw [List.length_take]; omega
  rw [hlt]
  simp

theorem get?_insertIdx_gt {α : Type} {l : List α} {p i : Nat} (a : α)
    (hple : p ≤ l.length) (h : p < i) : (l.insertIdx p a).get? i = l.get? (i - 1) := by
  rw [insertIdx_eq_take_drop a p l hple,
    List.get?_append_right (by rw [List.length_take]; omega)]
  have hlt : (List.take p l).length = p := by rw [List.length_take]; omega
  rw [hlt]
  have h2 : i - p = (i - p - 1) + 1 := by omega
  rw [h2]
  simp only [List.get?]
  rw [List.get?_drop]
  have h3 : p + (i - p - 1) = i - 1 := by omega
  rw [h3]

theorem childLB_succ {K : Type} (lo : Option K) (keys : List K) (j : Nat) :
    childLB lo keys (j+1) = keys.get? j := rfl

/-! ### Well-formedness through the leaf and internal operations -/

theorem leaf_insert_wf {K V : Type} [LinearOrder K] {l : LeafNode K V} {pg : Pager K V}
    {key : K} {v : V} {d : Nat} {l2 : LeafNode K V} {sp : Option (K × LeafNode K V)}
    {lo hi : Option K}
    (hwf : WF lo hi (.leaf l.keys l.values : PTree K V))
    (hlb : lbOK lo key) (hub : ubOK hi key)
    (h : l.insert pg key v d = some (l2, sp)) :
    match sp with
    | none => WF lo hi (.leaf l2.keys l2.values : PTree K V)
    | some (mk, sib) => WF lo (some mk) (.leaf l2.keys l2.values : PTree K V)
        ∧ WF (some mk) hi (.leaf sib.keys sib.values : PTree K V)
        ∧ lbOK lo mk ∧ ubOK hi mk := by
  cases hwf with
  | leaf hsort hbnd =>
  obtain ⟨hple, hfl, hfr⟩ := bs_pos_flanks hsort rfl
  have hsort1 : (l.keys.insertIdx (unwrapPos (binary_search l.keys key)) key).Sorted (· ≤ ·) :=
    sorted_insertIdx hsort hple hfl (fun i a hpi hil ha => hfr i a hpi hil ha)
  have hbnd1 : ∀ k ∈ l.keys.insertIdx (unwrapPos (binary_search l.keys key)) key,
      lbOK lo k ∧ ubOK hi k := by
    intro k hk
    rcases (List.mem_insertIdx hple).mp hk with hk | hk
    · subst hk; exact ⟨hlb, hub⟩
    · exact hbnd k hk
  have hlen1 : (l.keys.insertIdx (unwrapPos (binary_search l.keys key)) key).length
      = l.keys.length + 1 := List.length_insertIdx _ _ hple
  simp only [LeafNode.insert] at h
  split at h
  · -- over-full: split
    split at h
    · cases h
    · rename_i left mid right heq
      simp only [Option.some.injEq, Prod.mk.injEq] at h
      obtain ⟨h1, h2⟩ := h
      subst h1 h2
      simp only [LeafNode.split] at heq
      split at heq
      · cases heq
      · rename_i hs0
        split at heq
        · cases heq
        · rename_i mid_key hmid
          simp only [Option.some.injEq, Prod.mk.injEq] at heq
          obtain ⟨he1, he2, he3⟩ := heq
          subst he1 he2 he3
          refine ⟨?_, ?_, ?_, ?_⟩
          · refine WF.leaf (List.Pairwise.sublist (List.take_sublist _ _) hsort1) ?_
            intro k hk
            obtain ⟨i, hilt, hig⟩ := mem_take_get hk
            refine ⟨(hbnd1 k (List.get?_mem hig)).1, ?_⟩
            exact sorted_get?_le hsort1 (by omega) hig hmid
          · refine WF.leaf (List.Pairwise.sublist (List.drop_sublist _ _) hsort1) ?_
            intro k hk
            obtain ⟨i, hge, hil, hig⟩ := mem_drop_get hk
            refine ⟨?_, (hbnd1 k (List.get?_mem hig)).2⟩
            exact sorted_get?_le hsort1 (by omega) hmid hig
          · exact (hbnd1 _ (List.get?_mem hmid)).1
          · exact (hbnd1 _ (List.get?_mem hmid)).2
  · -- fits: no split
    simp only [Option.some.injEq, Prod.mk.injEq] at h
    obtain ⟨h1, h2⟩ := h
    subst h1 h2
    exact WF.leaf hsort1 hbnd1

theorem wf_node_set_child {K V : Type} [LinearOrder K] {keys : List K}
    {ts : List (PTree K V)} {lo hi : Option K} {p : Nat} {tc : PTree K V}
    (hwf : WF lo hi (.node keys ts))
    (hwc : WF (childLB lo keys p) (childUB hi keys p) tc) :
    WF lo hi (.node keys (ts.set p tc)) := by
  cases hwf with
  | node hsort hbnd hlen hch =>
  refine WF.node hsort hbnd (by rw [List.length_set]; exact hlen) ?_
  intro i c hc
  by_cases hip : i = p
  · subst hip
    rw [List.get?_set_eq] at hc
    cases hts : ts.get? i with
    | none => rw [hts] at hc; cases hc
    | some c0 =>
      rw [hts] at hc
      simp only [Option.map_some, Option.some.injEq] at hc
      subst hc
      exact hwc
  · rw [List.get?_set_ne _ _ (fun he => hip he.symm)] at hc
    exact hch i c hc

theorem wf_insert_split_node {K V : Type} [LinearOrder K] {keys : List K}
    {ts : List (PTree K V)} {lo hi : Option K} {p : Nat} {mk : K} {tl tr : PTree K V}
    (hwf : WF lo hi (.node keys ts)) (hple : p ≤ keys.length)
    (hwl : WF (childLB lo keys p) (some mk) tl)
    (hwr : WF (some mk) (childUB hi keys p) tr)
    (hlb : lbOK (childLB lo keys p) mk) (hub : ubOK (childUB hi keys p) mk) :
    WF lo hi (.node (keys.insertIdx p mk) ((ts.set p tl).insertIdx (p+1) tr)) := by
  cases hwf with
  | node hsort hbnd hlen hch =>
  have hple2 : p + 1 ≤ (ts.set p tl).length := by
    rw [List.length_set]; omega
  have hlb' : ∀ i a, i < p → keys.get? i = some a → a ≤ mk := by
    intro i a hip ha
    cases hp : p with
    | zero => omega
    | succ q =>
      subst hp
      cases hq : keys.get? q with
      | none => have := List.get?_eq_none.mp hq; omega
      | some kq =>
        have h1 : a ≤ kq := sorted_get?_le hsort (by omega) ha hq
        have h2 : kq ≤ mk := by
          rw [show childLB lo keys (q+1) = keys.get? q from rfl, hq] at hlb
          exact hlb
        exact le_trans h1 h2
  have hub' : ∀ i a, p ≤ i → i < keys.length → keys.get? i = some a → mk ≤ a := by
    intro i a hpi hil ha
    cases hp : keys.get? p with
    | none => have := List.get?_eq_none.mp hp; omega
    | some kp =>
      have h2 : mk ≤ kp := by
        rw [show childUB hi keys p = some kp by simp only [childUB, hp]] at hub
        exact hub
      exact le_trans h2 (sorted_get?_le hsort hpi hp ha)
  have hsort2 : (keys.insertIdx p mk).Sorted (· ≤ ·) :=
    sorted_insertIdx hsort hple hlb' hub'
  have hbnd2 : ∀ k ∈ keys.insertIdx p mk, lbOK lo k ∧ ubOK hi k := by
    intro k hk
    rcases (List.mem_insertIdx hple).mp hk with hk | hk
    · subst hk
      constructor
      · cases hp : p with
        | zero => rw [hp] at hlb; exact hlb
        | succ q =>
          subst hp
          cases hq : keys.get? q with
          | none => have := List.get?_eq_none.mp hq; omega
          | some kq =>
            rw [show childLB lo keys (q+1) = keys.get? q from rfl, hq] at hlb
            exact lbOK_trans (hbnd kq (List.get?_mem hq)).1 hlb
      · cases hp : keys.get? p with
        | none =>
          rw [show childUB hi keys p = hi by simp only [childUB, hp]] at hub
          exact hub
        | some kp =>
          rw [show childUB hi keys p = some kp by simp only [childUB, hp]] at hub
          exact ubOK_trans (hbnd kp (List.get?_mem hp)).2 hub
    · exact hbnd k hk
  refine WF.node hsort2 hbnd2 ?_ ?_
  · rw [List.length_insertIdx _ _ hple2, List.length_set,
      List.length_insertIdx _ _ hple, hlen]
  · intro i c hc
    rcases Nat.lt_trichotomy i p with hip | hip | hip
    · -- below the insert position: untouched child, untouched bounds
      rw [get?_insertIdx_lt tr hple2 (by omega), List.get?_set_ne _ _ (by omega)] at hc
      have hlbeq : childLB lo (keys.insertIdx p mk) i = childLB lo keys i := by
        cases hi0 : i with
        | zero => rfl
        | succ j =>
          rw [childLB_succ, childLB_succ, get?_insertIdx_lt mk hple (by omega)]
      have hubeq : childUB hi (keys.insertIdx p mk) i = childUB hi keys i := by
        simp only [childUB, get?_insertIdx_lt mk hple hip]
      rw [hlbeq, hubeq]
      exact hch i c hc
    · -- the split child's left half
      rw [hip] at hc ⊢
      rw [get?_insertIdx_lt tr hple2 (by omega), List.get?_set_eq] at hc
      cases hts : ts.get? p with
      | none => rw [hts] at hc; cases hc
      | some c0 =>
        rw [hts] at hc
        simp only [Option.map_some, Option.some.injEq] at hc
        subst hc
        have hlbeq : childLB lo (keys.insertIdx p mk) p = childLB lo keys p := by
          cases hp0 : p with
          | zero => rfl
          | succ q =>
            rw [childLB_succ, childLB_succ, get?_insertIdx_lt mk (by omega) (by omega)]
        have hubeq : childUB hi (keys.insertIdx p mk) p = some mk := by
          simp only [childUB, get?_insertIdx_self mk hple]
        rw [hlbeq, hubeq]
        exact hwl
    · rcases Nat.lt_trichotomy i (p+1) with hip2 | hip2 | hip2
      · omega
      · -- the split child's right half
        rw [hip2] at hc ⊢
        rw [get?_insertIdx_self tr hple2] at hc
        cases hc
        have hlbeq : childLB lo (keys.insertIdx p mk) (p+1) = some mk := by
          rw [childLB_succ, get?_insertIdx_self mk hple]
        have hubeq : childUB hi (keys.insertIdx p mk) (p+1) = childUB hi keys p := by
          have hg : (keys.insertIdx p mk).get? (p+1) = keys.get? p := by
            rw [get?_insertIdx_gt mk hple (by omega), Nat.add_sub_cancel]
          simp only [childUB, hg]
        rw [hlbeq, hubeq]
        exact hwr
      · -- above the new sibling: shifted by one
        rw [get?_insertIdx_gt tr hple2 (by omega),
          List.get?_set_ne _ _ (by omega)] at hc
        have hlbeq : childLB lo (keys.insertIdx p mk) i = childLB lo keys (i-1) := by
          cases hi0 : i with
          | zero => omega
          | succ j =>
            rw [childLB_succ, get?_insertIdx_gt mk hple (by omega), Nat.add_sub_cancel]
            cases hj0 : j with
            | zero => omega
            | succ q =>
              rw [childLB_succ, Nat.add_sub_cancel]
        have hubeq : childUB hi (keys.insertIdx p mk) i = childUB hi keys (i-1) := by
          have hg : (keys.insertIdx p mk).get? i = keys.get? (i-1) :=
            get?_insertIdx_gt mk hple (by omega)
          simp only [childUB, hg]
        rw [hlbeq, hubeq]
        exact hch (i-1) c hc

theorem wf_node_split {K V : Type} [LinearOrder K] {keys : List K}
    {cs : List (PTree K V)} {lo hi : Option K} {s : Nat} {mk : K}
    (hwf : WF lo hi (.node keys cs)) (hslt : s < keys.length)
    (hmk : keys.get? s = some mk) :
    WF lo (some mk) (.node (keys.take s) (cs.take (s+1))) ∧
    WF (some mk) hi (.node (keys.drop (s+1)) (cs.drop (s+1))) ∧
    lbOK lo mk ∧ ubOK hi mk := by
  cases hwf with
  | node hsort hbnd hlen hch =>
  refine ⟨?_, ?_, (hbnd mk (List.get?_mem hmk)).1, (hbnd mk (List.get?_mem hmk)).2⟩
  · refine WF.node (List.Pairwise.sublist (List.take_sublist _ _) hsort) ?_ ?_ ?_
    · intro x hx
      obtain ⟨i, hilt, hig⟩ := mem_take_get hx
      exact ⟨(hbnd x (List.get?_mem hig)).1,
        sorted_get?_le hsort (by omega) hig hmk⟩
    · rw [List.length_take, List.length_take]
      omega
    · intro i c hc
      have hilen : i < (cs.take (s+1)).length := (List.get?_eq_some.mp hc).1
      rw [List.length_take] at hilen
      have his : i < s + 1 := by omega
      rw [List.get?_take his] at hc
      have hlbeq : childLB lo (keys.take s) i = childLB lo keys i := by
        cases hi0 : i with
        | zero => rfl
        | succ j => rw [childLB_succ, childLB_succ, List.get?_take (by omega)]
      have hubeq : childUB (some mk) (keys.take s) i = childUB hi keys i := by
        rcases Nat.lt_trichotomy i s with h2 | h2 | h2
        · have hg : (keys.take s).get? i = keys.get? i := List.get?_take h2
          cases hki : keys.get? i with
          | none =>
            have := List.get?_eq_none.mp hki
            omega
          | some ki =>
            rw [hki] at hg
            simp only [childUB, hg, hki]
        · rw [h2]
          have hg : (keys.take s).get? s = none := by
            rw [List.get?_eq_none, List.length_take]
            omega
          simp only [childUB, hg, hmk]
        · omega
      rw [hlbeq, hubeq]
      exact hch i c hc
  · refine WF.node (List.Pairwise.sublist (List.drop_sublist _ _) hsort) ?_ ?_ ?_
    · intro x hx
      obtain ⟨i, hge, hil, hig⟩ := mem_drop_get hx
      exact ⟨sorted_get?_le hsort (by omega) hmk hig,
        (hbnd x (List.get?_mem hig)).2⟩
    · rw [List.length_drop, List.length_drop]
      omega
    · intro i c hc
      rw [List.get?_drop] at hc
      have hlbeq : childLB (some mk) (keys.drop (s+1)) i = childLB lo keys (s+1+i) := by
        cases hi0 : i with
        | zero =>
          show some mk = childLB lo keys (s+1)
          rw [childLB_succ, hmk]
        | succ j =>
          rw [childLB_succ, List.get?_drop,
            show s+1+(j+1) = (s+1+j)+1 from by omega, childLB_succ]
      have hubeq : childUB hi (keys.drop (s+1)) i = childUB hi keys (s+1+i) := by
        have hg : (keys.drop (s+1)).get? i = keys.get? (s+1+i) := List.get?_drop _ _ _
        simp only [childUB, hg]
      rw [hlbeq, hubeq]
      exact hch (s+1+i) c hc

/-! ### Well-formedness preservation through `Node::insert` -/

theorem Node.insert_wf {K V : Type} [LinearOrder K] :
    ∀ (fuel : Nat) (pg : Pager K V) (n : Node K V) (k : K) (v : V) (d : Nat)
      (pg2 : Pager K V) (n2 : Node K V) (sp : Option (K × Node K V))
      (S : Nat → Prop) (t : PTree K V) (lo hi : Option K),
      (∀ o, S o → o < pg.cursor) →
      NodeAbs pg S n t → WF lo hi t → lbOK lo k → ubOK hi k →
      Node.insert fuel pg n k v d = some (pg2, n2, sp) →
      match sp with
      | none => ∃ t2, NodeAbs pg2 (fun o => S o ∨ (pg.cursor ≤ o ∧ o < pg2.cursor)) n2 t2
          ∧ WF lo hi t2
      | some (mk, sib) => ∃ tl tr,
          NodeAbs pg2 (fun o => S o ∨ (pg.cursor ≤ o ∧ o < pg2.cursor)) n2 tl ∧
          NodeAbs pg2 (fun o => S o ∨ (pg.cursor ≤ o ∧ o < pg2.cursor)) sib tr ∧
          WF lo (some mk) tl ∧ WF (some mk) hi tr ∧ lbOK lo mk ∧ ubOK hi mk := by
  have hpos : 0 < PAGE_SIZE := by decide
  intro fuel
  induction fuel with
  | zero =>
    intro pg n k v d pg2 n2 sp S t lo hi hS habs hwf hlbk hubk h
    cases n with
    | Leaf l =>
      cases habs with
      | leaf =>
        simp only [Node.insert] at h
        split at h
        · cases h
        · rename_i self1 heq
          simp only [Option.some.injEq, Prod.mk.injEq] at h
          obtain ⟨h1, h2, h3⟩ := h
          subst h1 h2 h3
          exact ⟨.leaf self1.keys self1.values, NodeAbs.leaf,
            leaf_insert_wf hwf hlbk hubk heq⟩
        · rename_i self1 mk sib heq
          simp only [Option.some.injEq, Prod.mk.injEq] at h
          obtain ⟨h1, h2, h3⟩ := h
          subst h1 h2 h3
          obtain ⟨hwl, hwr, hl, hu⟩ := leaf_insert_wf hwf hlbk hubk heq
          exact ⟨.leaf self1.keys self1.values, .leaf sib.keys sib.values,
            NodeAbs.leaf, NodeAbs.leaf, hwl, hwr, hl, hu⟩
    | Internal nd =>
      simp only [Node.insert] at h
      cases h
  | succ fuel ih =>
    intro pg n k v d pg2 n2 sp S t lo hi hS habs hwf hlbk hubk h
    cases n with
    | Leaf l =>
      cases habs with
      | leaf =>
        simp only [Node.insert] at h
        split at h
        · cases h
        · rename_i self1 heq
          simp only [Option.some.injEq, Prod.mk.injEq] at h
          obtain ⟨h1, h2, h3⟩ := h
          subst h1 h2 h3
          exact ⟨.leaf self1.keys self1.values, NodeAbs.leaf,
            leaf_insert_wf hwf hlbk hubk heq⟩
        · rename_i self1 mk sib heq
          simp only [Option.some.injEq, Prod.mk.injEq] at h
          obtain ⟨h1, h2, h3⟩ := h
          subst h1 h2 h3
          obtain ⟨hwl, hwr, hl, hu⟩ := leaf_insert_wf hwf hlbk hubk heq
          exact ⟨.leaf self1.keys self1.values, .leaf sib.keys sib.values,
            NodeAbs.leaf, NodeAbs.leaf, hwl, hwr, hl, hu⟩
    | Internal nd =>
      cases habs with
      | node hclen hkids =>
      rename_i ts
      cases hwf with
      | node hsort hbnd htslen hch =>
      simp only [Node.insert] at h
      split at h
      · cases h
      · rename_i coff hget
        split at h
        · cases h
        · rename_i child hread
          simp only [Pager.write] at h
          split at h
          · cases h
          · rename_i pgR childR spR heqrec
            -- the parse of the descended-into child
            obtain ⟨tc, hts, habs_c⟩ := Forall₂_get_left hkids _ _ hget
            have hcofflt : coff < pg.cursor := hS coff (Abs_S habs_c)
            have habs_c1 : Abs (⟨pg.cursor + PAGE_SIZE, (pg.cursor, child) :: pg.store⟩ :
                Pager K V) S coff tc := by
              refine habs_c.frame (fun o ho => ho) ?_
              intro o ho
              exact Pager.read_write_of_ne pg child (by have := hS o ho; omega)
            have hread1 : Pager.read (⟨pg.cursor + PAGE_SIZE, (pg.cursor, child) :: pg.store⟩ :
                Pager K V) coff = some child := by
              have hx : Pager.read (⟨pg.cursor + PAGE_SIZE, (pg.cursor, child) :: pg.store⟩ :
                  Pager K V) coff = pg.read coff :=
                Pager.read_write_of_ne pg child (by omega)
              rw [hx, hread]
            have habs_child : NodeAbs (⟨pg.cursor + PAGE_SIZE, (pg.cursor, child) :: pg.store⟩ :
                Pager K V) S child tc := Abs_to_NodeAbs habs_c1 hread1
            -- binary-search flanks give the child's bounds around the inserted key
            obtain ⟨hple, hfl, hfr⟩ := bs_pos_flanks hsort
              (rfl : unwrapPos (binary_search nd.keys k) = unwrapPos (binary_search nd.keys k))
            have hlbc : lbOK (childLB lo nd.keys (unwrapPos (binary_search nd.keys k))) k := by
              cases hp0 : unwrapPos (binary_search nd.keys k) with
              | zero => exact hlbk
              | succ j =>
                cases hkj : nd.keys.get? j with
                | none =>
                  have h1 := List.get?_eq_none.mp hkj
                  omega
                | some kj =>
                  rw [childLB_succ, hkj]
                  exact hfl j kj (by omega) hkj
            have hubc : ubOK (childUB hi nd.keys (unwrapPos (binary_search nd.keys k))) k := by
              cases hkp : nd.keys.get? (unwrapPos (binary_search nd.keys k)) with
              | none =>
                have he : childUB hi nd.keys (unwrapPos (binary_search nd.keys k)) = hi := by
                  simp only [childUB, hkp]
                rw [he]
                exact hubk
              | some kp =>
                have he : childUB hi nd.keys (unwrapPos (binary_search nd.keys k)) = some kp := by
                  simp only [childUB, hkp]
                rw [he]
                exact hfr _ kp (le_refl _) (List.get?_eq_some.mp hkp).1 hkp
            have hwfc := hch _ tc hts
            have ihres := ih _ child k v d pgR childR spR S tc _ _
              (fun o ho => (show o < pg.cursor + PAGE_SIZE from by have := hS o ho; omega))
              habs_child hwfc hlbc hubc heqrec
            obtain ⟨hcR', hfR⟩ := Node.insert_frame fuel _ child k v d pgR childR spR heqrec
            have hcR : pg.cursor + PAGE_SIZE ≤ pgR.cursor := hcR'
            have hfR2 : ∀ off, off < pg.cursor + PAGE_SIZE → pgR.read off =
                Pager.read (⟨pg.cursor + PAGE_SIZE, (pg.cursor, child) :: pg.store⟩ :
                  Pager K V) off := hfR
            have hfRlow : ∀ off, off < pg.cursor → pgR.read off = pg.read off := by
              intro off hoff
              rw [hfR2 off (by omega)]
              have hx : Pager.read (⟨pg.cursor + PAGE_SIZE, (pg.cursor, child) :: pg.store⟩ :
                  Pager K V) off = pg.read off :=
                Pager.read_write_of_ne pg child (by omega)
              rw [hx]
            split at h
            · -- the child absorbed the key without splitting
              simp only [Option.some.injEq, Prod.mk.injEq] at h
              obtain ⟨h1, h2, h3⟩ := h
              subst h1 h2 h3
              obtain ⟨t2c, habs_t2c0, hwf_t2c⟩ := ihres
              have habs_t2c : NodeAbs pgR
                  (fun o => S o ∨ (pg.cursor + PAGE_SIZE ≤ o ∧ o < pgR.cursor)) childR t2c :=
                habs_t2c0
              refine ⟨.node nd.keys (ts.set (unwrapPos (binary_search nd.keys k)) t2c), ?_, ?_⟩
              · refine NodeAbs.node ?_ ?_
                · show (nd.children.set (unwrapPos (binary_search nd.keys k)) pg.cursor).length
                    = nd.keys.length + 1
                  rw [List.length_set]
                  exact hclen
                · show List.Forall₂ _
                    (nd.children.set (unwrapPos (binary_search nd.keys k)) pg.cursor)
                    (ts.set (unwrapPos (binary_search nd.keys k)) t2c)
                  refine Forall₂_set ?_ _ _ _ ?_
                  · refine List.Forall₂.imp (fun a b hab => Abs.frame hab (fun o ho => Or.inl ho) ?_) hkids
                    intro o ho
                    have holt : o < pg.cursor := hS o ho
                    have hx1 : (pgR.write_at childR pg.cursor).read o = pgR.read o :=
                      Pager.read_write_at_of_ne _ _ (by omega)
                    rw [hx1]
                    exact hfRlow o holt
                  · refine NodeAbs_write_at_abs habs_t2c ?_ ?_ ?_
                    · intro o ho
                      rcases ho with ho | ho
                      · have := hS o ho
                        omega
                      · obtain ⟨h1, h2⟩ := ho
                        have h1' : pg.cursor + PAGE_SIZE ≤ o := h1
                        omega
                    · intro o ho
                      rcases ho with ho | ho
                      · exact Or.inl ho
                      · obtain ⟨h1, h2⟩ := ho
                        have h1' : pg.cursor + PAGE_SIZE ≤ o := h1
                        refine Or.inr ⟨by omega, ?_⟩
                        show o < pgR.cursor
                        omega
                    · refine Or.inr ⟨le_refl _, ?_⟩
                      show pg.cursor < pgR.cursor
                      omega
              · exact wf_node_set_child (WF.node hsort hbnd htslen hch) hwf_t2c
            · -- the child split: absorb the separator and the sibling offset
              rename_i mk sib
              obtain ⟨tl, tr, habs_tl0, habs_tr0, hwf_tl, hwf_tr, hlb_mk, hub_mk⟩ := ihres
              have habs_tl : NodeAbs pgR
                  (fun o => S o ∨ (pg.cursor + PAGE_SIZE ≤ o ∧ o < pgR.cursor)) childR tl :=
                habs_tl0
              have habs_tr : NodeAbs pgR
                  (fun o => S o ∨ (pg.cursor + PAGE_SIZE ≤ o ∧ o < pgR.cursor)) sib tr :=
                habs_tr0
              simp only [Pager.write, Pager.write_at] at h
              -- common parse of the rebuilt children list against the rebuilt pure forest
              have hfr3 : ∀ o, o < pg.cursor →
                  Pager.read (⟨pgR.cursor + PAGE_SIZE,
                    (pgR.cursor, sib) :: (pg.cursor, childR) :: pgR.store⟩ : Pager K V) o
                  = pg.read o := by
                intro o ho
                show storeLookup ((pgR.cursor, sib) :: (pg.cursor, childR) :: pgR.store) o
                  = pg.read o
                simp only [storeLookup]
                rw [if_neg (by omega : ¬ pgR.cursor = o), if_neg (by omega : ¬ pg.cursor = o)]
                show pgR.read o = pg.read o
                exact hfRlow o ho
              have habs_tl2 : Abs (⟨pgR.cursor + PAGE_SIZE,
                  (pgR.cursor, sib) :: (pg.cursor, childR) :: pgR.store⟩ : Pager K V)
                  (fun o => S o ∨ (pg.cursor ≤ o ∧ o < pgR.cursor + PAGE_SIZE))
                  pg.cursor tl := by
                have hstep : Abs (pgR.write_at childR pg.cursor)
                    (fun o => (S o ∨ (pg.cursor + PAGE_SIZE ≤ o ∧ o < pgR.cursor))
                      ∨ o = pg.cursor) pg.cursor tl := by
                  refine NodeAbs_write_at_abs ?_ ?_ (fun o ho => Or.inl ho) (Or.inr rfl)
                  · exact habs_tl
                  · intro o ho
                    rcases ho with ho | ho
                    · have := hS o ho
                      omega
                    · obtain ⟨h1, h2⟩ := ho
                      omega
                refine hstep.frame ?_ ?_
                · intro o ho
                  rcases ho with (ho | ⟨h1, h2⟩) | ho
                  · exact Or.inl ho
                  · exact Or.inr ⟨by omega, by omega⟩
                  · subst ho
                    exact Or.inr ⟨le_refl _, by omega⟩
                · intro o ho
                  have hne2 : o ≠ pgR.cursor := by
                    rcases ho with (ho | ⟨h1, h2⟩) | ho
                    · have := hS o ho
                      omega
                    · omega
                    · subst ho
                      omega
                  have hx : Pager.read (⟨pgR.cursor + PAGE_SIZE,
                      (pgR.cursor, sib) :: (pg.cursor, childR) :: pgR.store⟩ : Pager K V) o
                      = (pgR.write_at childR pg.cursor).read o :=
                    Pager.read_write_of_ne
                      (⟨pgR.cursor, (pg.cursor, childR) :: pgR.store⟩ : Pager K V) sib hne2
                  exact hx
              have habs_tr2 : Abs (⟨pgR.cursor + PAGE_SIZE,
                  (pgR.cursor, sib) :: (pg.cursor, childR) :: pgR.store⟩ : Pager K V)
                  (fun o => S o ∨ (pg.cursor ≤ o ∧ o < pgR.cursor + PAGE_SIZE))
                  pgR.cursor tr := by
                have hstep : NodeAbs (pgR.write_at childR pg.cursor)
                    (fun o => S o ∨ (pg.cursor + PAGE_SIZE ≤ o ∧ o < pgR.cursor)) sib tr := by
                  refine habs_tr.liftFrame (fun o ho => ho) ?_
                  intro o ho
                  refine Pager.read_write_at_of_ne _ _ ?_
                  rcases ho with ho | ⟨h1, h2⟩
                  · have := hS o ho
                    omega
                  · omega
                have hres : Abs ((pgR.write_at childR pg.cursor).write sib).2
                    (fun o => S o ∨ (pg.cursor ≤ o ∧ o < pgR.cursor + PAGE_SIZE))
                    (pgR.write_at childR pg.cursor).cursor tr := by
                  refine NodeAbs_write_abs hstep ?_ ?_ ?_
                  · intro o ho
                    show o < pgR.cursor
                    rcases ho with ho | ⟨h1, h2⟩
                    · have := hS o ho
                      omega
                    · omega
                  · intro o ho
                    rcases ho with ho | ⟨h1, h2⟩
                    · exact Or.inl ho
                    · exact Or.inr ⟨by omega, by omega⟩
                  · show S pgR.cursor ∨ (pg.cursor ≤ pgR.cursor ∧ pgR.cursor < pgR.cursor + PAGE_SIZE)
                    exact Or.inr ⟨by omega, by omega⟩
                exact hres
              have hforall : List.Forall₂
                  (Abs (⟨pgR.cursor + PAGE_SIZE,
                    (pgR.cursor, sib) :: (pg.cursor, childR) :: pgR.store⟩ : Pager K V)
                    (fun o => S o ∨ (pg.cursor ≤ o ∧ o < pgR.cursor + PAGE_SIZE)))
                  ((nd.children.set (unwrapPos (binary_search nd.keys k)) pg.cursor).insertIdx
                    (unwrapPos (binary_search nd.keys k) + 1) pgR.cursor)
                  ((ts.set (unwrapPos (binary_search nd.keys k)) tl).insertIdx
                    (unwrapPos (binary_search nd.keys k) + 1) tr) := by
                refine Forall₂_insertIdx (Forall₂_set ?_ _ _ _ habs_tl2) _ _ _ habs_tr2
                refine List.Forall₂.imp (fun a b hab => Abs.frame hab (fun o ho => Or.inl ho) ?_) hkids
                intro o ho
                exact hfr3 o (hS o ho)
              have hwf2 : WF lo hi (.node (nd.keys.insertIdx (unwrapPos (binary_search nd.keys k)) mk)
                  ((ts.set (unwrapPos (binary_search nd.keys k)) tl).insertIdx
                    (unwrapPos (binary_search nd.keys k) + 1) tr)) :=
                wf_insert_split_node (WF.node hsort hbnd htslen hch) hple hwf_tl hwf_tr hlb_mk hub_mk
              have hkeys2len : (nd.keys.insertIdx (unwrapPos (binary_search nd.keys k)) mk).length
                  = nd.keys.length + 1 := List.length_insertIdx _ _ hple
              have hchildren2len : ((nd.children.set (unwrapPos (binary_search nd.keys k))
                    pg.cursor).insertIdx (unwrapPos (binary_search nd.keys k) + 1) pgR.cursor).length
                  = nd.children.length + 1 := by
                rw [List.length_insertIdx _ _ (by rw [List.length_set]; omega), List.length_set]
              have hts2len : ((ts.set (unwrapPos (binary_search nd.keys k)) tl).insertIdx
                    (unwrapPos (binary_search nd.keys k) + 1) tr).length = ts.length + 1 := by
                rw [List.length_insertIdx _ _ (by rw [List.length_set]; omega), List.length_set]
              split at h
              · -- the rebuilt node itself overflows: split it
                split at h
                · cases h
                · rename_i left mk2 sib2 heqsp
                  simp only [Option.some.injEq, Prod.mk.injEq] at h
                  obtain ⟨h1, h2, h3⟩ := h
                  subst h1 h2 h3
                  simp only [InternalNode.split] at heqsp
                  split at heqsp
                  · cases heqsp
                  · rename_i median sibkeys heqd
                    simp only [Option.some.injEq, Prod.mk.injEq] at heqsp
                    obtain ⟨he1, he2, he3⟩ := heqsp
                    subst he1 he2 he3
                    have heqd2 : (nd.keys.insertIdx (unwrapPos (binary_search nd.keys k)) mk).drop ((nd.keys.insertIdx (unwrapPos (binary_search nd.keys k)) mk).length / 2) = median :: sibkeys := heqd
                    have hmed : (nd.keys.insertIdx (unwrapPos (binary_search nd.keys k)) mk).get? ((nd.keys.insertIdx (unwrapPos (binary_search nd.keys k)) mk).length / 2) = some median := by
                      have h0 : ((nd.keys.insertIdx (unwrapPos (binary_search nd.keys k)) mk).drop ((nd.keys.insertIdx (unwrapPos (binary_search nd.keys k)) mk).length / 2)).get? 0 = some median := by
                        rw [heqd2]
                        rfl
                      rw [List.get?_drop, Nat.add_zero] at h0
                      exact h0
                    have hslt : (nd.keys.insertIdx (unwrapPos (binary_search nd.keys k)) mk).length / 2 < (nd.keys.insertIdx (unwrapPos (binary_search nd.keys k)) mk).length := (List.get?_eq_some.mp hmed).1
                    have hsib : (nd.keys.insertIdx (unwrapPos (binary_search nd.keys k)) mk).drop ((nd.keys.insertIdx (unwrapPos (binary_search nd.keys k)) mk).length / 2 + 1) = sibkeys := by
                      rw [← List.tail_drop, heqd2]
                      rfl
                    have hCK : ((nd.children.set (unwrapPos (binary_search nd.keys k)) pg.cursor).insertIdx (unwrapPos (binary_search nd.keys k) + 1) pgR.cursor).length = (nd.keys.insertIdx (unwrapPos (binary_search nd.keys k)) mk).length + 1 := by
                      rw [hchildren2len, hkeys2len]
                      omega
                    obtain ⟨hwfL, hwfR, hlbM, hubM⟩ := wf_node_split hwf2 hslt hmed
                    rw [hsib] at hwfR
                    refine ⟨.node ((nd.keys.insertIdx (unwrapPos (binary_search nd.keys k)) mk).take ((nd.keys.insertIdx (unwrapPos (binary_search nd.keys k)) mk).length / 2))
                        (((ts.set (unwrapPos (binary_search nd.keys k)) tl).insertIdx (unwrapPos (binary_search nd.keys k) + 1) tr).take ((nd.keys.insertIdx (unwrapPos (binary_search nd.keys k)) mk).length / 2 + 1)),
                      .node sibkeys (((ts.set (unwrapPos (binary_search nd.keys k)) tl).insertIdx (unwrapPos (binary_search nd.keys k) + 1) tr).drop ((nd.keys.insertIdx (unwrapPos (binary_search nd.keys k)) mk).length / 2 + 1)),
                      ?_, ?_, hwfL, hwfR, hlbM, hubM⟩
                    · refine NodeAbs.node ?_ ?_
                      · show (((nd.children.set (unwrapPos (binary_search nd.keys k)) pg.cursor).insertIdx (unwrapPos (binary_search nd.keys k) + 1) pgR.cursor).take ((nd.keys.insertIdx (unwrapPos (binary_search nd.keys k)) mk).length / 2 + 1)).length
                          = ((nd.keys.insertIdx (unwrapPos (binary_search nd.keys k)) mk).take ((nd.keys.insertIdx (unwrapPos (binary_search nd.keys k)) mk).length / 2)).length + 1
                        rw [List.length_take, List.length_take]
                        omega
                      · show List.Forall₂ _ (((nd.children.set (unwrapPos (binary_search nd.keys k)) pg.cursor).insertIdx (unwrapPos (binary_search nd.keys k) + 1) pgR.cursor).take ((nd.keys.insertIdx (unwrapPos (binary_search nd.keys k)) mk).length / 2 + 1))
                          (((ts.set (unwrapPos (binary_search nd.keys k)) tl).insertIdx (unwrapPos (binary_search nd.keys k) + 1) tr).take ((nd.keys.insertIdx (unwrapPos (binary_search nd.keys k)) mk).length / 2 + 1))
                        exact Forall₂_take hforall _
                    · refine NodeAbs.node ?_ ?_
                      · show (((nd.children.set (unwrapPos (binary_search nd.keys k)) pg.cursor).insertIdx (unwrapPos (binary_search nd.keys k) + 1) pgR.cursor).drop ((nd.keys.insertIdx (unwrapPos (binary_search nd.keys k)) mk).length / 2 + 1)).length = sibkeys.length + 1
                        have hsl : sibkeys.length = (nd.keys.insertIdx (unwrapPos (binary_search nd.keys k)) mk).length - ((nd.keys.insertIdx (unwrapPos (binary_search nd.keys k)) mk).length / 2 + 1) := by
                          rw [← hsib, List.length_drop]
                        rw [List.length_drop, hsl, hCK]
                        omega
                      · show List.Forall₂ _ (((nd.children.set (unwrapPos (binary_search nd.keys k)) pg.cursor).insertIdx (unwrapPos (binary_search nd.keys k) + 1) pgR.cursor).drop ((nd.keys.insertIdx (unwrapPos (binary_search nd.keys k)) mk).length / 2 + 1))
                          (((ts.set (unwrapPos (binary_search nd.keys k)) tl).insertIdx (unwrapPos (binary_search nd.keys k) + 1) tr).drop ((nd.keys.insertIdx (unwrapPos (binary_search nd.keys k)) mk).length / 2 + 1))
                        exact Forall₂_drop hforall _
              · -- the rebuilt node still fits
                simp only [Option.some.injEq, Prod.mk.injEq] at h
                obtain ⟨h1, h2, h3⟩ := h
                subst h1 h2 h3
                refine ⟨.node (nd.keys.insertIdx (unwrapPos (binary_search nd.keys k)) mk)
                  ((ts.set (unwrapPos (binary_search nd.keys k)) tl).insertIdx
                    (unwrapPos (binary_search nd.keys k) + 1) tr), ?_, hwf2⟩
                refine NodeAbs.node ?_ ?_
                · show ((nd.children.set (unwrapPos (binary_search nd.keys k))
                      pg.cursor).insertIdx (unwrapPos (binary_search nd.keys k) + 1)
                        pgR.cursor).length
                    = (nd.keys.insertIdx (unwrapPos (binary_search nd.keys k)) mk).length + 1
                  rw [hchildren2len, hkeys2len]
                  omega
                · exact hforall

/-! ### The insert driver preserves the tree invariant -/

theorem Inv_some {K V : Type} [LinearOrder K] {st : BPTree K V} {r : Nat}
    (hr : st.root_node = some r)
    (h : ∃ t : PTree K V, Abs st.pager (fun o => o < st.pager.cursor) r t ∧ WF none none t) :
    Inv st := by
  simp only [Inv, hr]
  exact h

theorem BPTree.insert_inv {K V : Type} [LinearOrder K] {fuel : Nat} {s : BPTree K V}
    {k : K} {v : V} {s2 : BPTree K V}
    (hinv : Inv s) (h : s.insert fuel k v = some s2) : Inv s2 := by
  have hpos : 0 < PAGE_SIZE := by decide
  simp only [BPTree.insert] at h
  split at h
  · -- empty tree: seed a one-entry leaf root
    simp only [Pager.write, Option.some.injEq] at h
    subst h
    refine Inv_some rfl ⟨.leaf [k] [v], ?_, ?_⟩
    · refine @Abs.leaf K V _ _ s.pager.cursor ⟨[k], [v], some s.pager.next_offset⟩ ?_ ?_
      · show s.pager.cursor < s.pager.cursor + PAGE_SIZE
        omega
      · exact Pager.read_write_self s.pager _
    · exact WF.leaf (List.sorted_singleton k) (fun x hx => ⟨trivial, trivial⟩)
  · -- non-empty: copy the root, insert below it
    rename_i r hroot
    split at h
    · cases h
    · rename_i root hread
      have hinv2 : ∃ t : PTree K V,
          Abs s.pager (fun o => o < s.pager.cursor) r t ∧ WF none none t := by
        simp only [Inv, hroot] at hinv
        exact hinv
      obtain ⟨t, habs, hwf⟩ := hinv2
      have habs_root : NodeAbs s.pager (fun o => o < s.pager.cursor) root t :=
        Abs_to_NodeAbs habs hread
      simp only [Pager.write] at h
      split at h
      · cases h
      · rename_i pgR rootR spR heqrec
        have habs_root1 : NodeAbs (⟨s.pager.cursor + PAGE_SIZE,
            (s.pager.cursor, root) :: s.pager.store⟩ : Pager K V)
            (fun o => o < s.pager.cursor) root t := by
          refine habs_root.liftFrame (fun o ho => ho) ?_
          intro o ho
          exact Pager.read_write_of_ne s.pager root (by omega)
        have ihres := Node.insert_wf fuel _ root k v s.degree pgR rootR spR
          (fun o => o < s.pager.cursor) t none none
          (fun o ho => (show o < s.pager.cursor + PAGE_SIZE from by omega))
          habs_root1 hwf trivial trivial heqrec
        obtain ⟨hcR', hfR⟩ := Node.insert_frame fuel _ root k v s.degree pgR rootR spR heqrec
        have hcR : s.pager.cursor + PAGE_SIZE ≤ pgR.cursor := hcR'
        split at h
        · -- no root split: write the root back at its copy offset
          simp only [Option.some.injEq] at h
          subst h
          obtain ⟨t2, habs_t2x, hwf_t2⟩ := ihres
          have habs_t2 : NodeAbs pgR
              (fun o => o < s.pager.cursor
                ∨ (s.pager.cursor + PAGE_SIZE ≤ o ∧ o < pgR.cursor)) rootR t2 := habs_t2x
          refine Inv_some rfl ⟨t2, ?_, hwf_t2⟩
          refine NodeAbs_write_at_abs habs_t2 ?_ ?_ ?_
          · intro o ho
            rcases ho with ho | ⟨h1, h2⟩
            · omega
            · omega
          · intro o ho
            show o < pgR.cursor
            rcases ho with ho | ⟨h1, h2⟩
            · omega
            · omega
          · show s.pager.cursor < pgR.cursor
            omega
        · -- root split: hang the copy and the sibling under a fresh internal root
          rename_i mk sib
          simp only [Pager.write, Pager.write_at, Option.some.injEq] at h
          subst h
          obtain ⟨tl, tr, habs_tlx, habs_trx, hwf_tl, hwf_tr, hlb_mk, hub_mk⟩ := ihres
          have habs_tl : NodeAbs pgR
              (fun o => o < s.pager.cursor
                ∨ (s.pager.cursor + PAGE_SIZE ≤ o ∧ o < pgR.cursor)) rootR tl := habs_tlx
          have habs_tr : NodeAbs pgR
              (fun o => o < s.pager.cursor
                ∨ (s.pager.cursor + PAGE_SIZE ≤ o ∧ o < pgR.cursor)) sib tr := habs_trx
          refine Inv_some rfl ⟨.node [mk] [tl, tr], ?_, ?_⟩
          · refine @Abs.node K V _ _ (pgR.cursor + PAGE_SIZE)
              ⟨[mk], [s.pager.cursor, pgR.cursor], some (pgR.cursor + PAGE_SIZE)⟩
              [tl, tr] ?_ ?_ ?_ ?_
            · show pgR.cursor + PAGE_SIZE < pgR.cursor + PAGE_SIZE + PAGE_SIZE
              omega
            · exact Pager.read_write_self
                (⟨pgR.cursor + PAGE_SIZE,
                  (s.pager.cursor, rootR) :: (pgR.cursor, sib) :: pgR.store⟩ : Pager K V)
                (.Internal ⟨[mk], [s.pager.cursor, pgR.cursor], some (pgR.cursor + PAGE_SIZE)⟩)
            · rfl
            · -- the two children parse below the new root
              refine List.Forall₂.cons ?_ (List.Forall₂.cons ?_ List.Forall₂.nil)
              · -- the root copy at its copy offset
                have hstep1 : NodeAbs (pgR.write sib).2
                    (fun o => o < s.pager.cursor
                      ∨ (s.pager.cursor + PAGE_SIZE ≤ o ∧ o < pgR.cursor)) rootR tl := by
                  refine habs_tl.liftFrame (fun o ho => ho) ?_
                  intro o ho
                  refine Pager.read_write_of_ne pgR sib ?_
                  rcases ho with ho | ⟨h1, h2⟩
                  · omega
                  · omega
                have hstep2 : Abs ((pgR.write sib).2.write_at rootR s.pager.cursor)
                    (fun o => (o < s.pager.cursor
                      ∨ (s.pager.cursor + PAGE_SIZE ≤ o ∧ o < pgR.cursor)) ∨ o = s.pager.cursor)
                    s.pager.cursor tl := by
                  refine NodeAbs_write_at_abs hstep1 ?_ (fun o ho => Or.inl ho) (Or.inr rfl)
                  intro o ho
                  rcases ho with ho | ⟨h1, h2⟩
                  · omega
                  · omega
                refine hstep2.frame ?_ ?_
                · intro o ho
                  show o < pgR.cursor + PAGE_SIZE + PAGE_SIZE
                  rcases ho with (ho | ⟨h1, h2⟩) | ho
                  · omega
                  · omega
                  · omega
                · intro o ho
                  have hne : o ≠ pgR.cursor + PAGE_SIZE := by
                    rcases ho with (ho | ⟨h1, h2⟩) | ho
                    · omega
                    · omega
                    · omega
                  exact Pager.read_write_of_ne
                    (⟨pgR.cursor + PAGE_SIZE,
                      (s.pager.cursor, rootR) :: (pgR.cursor, sib) :: pgR.store⟩ : Pager K V)
                    _ hne
              · -- the sibling at its fresh offset
                have hstep1 : Abs (pgR.write sib).2
                    (fun o => (o < s.pager.cursor
                      ∨ (s.pager.cursor + PAGE_SIZE ≤ o ∧ o < pgR.cursor)) ∨ o = pgR.cursor)
                    pgR.cursor tr := by
                  refine NodeAbs_write_abs habs_tr ?_ (fun o ho => Or.inl ho) (Or.inr rfl)
                  intro o ho
                  show o < pgR.cursor
                  rcases ho with ho | ⟨h1, h2⟩
                  · omega
                  · omega
                have hstep2 : Abs ((pgR.write sib).2.write_at rootR s.pager.cursor)
                    (fun o => (o < s.pager.cursor
                      ∨ (s.pager.cursor + PAGE_SIZE ≤ o ∧ o < pgR.cursor)) ∨ o = pgR.cursor)
                    pgR.cursor tr := by
                  refine hstep1.frame (fun o ho => ho) ?_
                  intro o ho
                  refine Pager.read_write_at_of_ne _ _ ?_
                  rcases ho with (ho | ⟨h1, h2⟩) | ho
                  · omega
                  · omega
                  · omega
                refine hstep2.frame ?_ ?_
                · intro o ho
                  show o < pgR.cursor + PAGE_SIZE + PAGE_SIZE
                  rcases ho with (ho | ⟨h1, h2⟩) | ho
                  · omega
                  · omega
                  · omega
                · intro o ho
                  have hne : o ≠ pgR.cursor + PAGE_SIZE := by
                    rcases ho with (ho | ⟨h1, h2⟩) | ho
                    · omega
                    · omega
                    · omega
                  exact Pager.read_write_of_ne
                    (⟨pgR.cursor + PAGE_SIZE,
                      (s.pager.cursor, rootR) :: (pgR.cursor, sib) :: pgR.store⟩ : Pager K V)
                    _ hne
          · refine WF.node (List.sorted_singleton mk) (fun x hx => ⟨trivial, trivial⟩) rfl ?_
            intro i c hc
            cases i with
            | zero =>
              simp only [List.get?] at hc
              cases hc
              exact hwf_tl
            | succ j =>
              cases j with
              | zero =>
                simp only [List.get?] at hc
                cases hc
                exact hwf_tr
              | succ j2 => simp [List.get?] at hc

/-! ### Fuel adequacy and search/delete on an absent key -/


theorem NodeAbs_to_Abs {K V : Type} {pg : Pager K V} {S : Nat → Prop} {off : Nat}
    {t : PTree K V} {n : Node K V} (h : NodeAbs pg S n t) (hr : pg.read off = some n)
    (hoff : S off) : Abs pg S off t := by
  cases h with
  | leaf => exact Abs.leaf hoff hr
  | node hlen hkids => exact Abs.node hoff hr hlen hkids

theorem Abs_read {K V : Type} {pg : Pager K V} {S : Nat → Prop} {off : Nat}
    {t : PTree K V} (h : Abs pg S off t) :
    ∃ n, pg.read off = some n ∧ NodeAbs pg S n t := by
  cases h with
  | leaf hS hr => exact ⟨_, hr, NodeAbs.leaf⟩
  | node hS hr hlen hkids => exact ⟨_, hr, NodeAbs.node hlen hkids⟩

theorem NodeAbs_leaf_inv {K V : Type} {pg : Pager K V} {S : Nat → Prop} {n : Node K V}
    {ks : List K} {vs : List V} (h : NodeAbs pg S n (.leaf ks vs)) :
    ∃ l : LeafNode K V, n = .Leaf l ∧ l.keys = ks ∧ l.values = vs := by
  cases h with
  | leaf => exact ⟨_, rfl, rfl, rfl⟩

theorem NodeAbs_node_inv {K V : Type} {pg : Pager K V} {S : Nat → Prop} {n : Node K V}
    {ks : List K} {cs : List (PTree K V)} (h : NodeAbs pg S n (.node ks cs)) :
    ∃ nd : InternalNode K, n = .Internal nd ∧ nd.keys = ks
      ∧ nd.children.length = ks.length + 1
      ∧ List.Forall₂ (Abs pg S) nd.children cs := by
  cases h with
  | node hlen hkids => exact ⟨_, rfl, rfl, hlen, hkids⟩

theorem set_get?_self {α : Type} : ∀ (l : List α) (i : Nat) (a : α),
    l.get? i = some a → l.set i a = l := by
  intro l
  induction l with
  | nil => intro i a h; simp at h
  | cons x xs ih =>
    intro i a h
    cases i with
    | zero =>
      simp only [List.get?] at h
      cases h
      rfl
    | succ j =>
      simp only [List.get?] at h
      simp only [List.set]
      rw [ih j a h]

theorem Node.search_congr {K V : Type} [LinearOrder K] :
    ∀ (m : Nat) (t : PTree K V), sizeOf t ≤ m →
      ∀ (fuel1 fuel2 : Nat) (pg1 pg2 : Pager K V) (S1 S2 : Nat → Prop)
        (n1 n2 : Node K V) (q : K),
      NodeAbs pg1 S1 n1 t → NodeAbs pg2 S2 n2 t →
      HeightLe t fuel1 → HeightLe t fuel2 →
      Node.search fuel1 pg1 n1 q = Node.search fuel2 pg2 n2 q := by
  intro m
  induction m with
  | zero =>
    intro t ht
    exact absurd (sizeOf_ptree_pos t) (by omega)
  | succ m ih =>
    intro t ht fuel1 fuel2 pg1 pg2 S1 S2 n1 n2 q habs1 habs2 hh1 hh2
    cases t with
    | leaf ks vs =>
      obtain ⟨l1, hn1, hk1, hv1⟩ := NodeAbs_leaf_inv habs1
      obtain ⟨l2, hn2, hk2, hv2⟩ := NodeAbs_leaf_inv habs2
      subst hn1 hn2
      have hsearch : l1.search q = l2.search q := by
        simp only [LeafNode.search, hk1, hk2, hv1, hv2]
      cases fuel1 <;> cases fuel2 <;> simp only [Node.search, hsearch]
    | node ks cs =>
      obtain ⟨nd1, hn1, hk1, hlen1, hkids1⟩ := NodeAbs_node_inv habs1
      obtain ⟨nd2, hn2, hk2, hlen2, hkids2⟩ := NodeAbs_node_inv habs2
      subst hn1 hn2
      cases hh1 with
      | node hf1 =>
      cases hh2 with
      | node hf2 =>
      rename_i m1 m2
      have hple := position_le_length ks q
      cases hg1 : nd1.children.get? (unwrapPos (binary_search ks q)) with
      | none =>
        have := List.get?_eq_none.mp hg1
        omega
      | some coff1 =>
      cases hg2 : nd2.children.get? (unwrapPos (binary_search ks q)) with
      | none =>
        have := List.get?_eq_none.mp hg2
        omega
      | some coff2 =>
      obtain ⟨tc1, hts1, habs_c1⟩ := Forall₂_get_left hkids1 _ _ hg1
      obtain ⟨tc2, hts2, habs_c2⟩ := Forall₂_get_left hkids2 _ _ hg2
      have htc : tc1 = tc2 := by
        have := hts1.symm.trans hts2
        exact Option.some.inj this
      subst htc
      obtain ⟨c1, hr1, habs_cn1⟩ := Abs_read habs_c1
      obtain ⟨c2, hr2, habs_cn2⟩ := Abs_read habs_c2
      have hsz : sizeOf tc1 < sizeOf (PTree.node ks cs) :=
        sizeOf_mem_children (List.get?_mem hts1)
      simp only [Node.search, hk1, hk2, hg1, hg2, hr1, hr2]
      exact ih tc1 (by omega) m1 m2 pg1 pg2 S1 S2 c1 c2 q habs_cn1 habs_cn2
        (hf1 tc1 (List.get?_mem hts1)) (hf2 tc1 (List.get?_mem hts1))

theorem Node.search_absent {K V : Type} [LinearOrder K] :
    ∀ (m : Nat) (t : PTree K V), sizeOf t ≤ m →
      ∀ (fuel : Nat) (pg : Pager K V) (S : Nat → Prop) (n : Node K V) (q : K),
      NodeAbs pg S n t → HeightLe t fuel → ¬ LeafKeyIn q t →
      Node.search fuel pg n q = some none := by
  intro m
  induction m with
  | zero =>
    intro t ht
    exact absurd (sizeOf_ptree_pos t) (by omega)
  | succ m ih =>
    intro t ht fuel pg S n q habs hh hmiss
    cases t with
    | leaf ks vs =>
      obtain ⟨l, hn, hk, hv⟩ := NodeAbs_leaf_inv habs
      subst hn
      have hsearch : l.search q = none := by
        simp only [LeafNode.search]
        cases hbs : binary_search l.keys q with
        | inr p => rfl
        | inl p =>
          exfalso
          refine hmiss (LeafKeyIn.leaf ?_)
          rw [← hk]
          exact binary_search_inl_mem hbs
      cases fuel <;> simp only [Node.search, hsearch]
    | node ks cs =>
      obtain ⟨nd, hn, hk, hlen, hkids⟩ := NodeAbs_node_inv habs
      subst hn
      cases hh with
      | node hf =>
      rename_i m1
      have hple := position_le_length ks q
      cases hg : nd.children.get? (unwrapPos (binary_search ks q)) with
      | none =>
        have := List.get?_eq_none.mp hg
        omega
      | some coff =>
      obtain ⟨tc, hts, habs_c⟩ := Forall₂_get_left hkids _ _ hg
      obtain ⟨c, hr, habs_cn⟩ := Abs_read habs_c
      have hsz : sizeOf tc < sizeOf (PTree.node ks cs) :=
        sizeOf_mem_children (List.get?_mem hts)
      simp only [Node.search, hk, hg, hr]
      refine ih tc (by omega) m1 pg S c q habs_cn (hf tc (List.get?_mem hts)) ?_
      intro hin
      exact hmiss (LeafKeyIn.child (List.get?_mem hts) hin)

theorem Node.remove_miss {K V : Type} [LinearOrder K] :
    ∀ (m : Nat) (t : PTree K V), sizeOf t ≤ m →
      ∀ (fuel : Nat) (pg : Pager K V) (S : Nat → Prop) (n : Node K V) (k : K) (d : Nat),
      (∀ o, S o → o < pg.cursor) → NodeAbs pg S n t → HeightLe t fuel →
      ¬ LeafKeyIn k t →
      ∃ pg2 n2, Node.remove fuel pg n k d = some (pg2, n2, none)
        ∧ pg.cursor ≤ pg2.cursor
        ∧ NodeAbs pg2 (fun o => S o ∨ (pg.cursor ≤ o ∧ o < pg2.cursor)) n2 t := by
  have hpos : 0 < PAGE_SIZE := by decide
  intro m
  induction m with
  | zero =>
    intro t ht
    exact absurd (sizeOf_ptree_pos t) (by omega)
  | succ m ih =>
    intro t ht fuel pg S n k d hS habs hh hmiss
    cases t with
    | leaf ks vs =>
      obtain ⟨l, hn, hk, hv⟩ := NodeAbs_leaf_inv habs
      subst hn
      cases hbs : binary_search l.keys k with
      | inl p =>
        exfalso
        refine hmiss (LeafKeyIn.leaf ?_)
        rw [← hk]
        exact binary_search_inl_mem hbs
      | inr p =>
        refine ⟨pg, .Leaf l, ?_, le_refl _, ?_⟩
        · cases fuel <;> simp only [Node.remove, LeafNode.remove, hbs]
        · rw [← hk, ← hv]
          exact NodeAbs.leaf
    | node ks cs =>
      obtain ⟨nd, hn, hk, hlen, hkids⟩ := NodeAbs_node_inv habs
      subst hn
      cases hh with
      | node hf =>
      rename_i m1
      have hple := position_le_length ks k
      cases hg : nd.children.get? (unwrapPos (binary_search ks k)) with
      | none =>
        have := List.get?_eq_none.mp hg
        omega
      | some coff =>
      obtain ⟨tc, hts, habs_c⟩ := Forall₂_get_left hkids _ _ hg
      have hcofflt : coff < pg.cursor := hS coff (Abs_S habs_c)
      obtain ⟨child, hread, habs_cn⟩ := Abs_read habs_c
      have habs_cn1 : NodeAbs (⟨pg.cursor + PAGE_SIZE, (pg.cursor, child) :: pg.store⟩ :
          Pager K V) S child tc := by
        refine habs_cn.liftFrame (fun o ho => ho) ?_
        intro o ho
        exact Pager.read_write_of_ne pg child (by have := hS o ho; omega)
      have hsz : sizeOf tc < sizeOf (PTree.node ks cs) :=
        sizeOf_mem_children (List.get?_mem hts)
      obtain ⟨pgR, n2c, heq, hcR', habs_res⟩ := ih tc (by omega) m1
        (⟨pg.cursor + PAGE_SIZE, (pg.cursor, child) :: pg.store⟩ : Pager K V) S child k d
        (fun o ho => (show o < pg.cursor + PAGE_SIZE from by have := hS o ho; omega))
        habs_cn1 (hf tc (List.get?_mem hts))
        (fun hin => hmiss (LeafKeyIn.child (List.get?_mem hts) hin))
      have hcR : pg.cursor + PAGE_SIZE ≤ pgR.cursor := hcR'
      obtain ⟨hcF', hfF⟩ := Node.remove_frame m1 _ child k d pgR n2c none heq
      have hfRlow : ∀ off, off < pg.cursor → pgR.read off = pg.read off := by
        intro off hoff
        have hstep := hfF off (show off < pg.cursor + PAGE_SIZE by omega)
        rw [hstep]
        have hx : Pager.read (⟨pg.cursor + PAGE_SIZE, (pg.cursor, child) :: pg.store⟩ :
            Pager K V) off = pg.read off :=
          Pager.read_write_of_ne pg child (by omega)
        rw [hx]
      refine ⟨pgR, .Internal { nd with
          children := nd.children.set (unwrapPos (binary_search ks k)) pg.cursor },
        ?_, by omega, ?_⟩
      · -- the remove call itself: descend, recurse, propagate the miss
        simp only [Node.remove, hk, hg, hread, Pager.write]
        rw [heq]
      · -- the parse is unchanged: same keys, same pure forest
        rw [← hk]
        have hts2 : cs.get? (unwrapPos (binary_search nd.keys k)) = some tc := by
          rw [hk]
          exact hts
        refine NodeAbs.node ?_ ?_
        · show (nd.children.set (unwrapPos (binary_search nd.keys k)) pg.cursor).length = _
          rw [List.length_set, hk]
          exact hlen
        · show List.Forall₂ _ (nd.children.set (unwrapPos (binary_search nd.keys k)) pg.cursor) cs
          rw [← set_get?_self cs (unwrapPos (binary_search nd.keys k)) tc hts2]
          refine Forall₂_set ?_ _ _ _ ?_
          · refine List.Forall₂.imp (fun a b hab => Abs.frame hab (fun o ho => Or.inl ho) ?_) hkids
            intro o ho
            exact hfRlow o (hS o ho)
          · have hrdc : pgR.read pg.cursor = some child := by
              have hstep := hfF pg.cursor (show pg.cursor < pg.cursor + PAGE_SIZE by omega)
              rw [hstep]
              exact Pager.read_write_self pg child
            refine NodeAbs_to_Abs (habs_cn.liftFrame (fun o ho => Or.inl ho) ?_) hrdc ?_
            · intro o ho
              exact hfRlow o (hS o ho)
            · exact Or.inr ⟨le_refl _, by omega⟩

theorem c7_absent_key {K V : Type} [LinearOrder K] (fuel : Nat) (s : BPTree K V)
    (k : K) (r : Nat) (t : PTree K V)
    (hroot : s.root_node = some r)
    (habs : Abs s.pager (fun o => o < s.pager.cursor) r t)
    (hh : HeightLe t fuel) (hmiss : ¬ LeafKeyIn k t) :
    (∃ s2 : BPTree K V, BPTree.delete fuel s k = some s2
      ∧ (∃ r2, s2.root_node = some r2 ∧ Abs s2.pager (fun o => o < s2.pager.cursor) r2 t)
      ∧ ∀ (q : K) (fuel2 : Nat), HeightLe t fuel2 →
          BPTree.search fuel2 s2 q = BPTree.search fuel2 s q)
    ∧ BPTree.search fuel s k = some none := by
  have hpos : 0 < PAGE_SIZE := by decide
  obtain ⟨root, hread, habs_root⟩ := Abs_read habs
  have habs_root1 : NodeAbs (⟨s.pager.cursor + PAGE_SIZE,
      (s.pager.cursor, root) :: s.pager.store⟩ : Pager K V)
      (fun o => o < s.pager.cursor) root t := by
    refine habs_root.liftFrame (fun o ho => ho) ?_
    intro o ho
    exact Pager.read_write_of_ne s.pager root (by omega)
  obtain ⟨pgR, rootR, heq, hcR', habs_res⟩ := Node.remove_miss (sizeOf t) t (le_refl _)
    fuel _ _ root k s.degree
    (fun o ho => (show o < s.pager.cursor + PAGE_SIZE from by omega))
    habs_root1 hh hmiss
  have hcR : s.pager.cursor + PAGE_SIZE ≤ pgR.cursor := hcR'
  obtain ⟨hcF', hfF⟩ := Node.remove_frame fuel _ root k s.degree pgR rootR none heq
  have habs_res2 : NodeAbs pgR (fun o => o < s.pager.cursor
      ∨ (s.pager.cursor + PAGE_SIZE ≤ o ∧ o < pgR.cursor)) rootR t := habs_res
  have habs_new : Abs (pgR.write_at rootR s.pager.cursor) (fun o => o < pgR.cursor)
      s.pager.cursor t := by
    refine NodeAbs_write_at_abs habs_res2 ?_ ?_ ?_
    · intro o ho
      rcases ho with ho | ⟨h1, h2⟩ <;> omega
    · intro o ho
      show o < pgR.cursor
      rcases ho with ho | ⟨h1, h2⟩ <;> omega
    · show s.pager.cursor < pgR.cursor
      omega
  refine ⟨⟨{ s with pager := pgR.write_at rootR s.pager.cursor, root_node := some s.pager.cursor }, ?_, ?_, ?_⟩, ?_⟩
  · show BPTree.delete fuel s k = some _
    simp only [BPTree.delete, hroot, hread, Pager.write]
    rw [heq]
  · exact ⟨s.pager.cursor, rfl, habs_new⟩
  · intro q fuel2 hh2
    obtain ⟨n2', hr2, hn2abs⟩ := Abs_read habs_new
    simp only [BPTree.search, hroot, hread, hr2]
    exact Node.search_congr (sizeOf t) t (le_refl _) fuel2 fuel2 _ _ _ _ n2' root q
      hn2abs habs_root hh2 hh2
  · simp only [BPTree.search, hroot, hread]
    exact Node.search_absent (sizeOf t) t (le_refl _) fuel _ _ root k habs_root hh hmiss

theorem c7_absent_key_witness :
    (∃ s2 : BPTree Nat Nat, BPTree.delete 10 c6state 7 = some s2
      ∧ (∃ r2, s2.root_node = some r2
        ∧ Abs s2.pager (fun o => o < s2.pager.cursor) r2 c6tree)
      ∧ ∀ (q : Nat) (fuel2 : Nat), HeightLe c6tree fuel2 →
          BPTree.search fuel2 s2 q = BPTree.search fuel2 c6state q)
    ∧ BPTree.search 10 c6state 7 = some none := by
  refine c7_absent_key 10 c6state 7 24596 c6tree (by decide) ?_ ?_ ?_
  · refine @Abs.node Nat Nat c6state.pager (fun o => o < c6state.pager.cursor) 24596
      { keys := [6], children := [16404, 20500], offset := some 24596 }
      [PTree.leaf [5, 6] [105, 106], PTree.leaf [10, 20] [110, 120]]
      (by decide) (by decide) (by decide) ?_
    refine List.Forall₂.cons
      (@Abs.leaf Nat Nat c6state.pager (fun o => o < c6state.pager.cursor) 16404
        { keys := [5, 6], values := [105, 106], offset := some 4116 } (by decide) (by decide)) ?_
    exact List.Forall₂.cons
      (@Abs.leaf Nat Nat c6state.pager (fun o => o < c6state.pager.cursor) 20500
        { keys := [10, 20], values := [110, 120], offset := some 20500 } (by decide) (by decide))
      List.Forall₂.nil
  · refine HeightLe.node ?_
    intro c hc
    cases hc with
    | head => exact HeightLe.leaf
    | tail _ hc2 =>
      cases hc2 with
      | head => exact HeightLe.leaf
      | tail _ hc3 => cases hc3
  · intro h
    cases h with
    | child hmem hk =>
      cases hmem with
      | head =>
        cases hk with
        | leaf hx => exact absurd hx (by decide)
      | tail _ hm2 =>
        cases hm2 with
        | head =>
          cases hk with
          | leaf hx => exact absurd hx (by decide)
        | tail _ hm3 => cases hm3



theorem borrow_left_spec_internal {K V : Type} [LinearOrder K] {self : InternalNode K}
    {pg : Pager K V} {i : Nat} {ls : InternalNode K} {cs : InternalNode K} {loff coff : Nat}
    {pg2 : Pager K V} {self2 : InternalNode K} (hne : coff ≠ loff)
    (h : self.borrow_left pg i (.Internal ls) loff (.Internal cs) coff = some (pg2, self2)) :
    self2.children = self.children ∧
    ∃ bk bc pk, ls.keys.getLast? = some bk ∧ ls.children.getLast? = some bc
      ∧ self.keys.get? (i - 1) = some pk
      ∧ self2.keys = self.keys.set (i - 1) bk
      ∧ pg2.read loff = some (.Internal { ls with keys := ls.keys.dropLast, children := ls.children.dropLast })
      ∧ pg2.read coff = some (.Internal { cs with keys := pk :: cs.keys, children := bc :: cs.children }) := by
  simp only [InternalNode.borrow_left] at h
  split at h
  · cases h
  · cases hbk : ls.keys.getLast? with
    | none => rw [hbk] at h; cases h
    | some bk =>
      cases hbc : ls.children.getLast? with
      | none => rw [hbk, hbc] at h; cases h
      | some bc =>
        cases hpk : self.keys.get? (i - 1) with
        | none => rw [hbk, hbc, hpk] at h; cases h
        | some pk =>
          rw [hbk, hbc, hpk] at h
          simp only [Option.some.injEq, Prod.mk.injEq] at h
          obtain ⟨h1, h2⟩ := h
          subst h1 h2
          refine ⟨rfl, bk, bc, pk, rfl, rfl, rfl, rfl, ?_, ?_⟩
          · rw [Pager.read_write_at_of_ne _ _ (fun hc => hne hc.symm)]
            exact Pager.read_write_at_self _ _ _
          · exact Pager.read_write_at_self _ _ _

theorem borrow_left_spec_leaf {K V : Type} [LinearOrder K] {self : InternalNode K}
    {pg : Pager K V} {i : Nat} {ls : LeafNode K V} {cs : LeafNode K V} {loff coff : Nat}
    {pg2 : Pager K V} {self2 : InternalNode K} (hne : coff ≠ loff)
    (h : self.borrow_left pg i (.Leaf ls) loff (.Leaf cs) coff = some (pg2, self2)) :
    self2.children = self.children ∧
    ∃ bk bv ns, ls.keys.getLast? = some bk ∧ ls.values.getLast? = some bv
      ∧ ls.keys.dropLast.get? 0 = some ns
      ∧ self2.keys = self.keys.set (i - 1) ns
      ∧ pg2.read loff = some (.Leaf { ls with keys := ls.keys.dropLast, values := ls.values.dropLast })
      ∧ pg2.read coff = some (.Leaf { cs with keys := bk :: cs.keys, values := bv :: cs.values }) := by
  simp only [InternalNode.borrow_left] at h
  split at h
  · cases h
  · cases hbk : ls.keys.getLast? with
    | none => rw [hbk] at h; cases h
    | some bk =>
      cases hbv : ls.values.getLast? with
      | none => rw [hbk, hbv] at h; cases h
      | some bv =>
        cases hpk : self.keys.get? (i - 1) with
        | none => rw [hbk, hbv, hpk] at h; cases h
        | some pk =>
          rw [hbk, hbv, hpk] at h
          simp only [] at h
          cases hns : ls.keys.dropLast.get? 0 with
          | none => rw [hns] at h; cases h
          | some ns =>
            rw [hns] at h
            simp only [Option.some.injEq, Prod.mk.injEq] at h
            obtain ⟨h1, h2⟩ := h
            subst h1 h2
            refine ⟨rfl, bk, bv, ns, rfl, rfl, rfl, rfl, ?_, ?_⟩
            · rw [Pager.read_write_at_of_ne _ _ (fun hc => hne hc.symm)]
              exact Pager.read_write_at_self _ _ _
            · exact Pager.read_write_at_self _ _ _

theorem borrow_right_spec_internal {K V : Type} [LinearOrder K] {self : InternalNode K}
    {pg : Pager K V} {i : Nat} {rs : InternalNode K} {cs : InternalNode K} {roff coff : Nat}
    {pg2 : Pager K V} {self2 : InternalNode K} (hne : coff ≠ roff)
    (h : self.borrow_right pg i (.Internal rs) roff (.Internal cs) coff = some (pg2, self2)) :
    self2.children = self.children ∧
    ∃ bk ks2 bc cks2 pk, rs.keys = bk :: ks2 ∧ rs.children = bc :: cks2
      ∧ self.keys.get? i = some pk
      ∧ self2.keys = self.keys.set i bk
      ∧ pg2.read roff = some (.Internal { rs with keys := ks2, children := cks2 })
      ∧ pg2.read coff = some (.Internal { cs with keys := cs.keys ++ [pk], children := cs.children ++ [bc] }) := by
  simp only [InternalNode.borrow_right] at h
  cases hks : rs.keys with
  | nil => rw [hks] at h; cases h
  | cons bk ks2 =>
    cases hcs : rs.children with
    | nil => rw [hks, hcs] at h; cases h
    | cons bc cks2 =>
      cases hpk : self.keys.get? i with
      | none => rw [hks, hcs, hpk] at h; cases h
      | some pk =>
        rw [hks, hcs, hpk] at h
        simp only [Option.some.injEq, Prod.mk.injEq] at h
        obtain ⟨h1, h2⟩ := h
        subst h1 h2
        refine ⟨rfl, bk, ks2, bc, cks2, pk, rfl, rfl, rfl, rfl, ?_, ?_⟩
        · rw [Pager.read_write_at_of_ne _ _ (fun hc => hne hc.symm)]
          exact Pager.read_write_at_self _ _ _
        · exact Pager.read_write_at_self _ _ _

theorem borrow_right_spec_leaf {K V : Type} [LinearOrder K] {self : InternalNode K}
    {pg : Pager K V} {i : Nat} {rs : LeafNode K V} {cs : LeafNode K V} {roff coff : Nat}
    {pg2 : Pager K V} {self2 : InternalNode K} (hne : coff ≠ roff)
    (h : self.borrow_right pg i (.Leaf rs) roff (.Leaf cs) coff = some (pg2, self2)) :
    self2.children = self.children ∧
    ∃ bk ks2 bv vs2, rs.keys = bk :: ks2 ∧ rs.values = bv :: vs2
      ∧ self2.keys = self.keys.set i bk
      ∧ pg2.read roff = some (.Leaf { rs with keys := ks2, values := vs2 })
      ∧ pg2.read coff = some (.Leaf { cs with keys := cs.keys ++ [bk], values := cs.values ++ [bv] }) := by
  simp only [InternalNode.borrow_right] at h
  cases hks : rs.keys with
  | nil => rw [hks] at h; cases h
  | cons bk ks2 =>
    cases hvs : rs.values with
    | nil => rw [hks, hvs] at h; cases h
    | cons bv vs2 =>
      cases hpk : self.keys.get? i with
      | none => rw [hks, hvs, hpk] at h; cases h
      | some pk =>
        rw [hks, hvs, hpk] at h
        simp only [Option.some.injEq, Prod.mk.injEq] at h
        obtain ⟨h1, h2⟩ := h
        subst h1 h2
        refine ⟨rfl, bk, ks2, bv, vs2, rfl, rfl, rfl, ?_, ?_⟩
        · rw [Pager.read_write_at_of_ne _ _ (fun hc => hne hc.symm)]
          exact Pager.read_write_at_self _ _ _
        · exact Pager.read_write_at_self _ _ _

/-- Claim C8 amended: every mutating call copies each node it loads to a
freshly allocated offset, repoints the parent (or the root) at the copy, and
writes the mutated node at the copy offset.  Offsets allocated before the
call (below the starting cursor) are never overwritten, so the original
pages survive intact; consequently the root offset of an insert is always
freshly allocated — it changes even when no structural change occurs. -/
theorem c8_copy_on_write {K V : Type} [LinearOrder K] :
    (∀ (fuel : Nat) (s s2 : BPTree K V) (k : K) (v : V),
      BPTree.insert fuel s k v = some s2 →
      s.pager.cursor ≤ s2.pager.cursor
      ∧ (∀ off, off < s.pager.cursor → s2.pager.read off = s.pager.read off)
      ∧ (∀ r2, s2.root_node = some r2 → s.pager.cursor ≤ r2)
      ∧ (∀ r r2, s.root_node = some r → r < s.pager.cursor → s2.root_node = some r2 → r2 ≠ r))
    ∧ (∀ (fuel : Nat) (s s2 : BPTree K V) (k : K),
      BPTree.delete fuel s k = some s2 →
      s.pager.cursor ≤ s2.pager.cursor
      ∧ (∀ off, off < s.pager.cursor → s2.pager.read off = s.pager.read off)) := by
  have hpos : 0 < PAGE_SIZE := by decide
  constructor
  · intro fuel s s2 k v h
    simp only [BPTree.insert] at h
    cases hroot : s.root_node with
    | none =>
      rw [hroot] at h
      simp only [Pager.write, Pager.next_offset] at h
      simp only [Option.some.injEq] at h
      subst h
      refine ⟨by show s.pager.cursor ≤ s.pager.cursor + PAGE_SIZE; omega, ?_, ?_, ?_⟩
      · intro off hlt
        show storeLookup ((s.pager.cursor, _) :: s.pager.store) off = _
        simp only [storeLookup]
        rw [if_neg (by omega : ¬ s.pager.cursor = off)]
        rfl
      · intro r2 hr2
        simp only [Option.some.injEq] at hr2
        omega
      · intro r r2 hr
        cases hr
    | some r0 =>
      rw [hroot] at h
      simp only [] at h
      split at h
      · cases h
      · rename_i rootN hread
        simp only [Pager.write, Pager.next_offset] at h
        split at h
        · cases h
        · rename_i pgR rootR spR heqrec
          obtain ⟨ic, ir⟩ := Node.insert_frame _ _ _ _ _ _ _ _ _ heqrec
          have ic2 : s.pager.cursor + PAGE_SIZE ≤ pgR.cursor := ic
          have ir2 : ∀ off, off < s.pager.cursor → pgR.read off = s.pager.read off := by
            intro off hlt
            have hstep := ir off (show off < s.pager.cursor + PAGE_SIZE by omega)
            have hstep2 : pgR.read off
                = storeLookup ((s.pager.cursor, rootN) :: s.pager.store) off := hstep
            rw [hstep2]
            simp only [storeLookup]
            rw [if_neg (by omega : ¬ s.pager.cursor = off)]
            rfl
          split at h
          · simp only [Option.some.injEq] at h
            subst h
            refine ⟨?_, ?_, ?_, ?_⟩
            · show s.pager.cursor ≤ pgR.cursor
              omega
            · intro off hlt
              show (pgR.write_at rootR s.pager.cursor).read off = _
              rw [Pager.read_write_at_of_ne _ _ (by omega : off ≠ s.pager.cursor)]
              exact ir2 off hlt
            · intro r2 hr2
              simp only [Option.some.injEq] at hr2
              omega
            · intro r r2 hr hrlt hr2
              simp only [Option.some.injEq] at hr2
              omega
          · rename_i mk sib
            simp only [Pager.write, Pager.write_at, Pager.next_offset] at h
            simp only [Option.some.injEq] at h
            subst h
            refine ⟨?_, ?_, ?_, ?_⟩
            · show s.pager.cursor ≤ pgR.cursor + PAGE_SIZE + PAGE_SIZE
              omega
            · intro off hlt
              simp only [Pager.read, storeLookup]
              rw [if_neg (by omega : ¬ pgR.cursor + PAGE_SIZE = off)]
              rw [if_neg (by omega : ¬ s.pager.cursor = off)]
              rw [if_neg (by omega : ¬ pgR.cursor = off)]
              exact ir2 off hlt
            · intro r2 hr2
              simp only [Option.some.injEq] at hr2
              omega
            · intro r r2 hr hrlt hr2
              simp only [Option.some.injEq] at hr2
              omega
  · intro fuel s s2 k h
    simp only [BPTree.delete] at h
    cases hroot : s.root_node with
    | none =>
      rw [hroot] at h
      simp only [Option.some.injEq] at h
      subst h
      exact ⟨le_refl _, fun off _ => rfl⟩
    | some r0 =>
      rw [hroot] at h
      simp only [] at h
      split at h
      · cases h
      · rename_i rootN hread
        simp only [Pager.write, Pager.next_offset] at h
        split at h
        · cases h
        · rename_i pgR rootR resR heqrec
          obtain ⟨ic, ir⟩ := Node.remove_frame _ _ _ _ _ _ _ _ heqrec
          have ic2 : s.pager.cursor + PAGE_SIZE ≤ pgR.cursor := ic
          have ir2 : ∀ off, off < s.pager.cursor → pgR.read off = s.pager.read off := by
            intro off hlt
            have hstep := ir off (show off < s.pager.cursor + PAGE_SIZE by omega)
            have hstep2 : pgR.read off
                = storeLookup ((s.pager.cursor, rootN) :: s.pager.store) off := hstep
            rw [hstep2]
            simp only [storeLookup]
            rw [if_neg (by omega : ¬ s.pager.cursor = off)]
            rfl
          have hcur : s.pager.cursor ≤ pgR.cursor := by omega
          have hfr : ∀ off, off < s.pager.cursor →
              (pgR.write_at rootR s.pager.cursor).read off = s.pager.read off := by
            intro off hlt
            rw [Pager.read_write_at_of_ne _ _ (by omega : off ≠ s.pager.cursor)]
            exact ir2 off hlt
          split at h <;>
            first
            | (simp only [Option.some.injEq] at h
               subst h
               exact ⟨hcur, hfr⟩)
            | (split at h <;>
                first
                | (simp only [Option.some.injEq] at h
                   subst h
                   exact ⟨hcur, hfr⟩)
                | (split at h <;>
                    first
                    | (simp only [Option.some.injEq] at h
                       subst h
                       exact ⟨hcur, hfr⟩)
                    | cases h
                    | (split at h <;>
                        first
                        | (simp only [Option.some.injEq] at h
                           subst h
                           exact ⟨hcur, hfr⟩)
                        | cases h
                        | (split at h <;>
                            first
                            | (simp only [Option.some.injEq] at h
                               subst h
                               exact ⟨hcur, hfr⟩)
                            | cases h))))

/-- Witness for `c8_copy_on_write`: inserting key 2 into a one-key tree (no
structural change) relocates the root from offset 4116 to the fresh offset
8212. -/
theorem c8_copy_on_write_witness : (8212 : Nat) ≠ 4116 := by
  exact (c8_copy_on_write.1 10
    { degree := 4, pager := { cursor := 8212, store := [(4116, .Leaf { keys := [1], values := [100], offset := some 4116 })] }, root_node := some 4116 }
    { degree := 4, pager := { cursor := 12308, store := [(8212, .Leaf { keys := [1, 2], values := [100, 200], offset := some 4116 }), (8212, .Leaf { keys := [1], values := [100], offset := some 4116 }), (4116, .Leaf { keys := [1], values := [100], offset := some 4116 })] }, root_node := some 8212 }
    2 200 (by decide)).2.2.2 4116 8212 rfl (by decide) rfl

/-- Claim C4 as stated is false: the borrow threshold in `Node::can_borrow`
is `keys.len() >= degree / 2` (the floor), not `⌈degree / 2⌉`.  Concrete
input, degree 5: the underfull child at position 1 has a left sibling
holding 2 keys; `2 < ⌈5/2⌉ = 3`, so the claimed policy must merge (leaving
the parent with 1 key, 2 children, and returning `true`), but the code
borrows from it: the parent keeps 2 keys and 3 children and rebalance
returns `false`. -/
theorem c4_counterexample :
    ((2 : Nat) < (5 + 1) / 2)
    ∧ (InternalNode.rebalance { keys := [10, 20], children := [1000, 2000, 3000], offset := none }
        ({ cursor := 5000, store := [(1000, .Leaf { keys := [5, 7], values := [50, 70], offset := none }), (2000, .Leaf { keys := [15], values := [150], offset := none }), (3000, .Leaf { keys := [25, 27], values := [250, 270], offset := none })] } : Pager Nat Nat)
        1 (.Leaf { keys := [15], values := [150], offset := none }) 5).map
        (fun r => (r.2.1.keys, r.2.1.children.length, r.2.2))
      = some ([5, 20], 3, false) := by
  exact ⟨by decide, by decide⟩

/-- Claim C4 amended: the rebalance policy is tried in exactly the claimed
order, but with the borrow threshold `len(keys) ≥ ⌊d/2⌋` (the code's
`can_borrow`) instead of `⌈d/2⌉`.  Each conjunct characterizes one policy
outcome of `InternalNode::rebalance` on an underfull child at position `i`,
pinning the donor: a borrow from the left sibling repoints the parent's
`children[i-1]` at the left sibling's fresh copy offset, rewrites that copy
as the donor shrunk by its last entry, rewrites the child's page grown by
that entry, sets the parent separator `keys[i-1]` to the key the source
computes (the popped key for internal nodes, the shrunk donor's first key
for leaves), and returns `false`; a borrow from the right sibling is the
mirror image at `children[i+1]`/`keys[i]` with the sibling's first entry;
the source's mixed-variant arm is the exact no-op.  Merges drop separator
`i-1` (left merge) or `i` (right merge) and one child, and return
`len(keys) < ⌊d/2⌋` computed on the shrunk parent. -/
theorem c4_rebalance_policy {K V : Type} [LinearOrder K] (self : InternalNode K)
    (pg : Pager K V) (i : Nat) (child : Node K V) (d : Nat) (coff : Nat)
    (hcoff : self.children.get? i = some coff) :
    (∀ loff L pgr selfr br, 0 < i → coff < pg.cursor →
      self.children.get? (i - 1) = some loff →
      pg.read loff = some L →
      L.can_borrow d = true →
      self.rebalance pg i child d = some (pgr, selfr, br) →
      br = false
        ∧ selfr.children = self.children.set (i - 1) pg.cursor
        ∧ (match L, child with
           | .Internal ls, .Internal cs =>
             ∃ bk bc pk, ls.keys.getLast? = some bk ∧ ls.children.getLast? = some bc
               ∧ self.keys.get? (i - 1) = some pk
               ∧ selfr.keys = self.keys.set (i - 1) bk
               ∧ pgr.read pg.cursor = some (.Internal { ls with keys := ls.keys.dropLast, children := ls.children.dropLast })
               ∧ pgr.read coff = some (.Internal { cs with keys := pk :: cs.keys, children := bc :: cs.children })
           | .Leaf ls, .Leaf cs =>
             ∃ bk bv ns, ls.keys.getLast? = some bk ∧ ls.values.getLast? = some bv
               ∧ ls.keys.dropLast.get? 0 = some ns
               ∧ selfr.keys = self.keys.set (i - 1) ns
               ∧ pgr.read pg.cursor = some (.Leaf { ls with keys := ls.keys.dropLast, values := ls.values.dropLast })
               ∧ pgr.read coff = some (.Leaf { cs with keys := bk :: cs.keys, values := bv :: cs.values })
           | _, _ => pgr = (pg.write L).2
               ∧ selfr = { self with children := self.children.set (i - 1) pg.cursor }))
    ∧
    (∀ roff R pgr selfr br, i = 0 → coff < pg.cursor →
      i < self.children.length - 1 →
      self.children.get? (i + 1) = some roff →
      pg.read roff = some R →
      R.can_borrow d = true →
      self.rebalance pg i child d = some (pgr, selfr, br) →
      br = false
        ∧ selfr.children = self.children.set (i + 1) pg.cursor
        ∧ (match R, child with
           | .Internal rs, .Internal cs =>
             ∃ bk ks2 bc cks2 pk, rs.keys = bk :: ks2 ∧ rs.children = bc :: cks2
               ∧ self.keys.get? i = some pk
               ∧ selfr.keys = self.keys.set i bk
               ∧ pgr.read pg.cursor = some (.Internal { rs with keys := ks2, children := cks2 })
               ∧ pgr.read coff = some (.Internal { cs with keys := cs.keys ++ [pk], children := cs.children ++ [bc] })
           | .Leaf rs, .Leaf cs =>
             ∃ bk ks2 bv vs2, rs.keys = bk :: ks2 ∧ rs.values = bv :: vs2
               ∧ selfr.keys = self.keys.set i bk
               ∧ pgr.read pg.cursor = some (.Leaf { rs with keys := ks2, values := vs2 })
               ∧ pgr.read coff = some (.Leaf { cs with keys := cs.keys ++ [bk], values := cs.values ++ [bv] })
           | _, _ => pgr = (pg.write R).2
               ∧ selfr = { self with children := self.children.set (i + 1) pg.cursor }))
    ∧
    (∀ loff L roff R pgr selfr br, 0 < i → coff < pg.cursor →
      self.children.get? (i - 1) = some loff →
      pg.read loff = some L →
      L.can_borrow d = false →
      i < self.children.length - 1 →
      self.children.get? (i + 1) = some roff →
      roff < pg.cursor →
      pg.read roff = some R →
      R.can_borrow d = true →
      self.rebalance pg i child d = some (pgr, selfr, br) →
      br = false
        ∧ selfr.children = (self.children.set (i - 1) pg.cursor).set (i + 1) (pg.cursor + PAGE_SIZE)
        ∧ (match R, child with
           | .Internal rs, .Internal cs =>
             ∃ bk ks2 bc cks2 pk, rs.keys = bk :: ks2 ∧ rs.children = bc :: cks2
               ∧ self.keys.get? i = some pk
               ∧ selfr.keys = self.keys.set i bk
               ∧ pgr.read (pg.cursor + PAGE_SIZE) = some (.Internal { rs with keys := ks2, children := cks2 })
               ∧ pgr.read coff = some (.Internal { cs with keys := cs.keys ++ [pk], children := cs.children ++ [bc] })
           | .Leaf rs, .Leaf cs =>
             ∃ bk ks2 bv vs2, rs.keys = bk :: ks2 ∧ rs.values = bv :: vs2
               ∧ selfr.keys = self.keys.set i bk
               ∧ pgr.read (pg.cursor + PAGE_SIZE) = some (.Leaf { rs with keys := ks2, values := vs2 })
               ∧ pgr.read coff = some (.Leaf { cs with keys := cs.keys ++ [bk], values := cs.values ++ [bv] })
           | _, _ => pgr = ((pg.write L).2.write R).2
               ∧ selfr = { self with children := (self.children.set (i - 1) pg.cursor).set (i + 1) (pg.cursor + PAGE_SIZE) }))
    ∧
    (∀ loff L roff R pgr selfr br, 0 < i →
      self.children.get? (i - 1) = some loff →
      pg.read loff = some L →
      L.can_borrow d = false →
      i < self.children.length - 1 →
      self.children.get? (i + 1) = some roff →
      roff < pg.cursor →
      pg.read roff = some R →
      R.can_borrow d = false →
      sameVariant L child = true →
      self.rebalance pg i child d = some (pgr, selfr, br) →
      selfr.keys = self.keys.eraseIdx (i - 1)
        ∧ selfr.children.length = self.children.length - 1
        ∧ br = decide (selfr.keys.length < d / 2))
    ∧
    (∀ loff L pgr selfr br, 0 < i →
      self.children.get? (i - 1) = some loff →
      pg.read loff = some L →
      L.can_borrow d = false →
      ¬ (i < self.children.length - 1) →
      sameVariant L child = true →
      self.rebalance pg i child d = some (pgr, selfr, br) →
      selfr.keys = self.keys.eraseIdx (i - 1)
        ∧ selfr.children.length = self.children.length - 1
        ∧ br = decide (selfr.keys.length < d / 2))
    ∧
    (∀ roff R pgr selfr br, i = 0 →
      i < self.children.length - 1 →
      self.children.get? (i + 1) = some roff →
      pg.read roff = some R →
      R.can_borrow d = false →
      sameVariant child R = true →
      self.rebalance pg i child d = some (pgr, selfr, br) →
      selfr.keys = self.keys.eraseIdx i
        ∧ selfr.children.length = self.children.length - 1
        ∧ br = decide (selfr.keys.length < d / 2)) := by
  refine ⟨?_, ?_, ?_, ?_, ?_, ?_⟩
  · intro loff L pgr selfr br hi hfr hlo hread hcb hreb
    rw [InternalNode.rebalance] at hreb
    rw [hcoff] at hreb
    simp only [] at hreb
    rw [if_pos hi] at hreb
    rw [hlo] at hreb
    simp only [] at hreb
    rw [hread] at hreb
    simp only [Pager.write] at hreb
    rw [hcb] at hreb
    rw [if_pos rfl] at hreb
    split at hreb
    · cases hreb
    · rename_i pg2 self2 heq
      simp only [Option.some.injEq, Prod.mk.injEq] at hreb
      obtain ⟨h1, h2, h3⟩ := hreb
      subst h1
      subst h2
      subst h3
      refine ⟨rfl, (borrow_left_shape heq).2, ?_⟩
      cases L with
      | Internal ls =>
        cases child with
        | Internal cs => exact (borrow_left_spec_internal (by omega) heq).2
        | Leaf cs =>
          simp only [InternalNode.borrow_left] at heq
          rw [if_neg (by omega : ¬ i = 0)] at heq
          simp only [Option.some.injEq, Prod.mk.injEq] at heq
          obtain ⟨e1, e2⟩ := heq
          subst e1
          subst e2
          exact ⟨rfl, rfl⟩
      | Leaf ls =>
        cases child with
        | Leaf cs => exact (borrow_left_spec_leaf (by omega) heq).2
        | Internal cs =>
          simp only [InternalNode.borrow_left] at heq
          rw [if_neg (by omega : ¬ i = 0)] at heq
          simp only [Option.some.injEq, Prod.mk.injEq] at heq
          obtain ⟨e1, e2⟩ := heq
          subst e1
          subst e2
          exact ⟨rfl, rfl⟩
  · intro roff R pgr selfr br hi0 hfr hlt hro hread hcb hreb
    subst hi0
    rw [InternalNode.rebalance] at hreb
    rw [hcoff] at hreb
    simp only [] at hreb
    rw [if_neg (by omega)] at hreb
    rw [InternalNode.rebalance_try_right] at hreb
    rw [if_pos hlt] at hreb
    rw [hro] at hreb
    simp only [] at hreb
    rw [hread] at hreb
    simp only [Pager.write] at hreb
    rw [hcb] at hreb
    rw [if_pos rfl] at hreb
    split at hreb
    · cases hreb
    · rename_i pg2 self2 heq
      simp only [Option.some.injEq, Prod.mk.injEq] at hreb
      obtain ⟨h1, h2, h3⟩ := hreb
      subst h1
      subst h2
      subst h3
      refine ⟨rfl, (borrow_right_shape heq).2, ?_⟩
      cases R with
      | Internal rs =>
        cases child with
        | Internal cs => exact (borrow_right_spec_internal (by omega) heq).2
        | Leaf cs =>
          simp only [InternalNode.borrow_right] at heq
          simp only [Option.some.injEq, Prod.mk.injEq] at heq
          obtain ⟨e1, e2⟩ := heq
          subst e1
          subst e2
          exact ⟨rfl, rfl⟩
      | Leaf rs =>
        cases child with
        | Leaf cs => exact (borrow_right_spec_leaf (by omega) heq).2
        | Internal cs =>
          simp only [InternalNode.borrow_right] at heq
          simp only [Option.some.injEq, Prod.mk.injEq] at heq
          obtain ⟨e1, e2⟩ := heq
          subst e1
          subst e2
          exact ⟨rfl, rfl⟩
  · intro loff L roff R pgr selfr br hi hfr hlo hreadL hcbL hlt hro hfresh hreadR hcbR hreb
    have hpos : 0 < PAGE_SIZE := by decide
    rw [InternalNode.rebalance] at hreb
    rw [hcoff] at hreb
    simp only [] at hreb
    rw [if_pos hi] at hreb
    rw [hlo] at hreb
    simp only [] at hreb
    rw [hreadL] at hreb
    simp only [Pager.write] at hreb
    rw [hcbL] at hreb
    rw [if_neg (by simp)] at hreb
    rw [InternalNode.rebalance_try_right] at hreb
    simp only [List.length_set] at hreb
    rw [if_pos hlt] at hreb
    rw [List.get?_set_ne _ _ (by omega : i - 1 ≠ i + 1)] at hreb
    rw [hro] at hreb
    simp only [Pager.read, storeLookup] at hreb
    rw [if_neg (by omega : ¬ pg.cursor = roff)] at hreb
    have hreadR2 : storeLookup pg.store roff = some R := hreadR
    rw [hreadR2] at hreb
    simp only [Pager.write] at hreb
    rw [hcbR] at hreb
    rw [if_pos rfl] at hreb
    split at hreb
    · cases hreb
    · rename_i pg2 self2 heq
      simp only [Option.some.injEq, Prod.mk.injEq] at hreb
      obtain ⟨h1, h2, h3⟩ := hreb
      subst h1
      subst h2
      subst h3
      refine ⟨rfl, (borrow_right_shape heq).2, ?_⟩
      cases R with
      | Internal rs =>
        cases child with
        | Internal cs => exact (borrow_right_spec_internal (by omega) heq).2
        | Leaf cs =>
          simp only [InternalNode.borrow_right] at heq
          simp only [Option.some.injEq, Prod.mk.injEq] at heq
          obtain ⟨e1, e2⟩ := heq
          subst e1
          subst e2
          exact ⟨rfl, rfl⟩
      | Leaf rs =>
        cases child with
        | Leaf cs => exact (borrow_right_spec_leaf (by omega) heq).2
        | Internal cs =>
          simp only [InternalNode.borrow_right] at heq
          simp only [Option.some.injEq, Prod.mk.injEq] at heq
          obtain ⟨e1, e2⟩ := heq
          subst e1
          subst e2
          exact ⟨rfl, rfl⟩
  · intro loff L roff R pgr selfr br hi hlo hreadL hcbL hlt hro hfresh hreadR hcbR hv hreb
    have hpos : 0 < PAGE_SIZE := by decide
    have hilen : i < self.children.length := by
      obtain ⟨h, _⟩ := List.get?_eq_some.mp hcoff
      exact h
    have hil1 : i - 1 < self.children.length := by omega
    rw [InternalNode.rebalance] at hreb
    rw [hcoff] at hreb
    simp only [] at hreb
    rw [if_pos hi] at hreb
    rw [hlo] at hreb
    simp only [] at hreb
    rw [hreadL] at hreb
    simp only [Pager.write] at hreb
    rw [hcbL] at hreb
    rw [if_neg (by simp)] at hreb
    rw [InternalNode.rebalance_try_right] at hreb
    simp only [List.length_set] at hreb
    rw [if_pos hlt] at hreb
    rw [List.get?_set_ne _ _ (by omega : i - 1 ≠ i + 1)] at hreb
    rw [hro] at hreb
    simp only [Pager.read, storeLookup] at hreb
    rw [if_neg (by omega : ¬ pg.cursor = roff)] at hreb
    have hreadR2 : storeLookup pg.store roff = some R := hreadR
    rw [hreadR2] at hreb
    simp only [Pager.write] at hreb
    rw [hcbR] at hreb
    rw [if_neg (by simp)] at hreb
    rw [InternalNode.rebalance_merge] at hreb
    rw [if_pos hi] at hreb
    rw [List.get?_set_ne _ _ (by omega : i + 1 ≠ i - 1)] at hreb
    rw [List.get?_set_eq_of_lt _ (by simpa using hil1)] at hreb
    simp only [Pager.read, storeLookup] at hreb
    rw [if_neg (by omega : ¬ pg.cursor + PAGE_SIZE = pg.cursor)] at hreb
    simp only [if_true] at hreb
    simp only [Pager.write] at hreb
    split at hreb
    · cases hreb
    · rename_i pg2 self2 heq
      simp only [Option.some.injEq, Prod.mk.injEq] at hreb
      obtain ⟨h1, h2, h3⟩ := hreb
      subst h1
      subst h2
      subst h3
      obtain ⟨hk, hc⟩ := merge_left_shape hv heq
      refine ⟨hk, ?_, rfl⟩
      rw [hc]
      rw [List.length_eraseIdx_of_lt (by simpa [List.length_set] using hilen)]
      simp [List.length_set]
  · intro loff L pgr selfr br hi hlo hreadL hcbL hnr hv hreb
    have hpos : 0 < PAGE_SIZE := by decide
    have hilen : i < self.children.length := by
      obtain ⟨h, _⟩ := List.get?_eq_some.mp hcoff
      exact h
    have hil1 : i - 1 < self.children.length := by omega
    rw [InternalNode.rebalance] at hreb
    rw [hcoff] at hreb
    simp only [] at hreb
    rw [if_pos hi] at hreb
    rw [hlo] at hreb
    simp only [] at hreb
    rw [hreadL] at hreb
    simp only [Pager.write] at hreb
    rw [hcbL] at hreb
    rw [if_neg (by simp)] at hreb
    rw [InternalNode.rebalance_try_right] at hreb
    simp only [List.length_set] at hreb
    rw [if_neg hnr] at hreb
    rw [InternalNode.rebalance_merge] at hreb
    rw [if_pos hi] at hreb
    rw [List.get?_set_eq_of_lt _ (by simpa using hil1)] at hreb
    simp only [Pager.read, storeLookup] at hreb
    simp only [if_true] at hreb
    simp only [Pager.write] at hreb
    split at hreb
    · cases hreb
    · rename_i pg2 self2 heq
      simp only [Option.some.injEq, Prod.mk.injEq] at hreb
      obtain ⟨h1, h2, h3⟩ := hreb
      subst h1
      subst h2
      subst h3
      obtain ⟨hk, hc⟩ := merge_left_shape hv heq
      refine ⟨hk, ?_, rfl⟩
      rw [hc]
      rw [List.length_eraseIdx_of_lt (by simpa [List.length_set] using hilen)]
      simp [List.length_set]
  · intro roff R pgr selfr br hi0 hlt hro hreadR hcbR hv hreb
    subst hi0
    have hpos : 0 < PAGE_SIZE := by decide
    have hlen1 : 0 + 1 < self.children.length := by
      obtain ⟨h, _⟩ := List.get?_eq_some.mp hro
      exact h
    rw [InternalNode.rebalance] at hreb
    rw [hcoff] at hreb
    simp only [] at hreb
    rw [if_neg (by omega)] at hreb
    rw [InternalNode.rebalance_try_right] at hreb
    rw [if_pos hlt] at hreb
    rw [hro] at hreb
    simp only [] at hreb
    rw [hreadR] at hreb
    simp only [Pager.write] at hreb
    rw [hcbR] at hreb
    rw [if_neg (by simp)] at hreb
    rw [InternalNode.rebalance_merge] at hreb
    rw [if_neg (by omega : ¬ (0 : Nat) < 0)] at hreb
    rw [List.get?_set_eq_of_lt _ (by simpa using hlen1)] at hreb
    simp only [Pager.read, storeLookup] at hreb
    simp only [if_true] at hreb
    simp only [Pager.write] at hreb
    split at hreb
    · cases hreb
    · rename_i pg2 self2 heq
      simp only [Option.some.injEq, Prod.mk.injEq] at hreb
      obtain ⟨h1, h2, h3⟩ := hreb
      subst h1
      subst h2
      subst h3
      obtain ⟨hk, hc⟩ := merge_right_shape hv heq
      refine ⟨hk, ?_, rfl⟩
      rw [hc]
      rw [List.length_eraseIdx_of_lt (by simpa [List.length_set] using hlen1)]
      simp [List.length_set]


/-- Witness for `c4_rebalance_policy`: the borrow-from-left conjunct applied
at the degree-5 state of `c4_counterexample`, where the left leaf sibling
holds exactly ⌊5/2⌋ = 2 keys and donates its last entry (7, 70): the parent
repoints `children[0]` at the donor's copy offset 5000, the copy holds the
donor shrunk to `[5]`, the child's page holds `[7, 15]`, and the separator
becomes the shrunk donor's first key 5. -/
theorem c4_rebalance_policy_witness :
    false = false
    ∧ ([5000, 2000, 3000] : List Nat) = ([1000, 2000, 3000] : List Nat).set 0 5000
    ∧ (∃ bk bv ns, ([5, 7] : List Nat).getLast? = some bk
        ∧ ([50, 70] : List Nat).getLast? = some bv
        ∧ ([5, 7] : List Nat).dropLast.get? 0 = some ns
        ∧ ([5, 20] : List Nat) = ([10, 20] : List Nat).set 0 ns
        ∧ Pager.read ({ cursor := 9096, store := [(2000, .Leaf { keys := [7, 15], values := [70, 150], offset := none }), (5000, .Leaf { keys := [5], values := [50], offset := none }), (5000, .Leaf { keys := [5, 7], values := [50, 70], offset := none }), (1000, .Leaf { keys := [5, 7], values := [50, 70], offset := none }), (2000, .Leaf { keys := [15], values := [150], offset := none }), (3000, .Leaf { keys := [25, 27], values := [250, 270], offset := none })] } : Pager Nat Nat) 5000
          = some (.Leaf { keys := ([5, 7] : List Nat).dropLast, values := ([50, 70] : List Nat).dropLast, offset := none })
        ∧ Pager.read ({ cursor := 9096, store := [(2000, .Leaf { keys := [7, 15], values := [70, 150], offset := none }), (5000, .Leaf { keys := [5], values := [50], offset := none }), (5000, .Leaf { keys := [5, 7], values := [50, 70], offset := none }), (1000, .Leaf { keys := [5, 7], values := [50, 70], offset := none }), (2000, .Leaf { keys := [15], values := [150], offset := none }), (3000, .Leaf { keys := [25, 27], values := [250, 270], offset := none })] } : Pager Nat Nat) 2000
          = some (.Leaf { keys := bk :: [15], values := bv :: [150], offset := none })) := by
  exact (c4_rebalance_policy
    { keys := [10, 20], children := [1000, 2000, 3000], offset := none }
    ({ cursor := 5000, store := [(1000, .Leaf { keys := [5, 7], values := [50, 70], offset := none }), (2000, .Leaf { keys := [15], values := [150], offset := none }), (3000, .Leaf { keys := [25, 27], values := [250, 270], offset := none })] } : Pager Nat Nat)
    1 (.Leaf { keys := [15], values := [150], offset := none }) 5 2000 (by decide)).1
    1000 (.Leaf { keys := [5, 7], values := [50, 70], offset := none })
    { cursor := 9096, store := [(2000, .Leaf { keys := [7, 15], values := [70, 150], offset := none }), (5000, .Leaf { keys := [5], values := [50], offset := none }), (5000, .Leaf { keys := [5, 7], values := [50, 70], offset := none }), (1000, .Leaf { keys := [5, 7], values := [50, 70], offset := none }), (2000, .Leaf { keys := [15], values := [150], offset := none }), (3000, .Leaf { keys := [25, 27], values := [250, 270], offset := none })] }
    { keys := [5, 20], children := [5000, 2000, 3000], offset := none } false
    (by decide) (by decide) (by decide) (by decide) (by decide) (by decide)

/-- Claim C6 is false of the code, in two escalating ways.  (1) The strict
form never holds: after the four inserts of `c6ops` at degree 4, the root
separator 6 also sits as the last key of the left leaf (`LeafNode::split`
promotes a copy of `keys[split_index - 1]`, which stays in the left half),
so "strictly less" fails already on insert-only workloads.  (2) Even the
relaxed form (left subtree keys ≤ separator) is destroyed by delete: in the
leaf arm of `InternalNode::borrow_left` the code sets the parent separator
to `sibling.keys[0]` — the donor's first remaining key — where the spec
(§4.3, Borrow-left leaf case) prescribes the just-moved key.  After the
eight calls of `c6dops` the root is `[0]` over leaves `[0, 1]` and `[2, 3]`:
the key 1 in the left subtree exceeds the separator 0, and `search(1)`
consequently returns the empty optional although 1 is stored in the tree. -/
theorem c6_code_bug_eval :
    (runOps 4 10 c6ops = some c6state
      ∧ c6state.root_node = some 24596
      ∧ Abs c6state.pager (fun o => o < c6state.pager.cursor) 24596 c6tree
      ∧ ¬ StrictSep c6tree)
    ∧ (runOps 4 10 c6dops = some c6dstate
      ∧ c6dstate.root_node = some 53268
      ∧ Abs c6dstate.pager (fun o => o < c6dstate.pager.cursor) 53268 c6dtree
      ∧ ¬ Sep c6dtree
      ∧ BPTree.search 10 c6dstate 1 = some none) := by
  refine ⟨⟨by decide, by decide, ?_, ?_⟩, ⟨by decide, by decide, ?_, ?_, by decide⟩⟩
  · refine @Abs.node Nat Nat c6state.pager (fun o => o < c6state.pager.cursor) 24596
      { keys := [6], children := [16404, 20500], offset := some 24596 }
      [PTree.leaf [5, 6] [105, 106], PTree.leaf [10, 20] [110, 120]]
      (by decide) (by decide) (by decide) ?_
    refine List.Forall₂.cons
      (@Abs.leaf Nat Nat c6state.pager (fun o => o < c6state.pager.cursor) 16404
        { keys := [5, 6], values := [105, 106], offset := some 4116 } (by decide) (by decide)) ?_
    exact List.Forall₂.cons
      (@Abs.leaf Nat Nat c6state.pager (fun o => o < c6state.pager.cursor) 20500
        { keys := [10, 20], values := [110, 120], offset := some 20500 } (by decide) (by decide))
      List.Forall₂.nil
  · intro hs
    cases hs with
    | node hl hr hc =>
      have h6 : KeyIn (6 : Nat) (PTree.leaf [5, 6] [105, 106] : PTree Nat Nat) :=
        KeyIn.leaf (by decide)
      have := hl 0 6 (PTree.leaf [5, 6] [105, 106]) rfl rfl 6 h6
      exact absurd this (by decide)
  · refine @Abs.node Nat Nat c6dstate.pager (fun o => o < c6dstate.pager.cursor) 53268
      { keys := [0], children := [61460, 57364], offset := some 24596 }
      [PTree.leaf [0, 1] [100, 101], PTree.leaf [2, 3] [102, 103]]
      (by decide) (by decide) (by decide) ?_
    refine List.Forall₂.cons
      (@Abs.leaf Nat Nat c6dstate.pager (fun o => o < c6dstate.pager.cursor) 61460
        { keys := [0, 1], values := [100, 101], offset := some 4116 } (by decide) (by decide)) ?_
    exact List.Forall₂.cons
      (@Abs.leaf Nat Nat c6dstate.pager (fun o => o < c6dstate.pager.cursor) 57364
        { keys := [2, 3], values := [102, 103], offset := some 20500 } (by decide) (by decide))
      List.Forall₂.nil
  · intro hs
    cases hs with
    | node hl hr hc =>
      have h1 : KeyIn (1 : Nat) (PTree.leaf [0, 1] [100, 101] : PTree Nat Nat) :=
        KeyIn.leaf (by decide)
      have := hl 0 0 (PTree.leaf [0, 1] [100, 101]) rfl rfl 1 h1
      exact absurd this (by decide)

end BPTreeModel
